import Mathlib

/-!
# Verification of the `egui-ssh-config-editor` core (`src/ssh_config.rs`)

This file gives a shallow embedding of the parse/model/serialize engine of
the repository: the `ConfigLine`/`SshConfig` data model, the recursive
parser `parse_file`/`parse_content`/`parse_include`, the per-file
serializer `to_string`, and the persistence routine `save_all`.

Strings from the Rust side are modelled as `List Char` (`Str`), so that the
character-level operations used by the parser (`str::trim`,
`str::splitn(2, char::is_whitespace)`, `str::lines`, `starts_with '#'`,
`to_lowercase`) can be given faithful executable definitions.

The ambient filesystem is modelled by an abstract structure `FS`:
  * `read p` is `fs::read_to_string(p)` (`none` = the read fails);
  * `readErr p` is the OS error text produced when reading `p` fails;
  * `isFile p` is `Path::is_file`;
  * `canon p` is `Path::canonicalize` with the code's fallback to the
    literal path on failure (hence a total function);
  * `resolve v base` models the path resolution of `parse_include`
    (`~`-expansion, joining relative paths onto the including file's
    directory, and glob expansion): it returns the ordered candidate paths
    produced by the glob walk; the code's fallback branch (a malformed glob
    treated as a single literal file) is the singleton-candidate instance of
    the same shape, since both branches filter candidates with `is_file`,
    apply the same visited-set check, and read/parse each survivor;
  * `writeErr p` is `none` when `fs::write(p, ..)` succeeds and
    `some e` (the OS error text) when it fails.

Include recursion in the Rust code terminates because the filesystem is
finite; the embedding makes the recursion structurally total with a `fuel`
parameter that is consumed exactly when `parse_include` descends into the
content of a newly-visited included file.  All general theorems below are
proved for every `fuel`, and concrete runs use an explicitly sufficient
fuel.
-/

/-- Rust string contents are modelled as lists of characters. -/
abbrev Str := List Char

/-- `char::is_whitespace`: the Unicode `White_Space` property, written out
as the explicit code-point list. -/
def rustWs (c : Char) : Bool :=
  c = ' ' || c = '\t' || c = '\n' || c = Char.ofNat 0x0B || c = Char.ofNat 0x0C ||
  c = '\r' || c = Char.ofNat 0x85 || c = Char.ofNat 0xA0 || c = Char.ofNat 0x1680 ||
  (0x2000 ≤ c.toNat && c.toNat ≤ 0x200A) || c = Char.ofNat 0x2028 ||
  c = Char.ofNat 0x2029 || c = Char.ofNat 0x202F || c = Char.ofNat 0x205F ||
  c = Char.ofNat 0x3000

/-- `str::trim_start`. -/
def trimLeft (s : Str) : Str := s.dropWhile rustWs

/-- `str::trim_end`. -/
def trimRight (s : Str) : Str := (s.reverse.dropWhile rustWs).reverse

/-- `str::trim`. -/
def trim (s : Str) : Str := trimRight (trimLeft s)

/-- `trimmed.splitn(2, char::is_whitespace)`: `none` when the string
contains no whitespace (so the `Vec` of parts has length `< 2`), otherwise
the part before the first whitespace character and the remainder after it. -/
def splitFirstWs : Str → Option (Str × Str)
  | [] => none
  | c :: cs =>
    if rustWs c then some ([], cs)
    else match splitFirstWs cs with
      | some (k, r) => some (c :: k, r)
      | none => none

/-- `str::to_lowercase`, restricted to the ASCII simple case mapping.
The parser only compares lowercased keys against the ASCII literals
`"host"` and `"include"`; the only non-ASCII characters whose Unicode
lowercase mapping contains an ASCII letter of those words are mapped by
Unicode to strings that still differ from them (e.g. `İ` lowercases to
`i` followed by a combining dot above), so the ASCII restriction makes
exactly the same comparisons succeed. -/
def toLowercase (s : Str) : Str := s.map Char.toLower

/-- Splits off the first physical line: returns the characters before the
first `'\n'` and, when a `'\n'` exists, the remainder after it. -/
def breakNl : Str → Str × Option Str
  | [] => ([], none)
  | c :: cs =>
    if c = '\n' then ([], some cs)
    else
      let r := breakNl cs
      (c :: r.1, r.2)

theorem breakNl_rest_length : ∀ (s : Str) (l r : Str),
    breakNl s = (l, some r) → r.length < s.length := by
  intro s
  induction s with
  | nil => intro l r h; simp [breakNl] at h
  | cons c cs ih =>
    intro l r h
    by_cases hc : c = '\n'
    · simp [breakNl, hc] at h
      simp [← h.2]
    · simp [breakNl, hc] at h
      rcases hbr : breakNl cs with ⟨l', r'⟩
      rw [hbr] at h
      cases r' with
      | none => simp at h
      | some rr =>
        simp at h
        have := ih l' rr hbr
        simp [← h.2]
        omega

/-- Strips one trailing `'\r'`, as `str::lines` does for lines terminated
by `"\r\n"`. -/
def stripCr (s : Str) : Str :=
  match s.getLast? with
  | some '\r' => s.dropLast
  | _ => s

/-- `str::lines`: split on `'\n'`, strip one `'\r'` from the end of each
line that was terminated by `'\n'`, keep a final unterminated line as-is,
and do not produce a trailing empty line for input ending in `'\n'`. -/
def rustLines (s : Str) : List Str :=
  match hs : s with
  | [] => []
  | _ :: _ =>
    match hbr : breakNl s with
    | (l, none) => [l]
    | (l, some rest) => stripCr l :: rustLines rest
termination_by s.length
decreasing_by
  subst hs; exact breakNl_rest_length _ _ _ hbr

/-! ## Data model (`ConfigLine`, `IncludedFileData`, `SshConfig`, the filesystem) -/

/-- Paths (`PathBuf`) are abstract identifiers compared for equality only. -/
abbrev FsPath := String

/-- `enum ConfigLine`.  The Rust variant `Include` is named `incl` here
because `include` is a Lean keyword. -/
inductive ConfigLine where
  | comment (text : Str) (source_file : FsPath)
  | empty (source_file : FsPath)
  | incl (path : Str) (source_file : FsPath)
  | hostEntry (pattern : Str) (options : List (Str × Str)) (source_file : FsPath)
  | globalOption (key : Str) (value : Str) (source_file : FsPath)
deriving DecidableEq, Repr

/-- The `source_file` field common to every variant (the `match` at the top
of `SshConfig::to_string`). -/
def ConfigLine.source : ConfigLine → FsPath
  | .comment _ f => f
  | .empty f => f
  | .incl _ f => f
  | .hostEntry _ _ f => f
  | .globalOption _ _ f => f

/-- `struct IncludedFileData`. -/
structure IncludedFileData where
  content : Str
  lines : List ConfigLine
deriving DecidableEq, Repr

/-- `struct SshConfig`.  `HashMap` and `HashSet` are modelled as lists:
`included_files` in insertion order (the map's keys are pairwise distinct,
see `gpres`), `visited_files` with membership as the only observation. -/
structure SshConfig where
  lines : List ConfigLine
  included_files : List (FsPath × IncludedFileData)
  visited_files : List FsPath
deriving DecidableEq, Repr

/-- The ambient filesystem and OS environment (see the header comment). -/
structure FS where
  isFile : FsPath → Bool
  read : FsPath → Option Str
  readErr : FsPath → String
  canon : FsPath → FsPath
  resolve : Str → FsPath → List FsPath
  writeErr : FsPath → Option String

/-! ## The parser -/

/-- `trimmed.starts_with('#')`. -/
def isCommentLine (l : Str) : Bool := (trim l).head? = some '#'

/-- `trimmed.is_empty()`. -/
def isBlankLine (l : Str) : Bool := trim l = []

/-- The key/value split of one line: `trimmed.splitn(2, char::is_whitespace)`
followed by `parts[0].trim()` / `parts[1].trim()`; `none` when
`parts.len() < 2` (the silently dropped malformed case). -/
def keyValOf (l : Str) : Option (Str × Str) :=
  match splitFirstWs (trim l) with
  | some (k, r) => some (trim k, trim r)
  | none => none

/-- `"host".to_string()` as a character list. -/
def hostKw : Str := ['h', 'o', 's', 't']

/-- `"include".to_string()` as a character list. -/
def includeKw : Str := ['i', 'n', 'c', 'l', 'u', 'd', 'e']

/-- Append one parsed line (`self.lines.push(..)`). -/
def pushLine (st : SshConfig) (l : ConfigLine) : SshConfig :=
  { st with lines := st.lines ++ [l] }

/-- `if let Some((pattern, options)) = current_host.take() { push HostEntry }`. -/
def flushHost (cur : Option (Str × List (Str × Str))) (base : FsPath)
    (st : SshConfig) : SshConfig :=
  match cur with
  | none => st
  | some (p, o) => pushLine st (.hostEntry p o base)

/-- `self.included_files.insert(path, IncludedFileData { content, lines: Vec::new() })`. -/
def pushIncluded (st : SshConfig) (p : FsPath) (c : Str) : SshConfig :=
  { st with included_files := st.included_files ++ [(p, ⟨c, []⟩)] }

/-- Insertion into the visited `HashSet`. -/
def pushVisited (st : SshConfig) (p : FsPath) : SshConfig :=
  { st with visited_files := p :: st.visited_files }

mutual

/-- `SshConfig::parse_content`, processing the (already split) physical
lines of one file.  `cur` is the local `current_host` accumulator; `fuel`
bounds the depth of include recursion (see the header comment). -/
def parseContent (fs : FS) (fuel : Nat) :
    List Str → FsPath → Option (Str × List (Str × Str)) → SshConfig → SshConfig
  | [], base, cur, st => flushHost cur base st
  | l :: ls, base, cur, st =>
    if isCommentLine l then
      parseContent fs fuel ls base none (pushLine (flushHost cur base st) (.comment l base))
    else if isBlankLine l then
      parseContent fs fuel ls base none (pushLine (flushHost cur base st) (.empty base))
    else
      match keyValOf l with
      | none => parseContent fs fuel ls base cur st
      | some (k, v) =>
        if toLowercase k = hostKw then
          parseContent fs fuel ls base (some (v, [])) (flushHost cur base st)
        else if toLowercase k = includeKw then
          parseContent fs fuel ls base none
            (parseInclude fs fuel v base (pushLine (flushHost cur base st) (.incl v base)))
        else
          match cur with
          | some (p, opts) => parseContent fs fuel ls base (some (p, opts ++ [(k, v)])) st
          | none => parseContent fs fuel ls base none (pushLine st (.globalOption k v base))
termination_by ls _ _ _ => (fuel, 3, ls.length)
decreasing_by
  all_goals simp_wf
  all_goals first
    | exact Prod.Lex.right _ (Prod.Lex.right _ (by omega))
    | exact Prod.Lex.right _ (Prod.Lex.left _ _ (by omega))
    | exact Prod.Lex.left _ _ (by omega)

/-- `SshConfig::parse_include`: resolve the raw pattern against the
filesystem and process each candidate path. -/
def parseInclude (fs : FS) (fuel : Nat) (v : Str) (base : FsPath) (st : SshConfig) :
    SshConfig :=
  parseCands fs fuel (fs.resolve v base) st
termination_by (fuel, 2, 0)
decreasing_by
  simp_wf
  exact Prod.Lex.right _ (Prod.Lex.left _ _ (by omega))

/-- The loop over glob candidates in `parse_include`: keep regular files,
skip paths whose canonical form was already visited, mark the canonical
path visited, read the file (an unreadable file is skipped), parse its
content recursively (`parseOne`) and record it in `included_files`. -/
def parseCands (fs : FS) (fuel : Nat) : List FsPath → SshConfig → SshConfig
  | [], st => st
  | p :: ps, st =>
    if fs.isFile p then
      if fs.canon p ∈ st.visited_files then parseCands fs fuel ps st
      else
        match fs.read p with
        | none => parseCands fs fuel ps (pushVisited st (fs.canon p))
        | some c => parseCands fs fuel ps (parseOne fs fuel p c (pushVisited st (fs.canon p)))
    else parseCands fs fuel ps st
termination_by cands _ => (fuel, 1, cands.length)
decreasing_by
  all_goals simp_wf
  all_goals first
    | exact Prod.Lex.right _ (Prod.Lex.right _ (by omega))
    | exact Prod.Lex.right _ (Prod.Lex.left _ _ (by omega))
    | exact Prod.Lex.left _ _ (by omega)

/-- The body processing one readable included file: parse its content
recursively and record it in `included_files`.  The `fuel = 0` cutoff (the
skipped body) is never reached in runs with sufficient fuel. -/
def parseOne (fs : FS) : Nat → FsPath → Str → SshConfig → SshConfig
  | 0, _, _, st => st
  | fuel' + 1, p, c, st =>
    pushIncluded (parseContent fs fuel' (rustLines c) p none st) p c
termination_by fuel _ _ _ => (fuel, 0, 0)
decreasing_by
  simp_wf
  exact Prod.Lex.left _ _ (by omega)

end

/-- `SshConfig::parse_file`: read the root file (its failure is the only
error), seed the visited set with the root's canonical path, and parse. -/
def parse_file (fs : FS) (fuel : Nat) (path : FsPath) : Except String SshConfig :=
  match fs.read path with
  | none => .error (fs.readErr path)
  | some content =>
    .ok (parseContent fs fuel (rustLines content) path none
      { lines := [], included_files := [], visited_files := [fs.canon path] })

/-! ## The serializer (`SshConfig::to_string`) and persistence (`save_all`) -/

/-- The text emitted by `SshConfig::to_string` for one line that survives
the source-file filter. -/
def renderLine : ConfigLine → Str
  | .comment t _ => t ++ ['\n']
  | .empty _ => ['\n']
  | .incl p _ => ("Include ").toList ++ p ++ ['\n']
  | .hostEntry pat opts _ =>
    ("Host ").toList ++ pat ++ '\n' ::
      (opts.map (fun kv => ("    ").toList ++ kv.1 ++ ' ' :: kv.2 ++ ['\n'])).flatten
  | .globalOption k v _ => k ++ ' ' :: v ++ ['\n']

/-- The lines of a document whose `source_file` equals the target file
(the `continue` filter in `to_string`). -/
def filterSource (f : FsPath) (L : List ConfigLine) : List ConfigLine :=
  L.filter (fun l => l.source = f)

/-- Emission of a list of lines (already filtered). -/
def renderLines (L : List ConfigLine) : Str := (L.map renderLine).flatten

/-- `SshConfig::to_string(&self, file_path)`: one pass over `self.lines`,
skipping lines from other files and emitting the rest in order.  The
single Rust loop is factored here into filter-then-emit, which performs
the identical tests and appends in the identical order. -/
def SshConfig.to_string (cfg : SshConfig) (file_path : FsPath) : Str :=
  renderLines (filterSource file_path cfg.lines)

/-- The write sequence attempted by `save_all`: the rendered main file
first, then one rendered file per key of `included_files` (the `HashMap`
iteration order is modelled as insertion order; no claim depends on it).
Returns the writes performed, in order, and the error of the first failing
write if any: a failing write aborts the remaining writes, and writes
already performed stay (there is no rollback in the code). -/
def writeSeq (fs : FS) : List (FsPath × Str) → List (FsPath × Str) × Option String
  | [] => ([], none)
  | (p, c) :: rest =>
    match fs.writeErr p with
    | some e => ([], some e)
    | none =>
      let r := writeSeq fs rest
      ((p, c) :: r.1, r.2)

/-- The list of `(path, rendered content)` pairs `save_all` writes. -/
def saveSeq (cfg : SshConfig) (main_path : FsPath) : List (FsPath × Str) :=
  (main_path, cfg.to_string main_path) ::
    cfg.included_files.map (fun e => (e.1, cfg.to_string e.1))

/-- `SshConfig::save_all` as a trace: performed writes plus optional error. -/
def save_allTrace (fs : FS) (cfg : SshConfig) (main_path : FsPath) :
    List (FsPath × Str) × Option String :=
  writeSeq fs (saveSeq cfg main_path)

/-- `SshConfig::save_all`'s result value. -/
def save_all (fs : FS) (cfg : SshConfig) (main_path : FsPath) : Except String Unit :=
  match (save_allTrace fs cfg main_path).2 with
  | some e => .error e
  | none => .ok ()

/-- The filesystem after a fully successful `save_all` of document `cfg`
with main file `main_path`: every written path (the main file and every
key of `included_files`) now reads back as its rendered content; nothing
else changes.  Writes overwrite in place, and every written path already
existed as a readable regular file, so `isFile`, `canon` and `resolve`
are unaffected. -/
def saveFS (fs : FS) (cfg : SshConfig) (main_path : FsPath) : FS :=
  { fs with
    read := fun q =>
      if q = main_path ∨ q ∈ cfg.included_files.map Prod.fst then
        some (cfg.to_string q)
      else fs.read q }

/-! ## The per-file skeleton of `parse_content`

`buildFile base ls cur` is the sequence of `ConfigLine`s that
`parse_content` appends for the physical lines `ls` of file `base`
(starting with open-host state `cur`), with the include side effects
stripped; `weave` replays exactly those side effects.  `parseContent`
factors as `weave` of `buildFile` (theorem `parseContent_eq_weave`),
which separates per-file structure from include recursion. -/

/-- Host-flush output as a list. -/
def flushList (cur : Option (Str × List (Str × Str))) (base : FsPath) : List ConfigLine :=
  match cur with
  | none => []
  | some (p, o) => [.hostEntry p o base]

/-- The per-file line sequence produced by `parse_content` (see above). -/
def buildFile (base : FsPath) : List Str → Option (Str × List (Str × Str)) → List ConfigLine
  | [], cur => flushList cur base
  | l :: ls, cur =>
    if isCommentLine l then
      flushList cur base ++ .comment l base :: buildFile base ls none
    else if isBlankLine l then
      flushList cur base ++ .empty base :: buildFile base ls none
    else
      match keyValOf l with
      | none => buildFile base ls cur
      | some (k, v) =>
        if toLowercase k = hostKw then
          flushList cur base ++ buildFile base ls (some (v, []))
        else if toLowercase k = includeKw then
          flushList cur base ++ .incl v base :: buildFile base ls none
        else
          match cur with
          | some (p, opts) => buildFile base ls (some (p, opts ++ [(k, v)]))
          | none => .globalOption k v base :: buildFile base ls none

/-- Replays a per-file line sequence into the document state, running
`parse_include` after each `Include` line, exactly as `parse_content`
does. -/
def weave (fs : FS) (fuel : Nat) : List ConfigLine → FsPath → SshConfig → SshConfig
  | [], _, st => st
  | l :: L, base, st =>
    match l with
    | .incl v _ => weave fs fuel L base (parseInclude fs fuel v base (pushLine st l))
    | _ => weave fs fuel L base (pushLine st l)

/-! ## Basic facts about the string primitives -/

theorem trimLeft_head (s : Str) : ∀ c, (trimLeft s).head? = some c → rustWs c = false := by
  induction s with
  | nil => intro c h; simp [trimLeft] at h
  | cons a as ih =>
    intro c h
    by_cases ha : rustWs a
    · rw [trimLeft, List.dropWhile_cons_of_pos ha] at h
      exact ih c h
    · rw [trimLeft, List.dropWhile_cons_of_neg ha] at h
      simp at h
      subst h
      simpa using ha

theorem trimLeft_eq_self (s : Str) (h : ∀ c, s.head? = some c → rustWs c = false) :
    trimLeft s = s := by
  cases s with
  | nil => rfl
  | cons a as =>
    have : rustWs a = false := h a rfl
    rw [trimLeft, List.dropWhile_cons_of_neg (by simp [this])]

theorem trimLeft_sublist (s : Str) : (trimLeft s).Sublist s := List.dropWhile_sublist _

theorem trimLeft_append_ws (pre s : Str) (h : ∀ c ∈ pre, rustWs c = true) :
    trimLeft (pre ++ s) = trimLeft s := by
  induction pre with
  | nil => rfl
  | cons a as ih =>
    have ha : rustWs a = true := h a (by simp)
    rw [List.cons_append, trimLeft, List.dropWhile_cons_of_pos ha]
    exact ih (fun c hc => h c (by simp [hc]))

theorem trimLeft_eq_nil_iff (s : Str) : trimLeft s = [] ↔ ∀ c ∈ s, rustWs c = true := by
  simp [trimLeft, List.dropWhile_eq_nil_iff]

theorem getLast?_dropWhile (p : Char → Bool) (s : Str) (h : s.dropWhile p ≠ []) :
    (s.dropWhile p).getLast? = s.getLast? := by
  induction s with
  | nil => simp at h
  | cons a as ih =>
    by_cases ha : p a
    · rw [List.dropWhile_cons_of_pos ha] at h ⊢
      rw [ih h]
      cases as with
      | nil => simp at h
      | cons b bs => rw [List.getLast?_cons_cons]
    · rw [List.dropWhile_cons_of_neg ha]

theorem trimRight_eq (s : Str) : trimRight s = (trimLeft s.reverse).reverse := rfl

theorem trimRight_last (s : Str) :
    ∀ c, (trimRight s).getLast? = some c → rustWs c = false := by
  intro c h
  rw [trimRight_eq, List.getLast?_reverse] at h
  exact trimLeft_head _ c h

theorem trimRight_eq_self (s : Str) (h : ∀ c, s.getLast? = some c → rustWs c = false) :
    trimRight s = s := by
  rw [trimRight_eq, trimLeft_eq_self, List.reverse_reverse]
  intro c hc
  rw [List.head?_reverse] at hc
  exact h c hc

theorem trimRight_sublist (s : Str) : (trimRight s).Sublist s := by
  rw [trimRight_eq]
  have := (trimLeft_sublist s.reverse).reverse
  simpa using this

theorem trimRight_head (s : Str) (hne : trimRight s ≠ []) :
    (trimRight s).head? = s.head? := by
  rw [trimRight_eq] at hne ⊢
  rw [List.head?_reverse, trimLeft, getLast?_dropWhile, List.getLast?_reverse]
  intro hnil
  rw [trimLeft, hnil] at hne
  simp at hne

theorem trimRight_eq_nil_iff (s : Str) : trimRight s = [] ↔ ∀ c ∈ s, rustWs c = true := by
  rw [trimRight_eq]
  simp [trimLeft, List.dropWhile_eq_nil_iff]

theorem trim_head (s : Str) : ∀ c, (trim s).head? = some c → rustWs c = false := by
  intro c h
  rw [trim] at h
  by_cases hne : trimRight (trimLeft s) = []
  · rw [hne] at h; simp at h
  · rw [trimRight_head _ hne] at h
    exact trimLeft_head s c h

theorem trim_last (s : Str) : ∀ c, (trim s).getLast? = some c → rustWs c = false :=
  fun c h => trimRight_last _ c h

theorem trim_eq_self (s : Str)
    (h1 : ∀ c, s.head? = some c → rustWs c = false)
    (h2 : ∀ c, s.getLast? = some c → rustWs c = false) : trim s = s := by
  rw [trim, trimLeft_eq_self s h1, trimRight_eq_self s h2]

theorem trim_trim (s : Str) : trim (trim s) = trim s :=
  trim_eq_self _ (trim_head s) (trim_last s)

theorem trim_sublist (s : Str) : (trim s).Sublist s :=
  (trimRight_sublist _).trans (trimLeft_sublist s)

theorem mem_of_mem_trim {c : Char} {s : Str} (h : c ∈ trim s) : c ∈ s :=
  (trim_sublist s).subset h

theorem trim_eq_nil_iff (s : Str) : trim s = [] ↔ ∀ c ∈ s, rustWs c = true := by
  rw [trim]
  constructor
  · intro h c hc
    by_cases hl : trimLeft s = []
    · exact (trimLeft_eq_nil_iff s).1 hl c hc
    · exfalso
      rw [trimRight_eq_nil_iff] at h
      -- every char of `trimLeft s` is ws, but its head is not
      cases hhd : (trimLeft s).head? with
      | none => exact hl (List.head?_eq_none_iff.1 hhd)
      | some a =>
        have := trimLeft_head s a hhd
        have : rustWs a = true := h a (List.mem_of_mem_head? hhd)
        simp_all
  · intro h
    have : trimLeft s = [] := (trimLeft_eq_nil_iff s).2 h
    rw [this]
    rfl

theorem trim_ne_nil_of_last (s : Str) (c : Char) (hc : s.getLast? = some c)
    (hw : rustWs c = false) : trim s ≠ [] := by
  intro h
  rw [trim_eq_nil_iff] at h
  have := h c (List.mem_of_mem_getLast? hc)
  simp_all

theorem trim_all_not_ws (s : Str) (h : ∀ c ∈ s, rustWs c = false) : trim s = s := by
  apply trim_eq_self
  · intro c hc; exact h c (List.mem_of_mem_head? hc)
  · intro c hc; exact h c (List.mem_of_mem_getLast? hc)

theorem splitFirstWs_eq_none_iff (s : Str) :
    splitFirstWs s = none ↔ ∀ c ∈ s, rustWs c = false := by
  induction s with
  | nil => simp [splitFirstWs]
  | cons a as ih =>
    by_cases ha : rustWs a
    · simp [splitFirstWs, ha]
    · rw [splitFirstWs]
      simp only [ha, if_false]
      cases hs : splitFirstWs as with
      | none =>
        constructor
        · intro _ c hc
          rcases List.mem_cons.1 hc with rfl | hc'
          · simpa using ha
          · exact ih.1 hs c hc'
        · intro _
          simp
      | some kr =>
        rcases kr with ⟨k, r⟩
        simp only [List.mem_cons]
        constructor
        · intro h; simp at h
        · intro h
          have : splitFirstWs as = none := ih.2 (fun c hc => h c (Or.inr hc))
          rw [this] at hs
          exact absurd hs (by simp)

theorem splitFirstWs_spec (s k r : Str) (h : splitFirstWs s = some (k, r)) :
    ∃ c, rustWs c = true ∧ s = k ++ c :: r ∧ ∀ x ∈ k, rustWs x = false := by
  induction s generalizing k r with
  | nil => simp [splitFirstWs] at h
  | cons a as ih =>
    by_cases ha : rustWs a
    · rw [splitFirstWs, if_pos ha] at h
      simp at h
      obtain ⟨h1, h2⟩ := h
      subst h1; subst h2
      exact ⟨a, by simpa using ha, by simp, by simp⟩
    · rw [splitFirstWs] at h
      simp only [ha, if_false] at h
      cases hs : splitFirstWs as with
      | none => rw [hs] at h; simp at h
      | some kr =>
        rcases kr with ⟨k', r'⟩
        rw [hs] at h
        simp at h
        obtain ⟨c, hc, hseq, hk⟩ := ih k' r' hs
        refine ⟨c, hc, ?_, ?_⟩
        · rw [← h.1, ← h.2, hseq]; rfl
        · intro x hx
          rw [← h.1] at hx
          rcases List.mem_cons.1 hx with rfl | hx'
          · simpa using ha
          · exact hk x hx'

theorem splitFirstWs_append (k r : Str) (c : Char) (hc : rustWs c = true)
    (hk : ∀ x ∈ k, rustWs x = false) : splitFirstWs (k ++ c :: r) = some (k, r) := by
  induction k with
  | nil => simp [splitFirstWs, hc]
  | cons a as ih =>
    have ha : rustWs a = false := hk a (by simp)
    rw [List.cons_append, splitFirstWs, ih (fun x hx => hk x (by simp [hx]))]
    simp [ha]

/-! ### `rustLines` facts -/

theorem breakNl_no_nl (t b : Str) (h : '\n' ∉ t) : breakNl (t ++ '\n' :: b) = (t, some b) := by
  induction t with
  | nil => simp [breakNl]
  | cons a as ih =>
    have ha : a ≠ '\n' := fun hh => h (by simp [hh])
    rw [List.cons_append, breakNl, if_neg ha, ih (fun hh => h (by simp [hh]))]

theorem rustLines_chunk (t b : Str) (h : '\n' ∉ t) :
    rustLines (t ++ '\n' :: b) = stripCr t :: rustLines b := by
  rw [rustLines.eq_def]
  split
  · rename_i heq
    exact absurd heq (by simp)
  · split
    · rename_i l2 hbr2
      rw [breakNl_no_nl t b h] at hbr2
      simp at hbr2
    · rename_i l2 rest2 hbr2
      rw [breakNl_no_nl t b h] at hbr2
      simp at hbr2
      obtain ⟨rfl, rfl⟩ := hbr2
      rfl

theorem breakNl_rest_sublist : ∀ (s l r : Str), breakNl s = (l, some r) → r.Sublist s := by
  intro s
  induction s with
  | nil => intro l r h; simp [breakNl] at h
  | cons c cs ih =>
    intro l r h
    by_cases hc : c = '\n'
    · simp [breakNl, hc] at h
      rw [← h.2]
      exact (List.sublist_cons_self c cs)
    · rw [breakNl] at h
      simp only [hc, if_false] at h
      rcases hbr : breakNl cs with ⟨l', r'⟩
      rw [hbr] at h
      cases r' with
      | none => simp at h
      | some rr =>
        simp at h
        rw [← h.2]
        exact (ih l' rr hbr).cons c

theorem breakNl_fst_no_nl (s : Str) : '\n' ∉ (breakNl s).1 := by
  induction s with
  | nil => simp [breakNl]
  | cons a as ih =>
    by_cases ha : a = '\n'
    · simp [breakNl, ha]
    · rw [breakNl]
      simp only [ha, if_false]
      simp only [List.mem_cons]
      rintro (rfl | hmem)
      · exact ha rfl
      · exact ih hmem

theorem stripCr_sublist (s : Str) : (stripCr s).Sublist s := by
  rw [stripCr]
  split
  · exact List.dropLast_sublist s
  · exact List.Sublist.refl s

theorem breakNl_mem (s : Str) (c : Char) (h : c ∈ (breakNl s).1) : c ∈ s := by
  induction s with
  | nil => simp [breakNl] at h
  | cons a as ih =>
    by_cases ha : a = '\n'
    · simp [breakNl, ha] at h
    · rw [breakNl] at h
      simp only [ha, if_false] at h
      rcases List.mem_cons.1 h with rfl | hmem
      · simp
      · simp [ih hmem]

theorem rustLines_cons_none (a : Char) (as l0 : Str) (hbr : breakNl (a :: as) = (l0, none)) :
    rustLines (a :: as) = [l0] := by
  rw [rustLines.eq_def]
  split
  · rename_i hh
    simp at hh
  · split
    · rename_i l hh
      rw [hbr] at hh
      simp at hh
      rw [hh]
    · rename_i l rest hh
      rw [hbr] at hh
      simp at hh

theorem rustLines_cons_some (a : Char) (as l0 rest : Str)
    (hbr : breakNl (a :: as) = (l0, some rest)) :
    rustLines (a :: as) = stripCr l0 :: rustLines rest := by
  rw [rustLines.eq_def]
  split
  · rename_i hh
    simp at hh
  · split
    · rename_i l hh
      rw [hbr] at hh
      simp at hh
    · rename_i l rest2 hh
      rw [hbr] at hh
      simp at hh
      rw [hh.1, hh.2]

theorem rustLines_no_nl (s : Str) : ∀ l ∈ rustLines s, '\n' ∉ l := by
  induction s using rustLines.induct with
  | case1 => simp [rustLines]
  | case2 a as l0 hbr =>
    intro l hl
    rw [rustLines_cons_none a as l0 hbr] at hl
    simp at hl
    subst hl
    have := breakNl_fst_no_nl (a :: as)
    rw [hbr] at this
    exact this
  | case3 a as l0 rest hbr ih =>
    intro l hl
    rw [rustLines_cons_some a as l0 rest hbr] at hl
    rcases List.mem_cons.1 hl with rfl | hmem
    · intro hmem2
      have hsub := (stripCr_sublist l0).subset hmem2
      have := breakNl_fst_no_nl (a :: as)
      rw [hbr] at this
      exact this hsub
    · exact ih l hmem

/-- Every character of every line of `rustLines s` occurs in `s`. -/
theorem rustLines_mem (s : Str) : ∀ l ∈ rustLines s, ∀ c ∈ l, c ∈ s := by
  induction s using rustLines.induct with
  | case1 => simp [rustLines]
  | case2 a as l0 hbr =>
    intro l hl c hc
    rw [rustLines_cons_none a as l0 hbr] at hl
    simp at hl
    subst hl
    have := breakNl_mem (a :: as) c
    rw [hbr] at this
    exact this hc
  | case3 a as l0 rest hbr ih =>
    intro l hl c hc
    rw [rustLines_cons_some a as l0 rest hbr] at hl
    rcases List.mem_cons.1 hl with rfl | hmem
    · have hsub := (stripCr_sublist l0).subset hc
      have := breakNl_mem (a :: as) c
      rw [hbr] at this
      exact this hsub
    · exact (breakNl_rest_sublist (a :: as) l0 rest hbr).subset (ih l hmem c hc)

theorem trimRight_append_ws (s : Str) (c : Char) (hc : rustWs c = true) :
    trimRight (s ++ [c]) = trimRight s := by
  rw [trimRight_eq, trimRight_eq, List.reverse_append]
  simp only [List.reverse_singleton, List.singleton_append]
  rw [trimLeft, trimLeft, List.dropWhile_cons_of_pos hc]

theorem trim_append_ws (s : Str) (c : Char) (hc : rustWs c = true) :
    trim (s ++ [c]) = trim s := by
  rw [trim, trim, trimLeft, trimLeft, List.dropWhile_append]
  by_cases hd : (s.dropWhile rustWs).isEmpty
  · rw [if_pos hd]
    simp only [List.isEmpty_iff] at hd
    rw [hd]
    simp [List.dropWhile, hc]
  · rw [if_neg hd]
    exact trimRight_append_ws _ c hc

theorem stripCr_cases (s : Str) :
    stripCr s = s ∨ (s = stripCr s ++ ['\r'] ∧ rustWs '\r' = true) := by
  rw [stripCr]
  split
  · rename_i hl
    right
    constructor
    · conv_lhs => rw [← List.dropLast_append_getLast? '\r' hl]
    · decide
  · left; rfl

theorem trim_stripCr (s : Str) : trim (stripCr s) = trim s := by
  rcases stripCr_cases s with h | ⟨h, hw⟩
  · rw [h]
  · conv_rhs => rw [h]
    rw [trim_append_ws _ _ hw]

/-- All structural facts extracted from a successful key/value split. -/
theorem keyValOf_some_facts (l k v : Str) (h : keyValOf l = some (k, v)) :
    k ≠ [] ∧ (∀ c ∈ k, rustWs c = false) ∧ trim v = v ∧ v ≠ [] ∧
    k.head? = (trim l).head? ∧ (∀ c ∈ k, c ∈ l) ∧ (∀ c ∈ v, c ∈ l) := by
  rw [keyValOf] at h
  cases hs : splitFirstWs (trim l) with
  | none => rw [hs] at h; simp at h
  | some kr =>
    rcases kr with ⟨k0, r⟩
    rw [hs] at h
    simp at h
    obtain ⟨hk, hv⟩ := h
    obtain ⟨c0, hc0, heq, hk0⟩ := splitFirstWs_spec _ _ _ hs
    have hkk : k = k0 := by rw [← hk, trim_all_not_ws _ hk0]
    have hk0ne : k0 ≠ [] := by
      intro hnil
      rw [hnil, List.nil_append] at heq
      have := trim_head l c0 (by rw [heq]; rfl)
      simp [hc0] at this
    refine ⟨by rw [hkk]; exact hk0ne, ?_, ?_, ?_, ?_, ?_, ?_⟩
    · intro c hc; rw [hkk] at hc; exact hk0 c hc
    · rw [← hv, trim_trim]
    · -- `v = trim r ≠ []` because the last char of `trim l` is not ws
      cases hr : r with
      | nil =>
        exfalso
        subst hr
        have hlast : (trim l).getLast? = some c0 := by
          rw [heq, List.getLast?_append_of_ne_nil k0 (by simp)]
          rfl
        have := trim_last l c0 hlast
        simp [hc0] at this
      | cons x xs =>
        have hlast2 : (trim l).getLast? = r.getLast? := by
          rw [heq, List.getLast?_append_of_ne_nil k0 (by simp), hr,
            List.getLast?_cons_cons]
        cases hrl : r.getLast? with
        | none =>
          rw [hr] at hrl
          simp at hrl
        | some d =>
          have hd : rustWs d = false := by
            apply trim_last l
            rw [hlast2, hrl]
          rw [← hv]
          exact trim_ne_nil_of_last r d hrl hd
    · rw [hkk, heq, List.head?_append_of_ne_nil k0 hk0ne]
    · intro c hc
      rw [hkk] at hc
      apply mem_of_mem_trim (s := l)
      rw [heq]
      exact List.mem_append_left _ hc
    · intro c hc
      rw [← hv] at hc
      have : c ∈ r := mem_of_mem_trim hc
      apply mem_of_mem_trim (s := l)
      rw [heq]
      exact List.mem_append_right _ (by simp [this])

/-- A successful split forces the line to be non-blank. -/
theorem keyValOf_not_blank (l k v : Str) (h : keyValOf l = some (k, v)) :
    isBlankLine l = false := by
  rw [keyValOf] at h
  cases hs : splitFirstWs (trim l) with
  | none => rw [hs] at h; simp at h
  | some kr =>
    rw [isBlankLine]
    simp only [decide_eq_false_iff_not]
    intro hnil
    rw [hnil] at hs
    simp [splitFirstWs] at hs

theorem stripCr_eq_self_of_last (s : Str)
    (h : ∀ c, s.getLast? = some c → rustWs c = false) : stripCr s = s := by
  rw [stripCr]
  split
  · rename_i hl
    have := h '\r' hl
    exact absurd this (by decide)
  · rfl

theorem trim_canonical (pre core : Str) (hpre : ∀ c ∈ pre, rustWs c = true)
    (hhd : ∀ c, core.head? = some c → rustWs c = false)
    (hlast : ∀ c, core.getLast? = some c → rustWs c = false) :
    trim (pre ++ core) = core := by
  rw [trim, trimLeft_append_ws pre core hpre, trimLeft_eq_self core hhd,
    trimRight_eq_self core hlast]

theorem trimmed_last_not_ws (v : Str) (hv : trim v = v) :
    ∀ c, v.getLast? = some c → rustWs c = false := by
  intro c hc
  apply trim_last v
  rw [hv]
  exact hc

theorem trimmed_head_not_ws (v : Str) (hv : trim v = v) :
    ∀ c, v.head? = some c → rustWs c = false := by
  intro c hc
  apply trim_head v
  rw [hv]
  exact hc

theorem canonical_core_head (k v : Str) (hk1 : k ≠ []) :
    (k ++ ' ' :: v).head? = k.head? := List.head?_append_of_ne_nil k hk1

theorem canonical_core_last (k v : Str) (hv1 : v ≠ []) :
    (k ++ ' ' :: v).getLast? = v.getLast? := by
  rw [List.getLast?_append_of_ne_nil k (by simp)]
  cases v with
  | nil => exact absurd rfl hv1
  | cons x xs => rw [List.getLast?_cons_cons]

theorem trim_canonical_kv (pre k v : Str) (hpre : ∀ c ∈ pre, rustWs c = true)
    (hk1 : k ≠ []) (hk2 : ∀ c ∈ k, rustWs c = false)
    (hv1 : v ≠ []) (hv2 : trim v = v) :
    trim (pre ++ (k ++ ' ' :: v)) = k ++ ' ' :: v := by
  apply trim_canonical pre _ hpre
  · intro c hc
    rw [canonical_core_head k v hk1] at hc
    exact hk2 c (List.mem_of_mem_head? hc)
  · intro c hc
    rw [canonical_core_last k v hv1] at hc
    exact trimmed_last_not_ws v hv2 c hc

theorem keyValOf_canonical (pre k v : Str) (hpre : ∀ c ∈ pre, rustWs c = true)
    (hk1 : k ≠ []) (hk2 : ∀ c ∈ k, rustWs c = false)
    (hv1 : v ≠ []) (hv2 : trim v = v) :
    keyValOf (pre ++ (k ++ ' ' :: v)) = some (k, v) := by
  rw [keyValOf, trim_canonical_kv pre k v hpre hk1 hk2 hv1 hv2,
    splitFirstWs_append k v ' ' (by decide) hk2]
  simp [trim_all_not_ws k hk2, hv2]

theorem isBlankLine_canonical (pre k v : Str) (hpre : ∀ c ∈ pre, rustWs c = true)
    (hk1 : k ≠ []) (hk2 : ∀ c ∈ k, rustWs c = false)
    (hv1 : v ≠ []) (hv2 : trim v = v) :
    isBlankLine (pre ++ (k ++ ' ' :: v)) = false := by
  rw [isBlankLine, trim_canonical_kv pre k v hpre hk1 hk2 hv1 hv2]
  simp

theorem isCommentLine_canonical (pre k v : Str) (hpre : ∀ c ∈ pre, rustWs c = true)
    (hk1 : k ≠ []) (hk2 : ∀ c ∈ k, rustWs c = false)
    (hv1 : v ≠ []) (hv2 : trim v = v) (hhash : k.head? ≠ some '#') :
    isCommentLine (pre ++ (k ++ ' ' :: v)) = false := by
  rw [isCommentLine, trim_canonical_kv pre k v hpre hk1 hk2 hv1 hv2,
    canonical_core_head k v hk1]
  simpa using hhash

/-! ## Well-formedness of stored lines, and spec-side views of documents -/

/-- What parsing guarantees about every stored key (the first token of a
non-comment, non-blank line that is not `Host`/`Include`). -/
def WfKey (k : Str) : Prop :=
  k ≠ [] ∧ (∀ c ∈ k, rustWs c = false) ∧ k.head? ≠ some '#' ∧
    toLowercase k ≠ hostKw ∧ toLowercase k ≠ includeKw

/-- What parsing guarantees about every stored value, host pattern and
include path. -/
def WfVal (v : Str) : Prop := v ≠ [] ∧ trim v = v ∧ '\n' ∉ v

/-- Per-variant well-formedness of a stored `ConfigLine`. -/
def WfLine : ConfigLine → Prop
  | .comment t _ => (trim t).head? = some '#' ∧ '\n' ∉ t
  | .empty _ => True
  | .incl p _ => WfVal p
  | .hostEntry pat opts _ => WfVal pat ∧ ∀ kv ∈ opts, WfKey kv.1 ∧ WfVal kv.2
  | .globalOption k v _ => WfKey k ∧ WfVal v

/-- Whether a line is a `HostEntry`. -/
def ConfigLine.isHost : ConfigLine → Bool
  | .hostEntry _ _ _ => true
  | _ => false

/-- Whether a line is a `GlobalOption`. -/
def ConfigLine.isGlobal : ConfigLine → Bool
  | .globalOption _ _ _ => true
  | _ => false

/-- In parser output a `HostEntry` is never immediately followed by a
`GlobalOption` from the same pass: the open host is closed only by a
boundary line whose own `ConfigLine` is pushed right after the flush. -/
def NoHG (L : List ConfigLine) : Prop :=
  List.Chain' (fun a b => a.isHost = true → b.isGlobal = false) L

/-- The ordered `(pattern, options)` projection of a document. -/
def hostsOf (L : List ConfigLine) : List (Str × List (Str × Str)) :=
  L.filterMap fun l =>
    match l with
    | .hostEntry p o _ => some (p, o)
    | _ => none

/-- Normalization applied to a stored line by one render/re-parse cycle:
a comment that ends in `'\r'` loses that final `'\r'` (it is re-read as
part of a `"\r\n"` line ending); every other line is unchanged. -/
def normLine : ConfigLine → ConfigLine
  | .comment t f => .comment (stripCr t) f
  | l => l

/-- The physical lines `to_string` emits for one stored line, as they are
re-read by `str::lines`. -/
def chunkLines : ConfigLine → List Str
  | .comment t _ => [stripCr t]
  | .empty _ => [[]]
  | .incl p _ => [("Include ").toList ++ p]
  | .hostEntry pat opts _ =>
    (("Host ").toList ++ pat) :: opts.map (fun kv => ("    ").toList ++ kv.1 ++ ' ' :: kv.2)
  | .globalOption k v _ => [k ++ ' ' :: v]

/-- A raw physical line that parsing records as a `Comment`, `Empty` or
`Include` line (the round-tripping kinds): comment, blank, or a directive
whose key is `Include` (case-insensitively). -/
def isCbiLine (l : Str) : Bool :=
  isCommentLine l || isBlankLine l ||
    (match keyValOf l with
     | some (k, _) => toLowercase k = includeKw
     | none => false)

/-- The canonical form in which such a line reappears in rendered output:
a comment minus a trailing `'\r'`, a blank line as the empty line, an
`Include` directive as `Include` + one space + the trimmed argument. -/
def canonCbi (l : Str) : Str :=
  if isCommentLine l then stripCr l
  else if isBlankLine l then []
  else
    match keyValOf l with
    | some (_, v) => ("Include ").toList ++ v
    | none => []

/-- A physical line that closes an open host block: comment, blank, or a
`Host`/`Include` directive. -/
def isBoundaryLine (l : Str) : Bool :=
  isCommentLine l || isBlankLine l ||
    (match keyValOf l with
     | some (k, _) => toLowercase k = hostKw || toLowercase k = includeKw
     | none => false)

/-- The `(key, value)` pair a physical line contributes to an open host
block (malformed lines and directives contribute nothing). -/
def optPairOf (l : Str) : Option (Str × Str) :=
  if isCommentLine l || isBlankLine l then none
  else
    match keyValOf l with
    | some (k, v) =>
      if toLowercase k = hostKw || toLowercase k = includeKw then none else some (k, v)
    | none => none

/-- The pattern of a physical line that is a `Host` directive. -/
def hostLineOf (l : Str) : Option Str :=
  if isCommentLine l || isBlankLine l then none
  else
    match keyValOf l with
    | some (k, v) => if toLowercase k = hostKw then some v else none
    | none => none

/-- The option pairs contributed by the lines up to the next boundary. -/
def takeOpts : List Str → List (Str × Str)
  | [] => []
  | l :: ls =>
    if isBoundaryLine l then []
    else
      match optPairOf l with
      | some kv => kv :: takeOpts ls
      | none => takeOpts ls

/-- The rest of the file from the next boundary on. -/
def dropOpts : List Str → List Str
  | [] => []
  | l :: ls => if isBoundaryLine l then l :: ls else dropOpts ls

theorem dropOpts_length_le (ls : List Str) : (dropOpts ls).length ≤ ls.length := by
  induction ls with
  | nil => simp [dropOpts]
  | cons l ls ih =>
    rw [dropOpts]
    split
    · simp
    · simp
      omega

/-- The spec-side description of host blocks (claim C4): each `Host` line
opens a block whose options are the option pairs of the consecutive lines
up to the next `Host`/`Include`/comment/blank/end of file. -/
def specHostBlocks : List Str → List (Str × List (Str × Str))
  | [] => []
  | l :: ls =>
    match hostLineOf l with
    | some pat => (pat, takeOpts ls) :: specHostBlocks (dropOpts ls)
    | none => specHostBlocks ls
termination_by ls => ls.length
decreasing_by
  · simp
    exact Nat.lt_succ_of_le (dropOpts_length_le ls)
  · simp

/-! ## Step equations for `parse_content` and its pure skeleton -/

theorem includeKw_ne_hostKw : includeKw ≠ hostKw := by decide

theorem parseContent_nil (fs : FS) (fuel : Nat) (base : FsPath) (cur) (st : SshConfig) :
    parseContent fs fuel [] base cur st = flushHost cur base st := by
  rw [parseContent]

theorem parseContent_comment (fs : FS) (fuel : Nat) (l : Str) (ls : List Str)
    (base : FsPath) (cur) (st : SshConfig) (h : isCommentLine l = true) :
    parseContent fs fuel (l :: ls) base cur st =
      parseContent fs fuel ls base none
        (pushLine (flushHost cur base st) (.comment l base)) := by
  rw [parseContent]
  simp [h]

theorem parseContent_blank (fs : FS) (fuel : Nat) (l : Str) (ls : List Str)
    (base : FsPath) (cur) (st : SshConfig)
    (h1 : isCommentLine l = false) (h2 : isBlankLine l = true) :
    parseContent fs fuel (l :: ls) base cur st =
      parseContent fs fuel ls base none
        (pushLine (flushHost cur base st) (.empty base)) := by
  rw [parseContent]
  simp [h1, h2]

theorem parseContent_malformed (fs : FS) (fuel : Nat) (l : Str) (ls : List Str)
    (base : FsPath) (cur) (st : SshConfig)
    (h1 : isCommentLine l = false) (h2 : isBlankLine l = false)
    (h3 : keyValOf l = none) :
    parseContent fs fuel (l :: ls) base cur st = parseContent fs fuel ls base cur st := by
  rw [parseContent]
  simp [h1, h2, h3]

theorem parseContent_host (fs : FS) (fuel : Nat) (l : Str) (ls : List Str)
    (base : FsPath) (cur) (st : SshConfig) (k v : Str)
    (h1 : isCommentLine l = false) (h2 : isBlankLine l = false)
    (h3 : keyValOf l = some (k, v)) (h4 : toLowercase k = hostKw) :
    parseContent fs fuel (l :: ls) base cur st =
      parseContent fs fuel ls base (some (v, [])) (flushHost cur base st) := by
  rw [parseContent]
  simp [h1, h2, h3, h4]

theorem parseContent_include (fs : FS) (fuel : Nat) (l : Str) (ls : List Str)
    (base : FsPath) (cur) (st : SshConfig) (k v : Str)
    (h1 : isCommentLine l = false) (h2 : isBlankLine l = false)
    (h3 : keyValOf l = some (k, v)) (h4 : toLowercase k ≠ hostKw)
    (h5 : toLowercase k = includeKw) :
    parseContent fs fuel (l :: ls) base cur st =
      parseContent fs fuel ls base none
        (parseInclude fs fuel v base
          (pushLine (flushHost cur base st) (.incl v base))) := by
  rw [parseContent]
  simp [h1, h2, h3, h5, includeKw_ne_hostKw]

theorem parseContent_opt (fs : FS) (fuel : Nat) (l : Str) (ls : List Str)
    (base : FsPath) (st : SshConfig) (k v p : Str) (opts : List (Str × Str))
    (h1 : isCommentLine l = false) (h2 : isBlankLine l = false)
    (h3 : keyValOf l = some (k, v)) (h4 : toLowercase k ≠ hostKw)
    (h5 : toLowercase k ≠ includeKw) :
    parseContent fs fuel (l :: ls) base (some (p, opts)) st =
      parseContent fs fuel ls base (some (p, opts ++ [(k, v)])) st := by
  rw [parseContent]
  simp [h1, h2, h3, h4, h5]

theorem parseContent_global (fs : FS) (fuel : Nat) (l : Str) (ls : List Str)
    (base : FsPath) (st : SshConfig) (k v : Str)
    (h1 : isCommentLine l = false) (h2 : isBlankLine l = false)
    (h3 : keyValOf l = some (k, v)) (h4 : toLowercase k ≠ hostKw)
    (h5 : toLowercase k ≠ includeKw) :
    parseContent fs fuel (l :: ls) base none st =
      parseContent fs fuel ls base none (pushLine st (.globalOption k v base)) := by
  rw [parseContent]
  simp [h1, h2, h3, h4, h5]

theorem buildFile_nil (base : FsPath) (cur) : buildFile base [] cur = flushList cur base := by
  rw [buildFile]

theorem buildFile_comment (base : FsPath) (l : Str) (ls : List Str) (cur)
    (h : isCommentLine l = true) :
    buildFile base (l :: ls) cur =
      flushList cur base ++ .comment l base :: buildFile base ls none := by
  rw [buildFile]
  simp [h]

theorem buildFile_blank (base : FsPath) (l : Str) (ls : List Str) (cur)
    (h1 : isCommentLine l = false) (h2 : isBlankLine l = true) :
    buildFile base (l :: ls) cur =
      flushList cur base ++ .empty base :: buildFile base ls none := by
  rw [buildFile]
  simp [h1, h2]

theorem buildFile_malformed (base : FsPath) (l : Str) (ls : List Str) (cur)
    (h1 : isCommentLine l = false) (h2 : isBlankLine l = false)
    (h3 : keyValOf l = none) :
    buildFile base (l :: ls) cur = buildFile base ls cur := by
  rw [buildFile]
  simp [h1, h2, h3]

theorem buildFile_host (base : FsPath) (l : Str) (ls : List Str) (cur) (k v : Str)
    (h1 : isCommentLine l = false) (h2 : isBlankLine l = false)
    (h3 : keyValOf l = some (k, v)) (h4 : toLowercase k = hostKw) :
    buildFile base (l :: ls) cur =
      flushList cur base ++ buildFile base ls (some (v, [])) := by
  rw [buildFile]
  simp [h1, h2, h3, h4]

theorem buildFile_include (base : FsPath) (l : Str) (ls : List Str) (cur) (k v : Str)
    (h1 : isCommentLine l = false) (h2 : isBlankLine l = false)
    (h3 : keyValOf l = some (k, v)) (h4 : toLowercase k ≠ hostKw)
    (h5 : toLowercase k = includeKw) :
    buildFile base (l :: ls) cur =
      flushList cur base ++ .incl v base :: buildFile base ls none := by
  rw [buildFile]
  simp [h1, h2, h3, h5, includeKw_ne_hostKw]

theorem buildFile_opt (base : FsPath) (l : Str) (ls : List Str) (k v p : Str)
    (opts : List (Str × Str))
    (h1 : isCommentLine l = false) (h2 : isBlankLine l = false)
    (h3 : keyValOf l = some (k, v)) (h4 : toLowercase k ≠ hostKw)
    (h5 : toLowercase k ≠ includeKw) :
    buildFile base (l :: ls) (some (p, opts)) =
      buildFile base ls (some (p, opts ++ [(k, v)])) := by
  rw [buildFile]
  simp [h1, h2, h3, h4, h5]

theorem buildFile_global (base : FsPath) (l : Str) (ls : List Str) (k v : Str)
    (h1 : isCommentLine l = false) (h2 : isBlankLine l = false)
    (h3 : keyValOf l = some (k, v)) (h4 : toLowercase k ≠ hostKw)
    (h5 : toLowercase k ≠ includeKw) :
    buildFile base (l :: ls) none =
      .globalOption k v base :: buildFile base ls none := by
  rw [buildFile]
  simp [h1, h2, h3, h4, h5]

/-- The outcome of classifying one physical line, used to drive case
analyses; it mirrors the branch structure of `parse_content`. -/
inductive LineKind where
  | comment
  | blank
  | malformed
  | hostDir (k v : Str)
  | includeDir (k v : Str)
  | option (k v : Str)
deriving DecidableEq, Repr

/-- The classification performed by one iteration of the `parse_content`
loop. -/
def classifyLine (l : Str) : LineKind :=
  if isCommentLine l then .comment
  else if isBlankLine l then .blank
  else
    match keyValOf l with
    | none => .malformed
    | some (k, v) =>
      if toLowercase k = hostKw then .hostDir k v
      else if toLowercase k = includeKw then .includeDir k v
      else .option k v

theorem classifyLine_comment (l : Str) (h : classifyLine l = .comment) :
    isCommentLine l = true := by
  rw [classifyLine] at h
  by_cases hc : isCommentLine l
  · exact hc
  · simp only [hc, if_false] at h
    by_cases hb : isBlankLine l
    · simp [hb] at h
    · simp only [hb, if_false] at h
      cases hkv : keyValOf l with
      | none => rw [hkv] at h; simp at h
      | some kv =>
        rcases kv with ⟨k, v⟩
        rw [hkv] at h
        by_cases hh : toLowercase k = hostKw
        · simp [hh] at h
        · by_cases hi : toLowercase k = includeKw <;> simp [hh, hi, includeKw_ne_hostKw] at h

theorem classifyLine_blank (l : Str) (h : classifyLine l = .blank) :
    isCommentLine l = false ∧ isBlankLine l = true := by
  rw [classifyLine] at h
  by_cases hc : isCommentLine l
  · simp [hc] at h
  · refine ⟨by simpa using hc, ?_⟩
    simp only [hc, if_false] at h
    by_cases hb : isBlankLine l
    · exact hb
    · simp only [hb, if_false] at h
      cases hkv : keyValOf l with
      | none => rw [hkv] at h; simp at h
      | some kv =>
        rcases kv with ⟨k, v⟩
        rw [hkv] at h
        by_cases hh : toLowercase k = hostKw
        · simp [hh] at h
        · by_cases hi : toLowercase k = includeKw <;> simp [hh, hi, includeKw_ne_hostKw] at h

theorem classifyLine_malformed (l : Str) (h : classifyLine l = .malformed) :
    isCommentLine l = false ∧ isBlankLine l = false ∧ keyValOf l = none := by
  rw [classifyLine] at h
  by_cases hc : isCommentLine l
  · simp [hc] at h
  · simp only [hc, if_false] at h
    by_cases hb : isBlankLine l
    · simp [hb] at h
    · simp only [hb, if_false] at h
      refine ⟨by simpa using hc, by simpa using hb, ?_⟩
      cases hkv : keyValOf l with
      | none => rfl
      | some kv =>
        rcases kv with ⟨k, v⟩
        rw [hkv] at h
        by_cases hh : toLowercase k = hostKw
        · simp [hh] at h
        · by_cases hi : toLowercase k = includeKw <;> simp [hh, hi, includeKw_ne_hostKw] at h

theorem classifyLine_hostDir (l : Str) (k v : Str) (h : classifyLine l = .hostDir k v) :
    isCommentLine l = false ∧ isBlankLine l = false ∧ keyValOf l = some (k, v) ∧
      toLowercase k = hostKw := by
  rw [classifyLine] at h
  by_cases hc : isCommentLine l
  · simp [hc] at h
  · simp only [hc, if_false] at h
    by_cases hb : isBlankLine l
    · simp [hb] at h
    · simp only [hb, if_false] at h
      cases hkv : keyValOf l with
      | none => rw [hkv] at h; simp at h
      | some kv =>
        rcases kv with ⟨k0, v0⟩
        rw [hkv] at h
        by_cases hh : toLowercase k0 = hostKw
        · simp only [hh, if_true] at h
          simp at h
          obtain ⟨hk0, hv0⟩ := h
          subst hk0; subst hv0
          exact ⟨by simpa using hc, by simpa using hb, rfl, hh⟩
        · by_cases hi : toLowercase k0 = includeKw <;> simp [hh, hi, includeKw_ne_hostKw] at h

theorem classifyLine_includeDir (l : Str) (k v : Str)
    (h : classifyLine l = .includeDir k v) :
    isCommentLine l = false ∧ isBlankLine l = false ∧ keyValOf l = some (k, v) ∧
      toLowercase k ≠ hostKw ∧ toLowercase k = includeKw := by
  rw [classifyLine] at h
  by_cases hc : isCommentLine l
  · simp [hc] at h
  · simp only [hc, if_false] at h
    by_cases hb : isBlankLine l
    · simp [hb] at h
    · simp only [hb, if_false] at h
      cases hkv : keyValOf l with
      | none => rw [hkv] at h; simp at h
      | some kv =>
        rcases kv with ⟨k0, v0⟩
        rw [hkv] at h
        by_cases hh : toLowercase k0 = hostKw
        · simp [hh] at h
        · by_cases hi : toLowercase k0 = includeKw
          · simp [hh, hi, includeKw_ne_hostKw] at h
            obtain ⟨hk0, hv0⟩ := h
            subst hk0; subst hv0
            exact ⟨by simpa using hc, by simpa using hb, rfl, hh, hi⟩
          · simp [hh, hi] at h

theorem classifyLine_option (l : Str) (k v : Str) (h : classifyLine l = .option k v) :
    isCommentLine l = false ∧ isBlankLine l = false ∧ keyValOf l = some (k, v) ∧
      toLowercase k ≠ hostKw ∧ toLowercase k ≠ includeKw := by
  rw [classifyLine] at h
  by_cases hc : isCommentLine l
  · simp [hc] at h
  · simp only [hc, if_false] at h
    by_cases hb : isBlankLine l
    · simp [hb] at h
    · simp only [hb, if_false] at h
      cases hkv : keyValOf l with
      | none => rw [hkv] at h; simp at h
      | some kv =>
        rcases kv with ⟨k0, v0⟩
        rw [hkv] at h
        by_cases hh : toLowercase k0 = hostKw
        · simp [hh] at h
        · by_cases hi : toLowercase k0 = includeKw
          · simp [hh, hi, includeKw_ne_hostKw] at h
          · simp only [hh, if_false, hi] at h
            simp at h
            obtain ⟨hk0, hv0⟩ := h
            subst hk0; subst hv0
            exact ⟨by simpa using hc, by simpa using hb, rfl, hh, hi⟩

/-- One-step unfolding of `buildFile`, keyed on the line classification. -/
theorem buildFile_cons (base : FsPath) (a : Str) (as : List Str) (cur) :
    buildFile base (a :: as) cur =
      match classifyLine a with
      | .comment => flushList cur base ++ .comment a base :: buildFile base as none
      | .blank => flushList cur base ++ .empty base :: buildFile base as none
      | .malformed => buildFile base as cur
      | .hostDir _ v => flushList cur base ++ buildFile base as (some (v, []))
      | .includeDir _ v => flushList cur base ++ .incl v base :: buildFile base as none
      | .option k v =>
        match cur with
        | some (p, o) => buildFile base as (some (p, o ++ [(k, v)]))
        | none => .globalOption k v base :: buildFile base as none := by
  cases hcl : classifyLine a with
  | comment => exact buildFile_comment base a as cur (classifyLine_comment a hcl)
  | blank =>
    obtain ⟨h1, h2⟩ := classifyLine_blank a hcl
    exact buildFile_blank base a as cur h1 h2
  | malformed =>
    obtain ⟨h1, h2, h3⟩ := classifyLine_malformed a hcl
    exact buildFile_malformed base a as cur h1 h2 h3
  | hostDir k v =>
    obtain ⟨h1, h2, h3, h4⟩ := classifyLine_hostDir a k v hcl
    exact buildFile_host base a as cur k v h1 h2 h3 h4
  | includeDir k v =>
    obtain ⟨h1, h2, h3, h4, h5⟩ := classifyLine_includeDir a k v hcl
    exact buildFile_include base a as cur k v h1 h2 h3 h4 h5
  | option k v =>
    obtain ⟨h1, h2, h3, h4, h5⟩ := classifyLine_option a k v hcl
    cases cur with
    | none => exact buildFile_global base a as k v h1 h2 h3 h4 h5
    | some po =>
      rcases po with ⟨p, o⟩
      exact buildFile_opt base a as k v p o h1 h2 h3 h4 h5

/-- One-step unfolding of `parseContent`, keyed on the line classification. -/
theorem parseContent_cons (fs : FS) (fuel : Nat) (a : Str) (as : List Str)
    (base : FsPath) (cur) (st : SshConfig) :
    parseContent fs fuel (a :: as) base cur st =
      match classifyLine a with
      | .comment =>
        parseContent fs fuel as base none
          (pushLine (flushHost cur base st) (.comment a base))
      | .blank =>
        parseContent fs fuel as base none
          (pushLine (flushHost cur base st) (.empty base))
      | .malformed => parseContent fs fuel as base cur st
      | .hostDir _ v => parseContent fs fuel as base (some (v, [])) (flushHost cur base st)
      | .includeDir _ v =>
        parseContent fs fuel as base none
          (parseInclude fs fuel v base
            (pushLine (flushHost cur base st) (.incl v base)))
      | .option k v =>
        match cur with
        | some (p, o) => parseContent fs fuel as base (some (p, o ++ [(k, v)])) st
        | none => parseContent fs fuel as base none (pushLine st (.globalOption k v base)) := by
  cases hcl : classifyLine a with
  | comment => exact parseContent_comment fs fuel a as base cur st (classifyLine_comment a hcl)
  | blank =>
    obtain ⟨h1, h2⟩ := classifyLine_blank a hcl
    exact parseContent_blank fs fuel a as base cur st h1 h2
  | malformed =>
    obtain ⟨h1, h2, h3⟩ := classifyLine_malformed a hcl
    exact parseContent_malformed fs fuel a as base cur st h1 h2 h3
  | hostDir k v =>
    obtain ⟨h1, h2, h3, h4⟩ := classifyLine_hostDir a k v hcl
    exact parseContent_host fs fuel a as base cur st k v h1 h2 h3 h4
  | includeDir k v =>
    obtain ⟨h1, h2, h3, h4, h5⟩ := classifyLine_includeDir a k v hcl
    exact parseContent_include fs fuel a as base cur st k v h1 h2 h3 h4 h5
  | option k v =>
    obtain ⟨h1, h2, h3, h4, h5⟩ := classifyLine_option a k v hcl
    cases cur with
    | none => exact parseContent_global fs fuel a as base st k v h1 h2 h3 h4 h5
    | some po =>
      rcases po with ⟨p, o⟩
      exact parseContent_opt fs fuel a as base st k v p o h1 h2 h3 h4 h5

/-! ## Structure of `buildFile` output -/

theorem mem_flushList (cur) (base : FsPath) (l : ConfigLine)
    (h : l ∈ flushList cur base) : ∃ p o, l = .hostEntry p o base := by
  cases cur with
  | none => simp [flushList] at h
  | some po =>
    rcases po with ⟨p, o⟩
    simp [flushList] at h
    exact ⟨p, o, h⟩

theorem buildFile_src (base : FsPath) :
    ∀ (ls : List Str) (cur) (l : ConfigLine),
      l ∈ buildFile base ls cur → l.source = base := by
  intro ls
  induction ls with
  | nil =>
    intro cur l h
    rw [buildFile_nil] at h
    obtain ⟨p, o, rfl⟩ := mem_flushList cur base l h
    rfl
  | cons a as ih =>
    intro cur l h
    rw [buildFile_cons] at h
    cases hcl : classifyLine a with
    | comment =>
      rw [hcl] at h
      rcases List.mem_append.1 h with hf | hrest
      · obtain ⟨p, o, rfl⟩ := mem_flushList cur base l hf
        rfl
      · rcases List.mem_cons.1 hrest with rfl | hmem
        · rfl
        · exact ih none l hmem
    | blank =>
      rw [hcl] at h
      rcases List.mem_append.1 h with hf | hrest
      · obtain ⟨p, o, rfl⟩ := mem_flushList cur base l hf
        rfl
      · rcases List.mem_cons.1 hrest with rfl | hmem
        · rfl
        · exact ih none l hmem
    | malformed =>
      rw [hcl] at h
      exact ih cur l h
    | hostDir k v =>
      rw [hcl] at h
      rcases List.mem_append.1 h with hf | hrest
      · obtain ⟨p, o, rfl⟩ := mem_flushList cur base l hf
        rfl
      · exact ih (some (v, [])) l hrest
    | includeDir k v =>
      rw [hcl] at h
      rcases List.mem_append.1 h with hf | hrest
      · obtain ⟨p, o, rfl⟩ := mem_flushList cur base l hf
        rfl
      · rcases List.mem_cons.1 hrest with rfl | hmem
        · rfl
        · exact ih none l hmem
    | option k v =>
      rw [hcl] at h
      cases cur with
      | none =>
        rcases List.mem_cons.1 h with rfl | hmem
        · rfl
        · exact ih none l hmem
      | some po =>
        rcases po with ⟨p, o⟩
        exact ih (some (p, o ++ [(k, v)])) l h

/-- Well-formedness of the open-host accumulator. -/
def WfAcc : Option (Str × List (Str × Str)) → Prop
  | none => True
  | some (p, o) => WfVal p ∧ ∀ kv ∈ o, WfKey kv.1 ∧ WfVal kv.2

theorem wfVal_of_keyValOf (a k v : Str) (hkv : keyValOf a = some (k, v))
    (hnl : '\n' ∉ a) : WfVal v := by
  obtain ⟨-, -, hvt, hvne, -, -, hvmem⟩ := keyValOf_some_facts a k v hkv
  exact ⟨hvne, hvt, fun hmem => hnl (hvmem '\n' hmem)⟩

theorem wfKey_of_keyValOf (a k v : Str) (hkv : keyValOf a = some (k, v))
    (hc : isCommentLine a = false)
    (hh : toLowercase k ≠ hostKw) (hi : toLowercase k ≠ includeKw) : WfKey k := by
  obtain ⟨hkne, hknw, -, -, hkhd, -, -⟩ := keyValOf_some_facts a k v hkv
  refine ⟨hkne, hknw, ?_, hh, hi⟩
  rw [hkhd]
  rw [isCommentLine] at hc
  simpa using hc

theorem mem_flushList_wf (cur) (base : FsPath) (hacc : WfAcc cur) :
    ∀ l ∈ flushList cur base, WfLine l := by
  cases cur with
  | none => simp [flushList]
  | some po =>
    rcases po with ⟨p, o⟩
    intro l h
    simp [flushList] at h
    subst h
    exact hacc

theorem buildFile_wf (base : FsPath) :
    ∀ (ls : List Str) (cur), (∀ l ∈ ls, '\n' ∉ l) → WfAcc cur →
      ∀ x ∈ buildFile base ls cur, WfLine x := by
  intro ls
  induction ls with
  | nil =>
    intro cur hls hacc x h
    rw [buildFile_nil] at h
    exact mem_flushList_wf cur base hacc x h
  | cons a as ih =>
    intro cur hls hacc x h
    have hnla : '\n' ∉ a := hls a (by simp)
    have hlstl : ∀ l ∈ as, '\n' ∉ l := fun l hl => hls l (by simp [hl])
    rw [buildFile_cons] at h
    cases hcl : classifyLine a with
    | comment =>
      rw [hcl] at h
      rcases List.mem_append.1 h with hf | hrest
      · exact mem_flushList_wf cur base hacc x hf
      · rcases List.mem_cons.1 hrest with rfl | hmem
        · have hc := classifyLine_comment a hcl
          rw [isCommentLine] at hc
          exact ⟨by simpa using hc, hnla⟩
        · exact ih none hlstl trivial x hmem
    | blank =>
      rw [hcl] at h
      rcases List.mem_append.1 h with hf | hrest
      · exact mem_flushList_wf cur base hacc x hf
      · rcases List.mem_cons.1 hrest with rfl | hmem
        · exact trivial
        · exact ih none hlstl trivial x hmem
    | malformed =>
      rw [hcl] at h
      exact ih cur hlstl hacc x h
    | hostDir k v =>
      rw [hcl] at h
      obtain ⟨hc, hb, hkv, hhost⟩ := classifyLine_hostDir a k v hcl
      rcases List.mem_append.1 h with hf | hrest
      · exact mem_flushList_wf cur base hacc x hf
      · exact ih (some (v, []))
          hlstl ⟨wfVal_of_keyValOf a k v hkv hnla, by simp⟩ x hrest
    | includeDir k v =>
      rw [hcl] at h
      obtain ⟨hc, hb, hkv, hh, hi⟩ := classifyLine_includeDir a k v hcl
      rcases List.mem_append.1 h with hf | hrest
      · exact mem_flushList_wf cur base hacc x hf
      · rcases List.mem_cons.1 hrest with rfl | hmem
        · exact wfVal_of_keyValOf a k v hkv hnla
        · exact ih none hlstl trivial x hmem
    | option k v =>
      rw [hcl] at h
      obtain ⟨hc, hb, hkv, hh, hi⟩ := classifyLine_option a k v hcl
      have hpair : WfKey k ∧ WfVal v :=
        ⟨wfKey_of_keyValOf a k v hkv hc hh hi, wfVal_of_keyValOf a k v hkv hnla⟩
      cases cur with
      | none =>
        rcases List.mem_cons.1 h with rfl | hmem
        · exact hpair
        · exact ih none hlstl trivial x hmem
      | some po =>
        rcases po with ⟨p, o⟩
        obtain ⟨hp, ho⟩ := hacc
        refine ih (some (p, o ++ [(k, v)])) hlstl ⟨hp, ?_⟩ x h
        intro kv hkv2
        rcases List.mem_append.1 hkv2 with hkv3 | hkv4
        · exact ho kv hkv3
        · simp at hkv4
          subst hkv4
          exact hpair

theorem buildFile_some_head (base : FsPath) :
    ∀ (ls : List Str) (p : Str) (o : List (Str × Str)),
      ∃ q oo t, buildFile base ls (some (p, o)) = .hostEntry q oo base :: t := by
  intro ls
  induction ls with
  | nil =>
    intro p o
    exact ⟨p, o, [], by rw [buildFile_nil]; rfl⟩
  | cons a as ih =>
    intro p o
    rw [buildFile_cons]
    cases hcl : classifyLine a with
    | comment =>
      exact ⟨p, o, .comment a base :: buildFile base as none, by simp [flushList]⟩
    | blank =>
      exact ⟨p, o, .empty base :: buildFile base as none, by simp [flushList]⟩
    | malformed => exact ih p o
    | hostDir k v =>
      exact ⟨p, o, buildFile base as (some (v, [])), by simp [flushList]⟩
    | includeDir k v =>
      exact ⟨p, o, .incl v base :: buildFile base as none, by simp [flushList]⟩
    | option k v => exact ih p (o ++ [(k, v)])

theorem chain'_flushList (cur) (base : FsPath) :
    NoHG (flushList cur base) := by
  cases cur with
  | none => exact List.chain'_nil
  | some po =>
    rcases po with ⟨p, o⟩
    exact List.chain'_singleton _

theorem flushList_last_host (cur) (base : FsPath) (x : ConfigLine)
    (hx : (flushList cur base).getLast? = some x) : x.isGlobal = false := by
  cases cur with
  | none => simp [flushList] at hx
  | some po =>
    rcases po with ⟨p, o⟩
    simp [flushList] at hx
    subst hx
    rfl

theorem buildFile_noHG (base : FsPath) :
    ∀ (ls : List Str) (cur), NoHG (buildFile base ls cur) := by
  intro ls
  induction ls with
  | nil =>
    intro cur
    rw [buildFile_nil]
    exact chain'_flushList cur base
  | cons a as ih =>
    intro cur
    rw [buildFile_cons]
    cases hcl : classifyLine a with
    | comment =>
      rw [NoHG, List.chain'_append]
      refine ⟨chain'_flushList cur base, ?_, ?_⟩
      · rw [List.chain'_cons']
        refine ⟨?_, ih none⟩
        intro y hy habs
        simp [ConfigLine.isHost] at habs
      · intro x hx y hy
        simp at hy
        subst hy
        intro _
        rfl
    | blank =>
      rw [NoHG, List.chain'_append]
      refine ⟨chain'_flushList cur base, ?_, ?_⟩
      · rw [List.chain'_cons']
        refine ⟨?_, ih none⟩
        intro y hy habs
        simp [ConfigLine.isHost] at habs
      · intro x hx y hy
        simp at hy
        subst hy
        intro _
        rfl
    | malformed => exact ih cur
    | hostDir k v =>
      rw [NoHG, List.chain'_append]
      refine ⟨chain'_flushList cur base, ih (some (v, [])), ?_⟩
      intro x hx y hy
      obtain ⟨q, oo, t, heq⟩ := buildFile_some_head base as v []
      rw [heq] at hy
      simp at hy
      subst hy
      intro _
      rfl
    | includeDir k v =>
      rw [NoHG, List.chain'_append]
      refine ⟨chain'_flushList cur base, ?_, ?_⟩
      · rw [List.chain'_cons']
        refine ⟨?_, ih none⟩
        intro y hy habs
        simp [ConfigLine.isHost] at habs
      · intro x hx y hy
        simp at hy
        subst hy
        intro _
        rfl
    | option k v =>
      cases cur with
      | none =>
        rw [NoHG, List.chain'_cons']
        refine ⟨?_, ih none⟩
        intro y hy habs
        simp [ConfigLine.isHost] at habs
      | some po =>
        rcases po with ⟨p, o⟩
        exact ih (some (p, o ++ [(k, v)]))

/-- The state effect of replaying one stored line. -/
def weaveStep (fs : FS) (fuel : Nat) (base : FsPath) (st : SshConfig)
    (l : ConfigLine) : SshConfig :=
  match l with
  | .incl v _ => parseInclude fs fuel v base (pushLine st l)
  | _ => pushLine st l

theorem weave_cons (fs : FS) (fuel : Nat) (l : ConfigLine) (L : List ConfigLine)
    (base : FsPath) (st : SshConfig) :
    weave fs fuel (l :: L) base st = weave fs fuel L base (weaveStep fs fuel base st l) := by
  cases l <;> rfl

theorem weave_append (fs : FS) (fuel : Nat) (A B : List ConfigLine)
    (base : FsPath) (st : SshConfig) :
    weave fs fuel (A ++ B) base st = weave fs fuel B base (weave fs fuel A base st) := by
  induction A generalizing st with
  | nil => rfl
  | cons l L ih =>
    rw [List.cons_append, weave_cons, weave_cons, ih]

theorem weave_flushList (fs : FS) (fuel : Nat) (cur) (base : FsPath) (st : SshConfig) :
    weave fs fuel (flushList cur base) base st = flushHost cur base st := by
  cases cur with
  | none => rfl
  | some po =>
    rcases po with ⟨p, o⟩
    rfl

/-- `parse_content` factors into its pure per-file skeleton (`buildFile`)
and the replay of the include side effects (`weave`). -/
theorem parseContent_eq_weave (fs : FS) (fuel : Nat) :
    ∀ (ls : List Str) (base : FsPath) (cur) (st : SshConfig),
      parseContent fs fuel ls base cur st = weave fs fuel (buildFile base ls cur) base st := by
  intro ls
  induction ls with
  | nil =>
    intro base cur st
    rw [parseContent_nil, buildFile_nil, weave_flushList]
  | cons a as ih =>
    intro base cur st
    cases hcl : classifyLine a with
    | comment =>
      have hc := classifyLine_comment a hcl
      rw [parseContent_comment fs fuel a as base cur st hc,
        buildFile_comment base a as cur hc, ih, weave_append, weave_flushList, weave_cons]
      rfl
    | blank =>
      obtain ⟨h1, h2⟩ := classifyLine_blank a hcl
      rw [parseContent_blank fs fuel a as base cur st h1 h2,
        buildFile_blank base a as cur h1 h2, ih, weave_append, weave_flushList, weave_cons]
      rfl
    | malformed =>
      obtain ⟨h1, h2, h3⟩ := classifyLine_malformed a hcl
      rw [parseContent_malformed fs fuel a as base cur st h1 h2 h3,
        buildFile_malformed base a as cur h1 h2 h3, ih]
    | hostDir k v =>
      obtain ⟨h1, h2, h3, h4⟩ := classifyLine_hostDir a k v hcl
      rw [parseContent_host fs fuel a as base cur st k v h1 h2 h3 h4,
        buildFile_host base a as cur k v h1 h2 h3 h4, ih, weave_append, weave_flushList]
    | includeDir k v =>
      obtain ⟨h1, h2, h3, h4, h5⟩ := classifyLine_includeDir a k v hcl
      rw [parseContent_include fs fuel a as base cur st k v h1 h2 h3 h4 h5,
        buildFile_include base a as cur k v h1 h2 h3 h4 h5, ih, weave_append,
        weave_flushList, weave_cons]
      rfl
    | option k v =>
      obtain ⟨h1, h2, h3, h4, h5⟩ := classifyLine_option a k v hcl
      cases cur with
      | none =>
        rw [parseContent_global fs fuel a as base st k v h1 h2 h3 h4 h5,
          buildFile_global base a as k v h1 h2 h3 h4 h5, ih, weave_cons]
        rfl
      | some po =>
        rcases po with ⟨p, o⟩
        rw [parseContent_opt fs fuel a as base st k v p o h1 h2 h3 h4 h5,
          buildFile_opt base a as k v p o h1 h2 h3 h4 h5, ih]

/-! ## The global parsing invariant -/

@[simp] theorem pushLine_lines (st : SshConfig) (l : ConfigLine) :
    (pushLine st l).lines = st.lines ++ [l] := rfl
@[simp] theorem pushLine_included (st : SshConfig) (l : ConfigLine) :
    (pushLine st l).included_files = st.included_files := rfl
@[simp] theorem pushLine_visited (st : SshConfig) (l : ConfigLine) :
    (pushLine st l).visited_files = st.visited_files := rfl
@[simp] theorem pushVisited_lines (st : SshConfig) (p : FsPath) :
    (pushVisited st p).lines = st.lines := rfl
@[simp] theorem pushVisited_included (st : SshConfig) (p : FsPath) :
    (pushVisited st p).included_files = st.included_files := rfl
@[simp] theorem pushVisited_visited (st : SshConfig) (p : FsPath) :
    (pushVisited st p).visited_files = p :: st.visited_files := rfl
@[simp] theorem pushIncluded_lines (st : SshConfig) (p : FsPath) (c : Str) :
    (pushIncluded st p c).lines = st.lines := rfl
@[simp] theorem pushIncluded_included (st : SshConfig) (p : FsPath) (c : Str) :
    (pushIncluded st p c).included_files = st.included_files ++ [(p, ⟨c, []⟩)] := rfl
@[simp] theorem pushIncluded_visited (st : SshConfig) (p : FsPath) (c : Str) :
    (pushIncluded st p c).visited_files = st.visited_files := rfl

theorem filterSource_append (f : FsPath) (A B : List ConfigLine) :
    filterSource f (A ++ B) = filterSource f A ++ filterSource f B :=
  List.filter_append _ _

theorem filterSource_push_eq (f : FsPath) (A : List ConfigLine) (l : ConfigLine)
    (h : l.source = f) : filterSource f (A ++ [l]) = filterSource f A ++ [l] := by
  rw [filterSource_append]
  simp [filterSource, List.filter, h]

theorem filterSource_push_ne (f : FsPath) (A : List ConfigLine) (l : ConfigLine)
    (h : l.source ≠ f) : filterSource f (A ++ [l]) = filterSource f A := by
  rw [filterSource_append]
  simp [filterSource, List.filter, h]

/-- The standing invariant of the parsing state: every stored line is
well-formed and comes from a visited file, and every entry of
`included_files` records a file that was visited, read successfully, and
whose per-file projection of the document is exactly its own parse. -/
def Good (fs : FS) (st : SshConfig) : Prop :=
  (∀ l ∈ st.lines, WfLine l ∧ fs.canon l.source ∈ st.visited_files) ∧
  (∀ p d, (p, d) ∈ st.included_files →
    fs.canon p ∈ st.visited_files ∧ fs.read p = some d.content ∧ d.lines = [] ∧
      filterSource p st.lines = buildFile p (rustLines d.content) none)

theorem good_pushVisited (fs : FS) (st : SshConfig) (x : FsPath) (hg : Good fs st) :
    Good fs (pushVisited st x) := by
  obtain ⟨ha, hb⟩ := hg
  constructor
  · intro l hl
    obtain ⟨h1, h2⟩ := ha l hl
    exact ⟨h1, by simp [h2]⟩
  · intro p d hpd
    obtain ⟨h1, h2, h3, h4⟩ := hb p d hpd
    exact ⟨by simp [h1], h2, h3, h4⟩

theorem good_pushLine (fs : FS) (st : SshConfig) (l : ConfigLine) (base : FsPath)
    (hg : Good fs st) (hwf : WfLine l) (hsrc : l.source = base)
    (hvis : fs.canon base ∈ st.visited_files)
    (hnoinc : ∀ d : IncludedFileData, (base, d) ∉ st.included_files) :
    Good fs (pushLine st l) := by
  obtain ⟨ha, hb⟩ := hg
  constructor
  · intro x hx
    simp only [pushLine_lines] at hx
    rcases List.mem_append.1 hx with hx1 | hx2
    · obtain ⟨h1, h2⟩ := ha x hx1
      exact ⟨h1, h2⟩
    · simp at hx2
      subst hx2
      exact ⟨hwf, by rw [hsrc]; exact hvis⟩
  · intro p d hpd
    simp only [pushLine_included] at hpd
    obtain ⟨h1, h2, h3, h4⟩ := hb p d hpd
    have hpb : p ≠ base := by
      intro heq
      subst heq
      exact hnoinc d hpd
    refine ⟨h1, h2, h3, ?_⟩
    simp only [pushLine_lines]
    rw [filterSource_push_ne p st.lines l (by rw [hsrc]; exact fun hc => hpb hc.symm), h4]

theorem filterSource_nil_of_not_visited (fs : FS) (st : SshConfig) (p : FsPath)
    (hg : Good fs st) (hnv : fs.canon p ∉ st.visited_files) :
    filterSource p st.lines = [] := by
  rw [filterSource, List.filter_eq_nil_iff]
  intro l hl
  simp only [decide_eq_true_eq]
  intro hsrc
  exact hnv (by rw [← hsrc]; exact (hg.1 l hl).2)

/-- Monotonicity of `weave`: the visited set and the included-files map
only grow. -/
def WeaveMono (fs : FS) (fuel : Nat) : Prop :=
  ∀ (L : List ConfigLine) (base : FsPath) (st : SshConfig),
    (∀ q ∈ st.visited_files, q ∈ (weave fs fuel L base st).visited_files) ∧
    (∀ e ∈ st.included_files, e ∈ (weave fs fuel L base st).included_files)

/-- Monotonicity of `parseCands`. -/
def CandsMono (fs : FS) (fuel : Nat) : Prop :=
  ∀ (cands : List FsPath) (st : SshConfig),
    (∀ q ∈ st.visited_files, q ∈ (parseCands fs fuel cands st).visited_files) ∧
    (∀ e ∈ st.included_files, e ∈ (parseCands fs fuel cands st).included_files)

theorem parseCands_nil (fs : FS) (fuel : Nat) (st : SshConfig) :
    parseCands fs fuel [] st = st := by
  rw [parseCands]

theorem parseOne_zero (fs : FS) (p : FsPath) (c : Str) (st : SshConfig) :
    parseOne fs 0 p c st = st := by
  rw [parseOne.eq_def]

theorem parseOne_succ (fs : FS) (f : Nat) (p : FsPath) (c : Str) (st : SshConfig) :
    parseOne fs (f + 1) p c st =
      pushIncluded (parseContent fs f (rustLines c) p none st) p c := by
  rw [parseOne.eq_def]

theorem parseCands_cons_notfile (fs : FS) (fuel : Nat) (p : FsPath) (ps : List FsPath)
    (st : SshConfig) (h : fs.isFile p = false) :
    parseCands fs fuel (p :: ps) st = parseCands fs fuel ps st := by
  rw [parseCands]
  simp [h]

theorem parseCands_cons_visited (fs : FS) (fuel : Nat) (p : FsPath) (ps : List FsPath)
    (st : SshConfig) (h1 : fs.isFile p = true) (h2 : fs.canon p ∈ st.visited_files) :
    parseCands fs fuel (p :: ps) st = parseCands fs fuel ps st := by
  rw [parseCands]
  simp [h1, h2]

theorem parseCands_cons_unread (fs : FS) (fuel : Nat) (p : FsPath) (ps : List FsPath)
    (st : SshConfig) (h1 : fs.isFile p = true) (h2 : fs.canon p ∉ st.visited_files)
    (h3 : fs.read p = none) :
    parseCands fs fuel (p :: ps) st = parseCands fs fuel ps (pushVisited st (fs.canon p)) := by
  rw [parseCands]
  simp [h1, h2, h3]

theorem parseCands_cons_read (fs : FS) (fuel : Nat) (p : FsPath) (ps : List FsPath)
    (st : SshConfig) (c : Str) (h1 : fs.isFile p = true)
    (h2 : fs.canon p ∉ st.visited_files) (h3 : fs.read p = some c) :
    parseCands fs fuel (p :: ps) st =
      parseCands fs fuel ps (parseOne fs fuel p c (pushVisited st (fs.canon p))) := by
  rw [parseCands]
  simp [h1, h2, h3]

theorem candsMono_of_weave (fs : FS) (fuel : Nat)
    (hw : ∀ f, fuel = f + 1 → WeaveMono fs f) : CandsMono fs fuel := by
  intro cands
  induction cands with
  | nil => intro st; rw [parseCands_nil]; exact ⟨fun q hq => hq, fun e he => he⟩
  | cons p ps ih =>
    intro st
    by_cases hf : fs.isFile p
    · by_cases hvp : fs.canon p ∈ st.visited_files
      · rw [parseCands_cons_visited fs fuel p ps st hf hvp]
        exact ih st
      · cases hread : fs.read p with
        | none =>
          rw [parseCands_cons_unread fs fuel p ps st hf hvp hread]
          obtain ⟨m1, m2⟩ := ih (pushVisited st (fs.canon p))
          exact ⟨fun q hq => m1 q (by simp [hq]), fun e he => m2 e (by simpa using he)⟩
        | some c =>
          rw [parseCands_cons_read fs fuel p ps st c hf hvp hread]
          cases fuel with
          | zero =>
            rw [parseOne_zero]
            obtain ⟨m1, m2⟩ := ih (pushVisited st (fs.canon p))
            exact ⟨fun q hq => m1 q (by simp [hq]), fun e he => m2 e (by simpa using he)⟩
          | succ f =>
            have hwf := hw f rfl
            rw [parseOne_succ, parseContent_eq_weave]
            obtain ⟨m1, m2⟩ :=
              ih (pushIncluded
                (weave fs f (buildFile p (rustLines c) none) p
                  (pushVisited st (fs.canon p))) p c)
            obtain ⟨w1, w2⟩ :=
              hwf (buildFile p (rustLines c) none) p (pushVisited st (fs.canon p))
            constructor
            · intro q hq
              exact m1 q (by simpa using w1 q (by simp [hq]))
            · intro e he
              exact m2 e (by
                simp only [pushIncluded_included]
                exact List.mem_append_left _ (w2 e (by simpa using he)))
    · rw [parseCands_cons_notfile fs fuel p ps st (by simpa using hf)]
      exact ih st

theorem weaveMono_of_cands (fs : FS) (fuel : Nat) (hc : CandsMono fs fuel) :
    WeaveMono fs fuel := by
  intro L
  induction L with
  | nil => intro base st; exact ⟨fun q hq => hq, fun e he => he⟩
  | cons l L ih =>
    intro base st
    rw [weave_cons]
    cases l with
    | incl v f =>
      simp only [weaveStep, parseInclude]
      obtain ⟨m1, m2⟩ :=
        ih base (parseCands fs fuel (fs.resolve v base) (pushLine st (.incl v f)))
      obtain ⟨c1, c2⟩ := hc (fs.resolve v base) (pushLine st (.incl v f))
      constructor
      · intro q hq
        exact m1 q (c1 q (by simpa using hq))
      · intro e he
        exact m2 e (c2 e (by simpa using he))
    | comment t f =>
      obtain ⟨m1, m2⟩ := ih base (pushLine st (.comment t f))
      exact ⟨fun q hq => m1 q (by simpa using hq), fun e he => m2 e (by simpa using he)⟩
    | empty f =>
      obtain ⟨m1, m2⟩ := ih base (pushLine st (.empty f))
      exact ⟨fun q hq => m1 q (by simpa using hq), fun e he => m2 e (by simpa using he)⟩
    | hostEntry p o f =>
      obtain ⟨m1, m2⟩ := ih base (pushLine st (.hostEntry p o f))
      exact ⟨fun q hq => m1 q (by simpa using hq), fun e he => m2 e (by simpa using he)⟩
    | globalOption k v f =>
      obtain ⟨m1, m2⟩ := ih base (pushLine st (.globalOption k v f))
      exact ⟨fun q hq => m1 q (by simpa using hq), fun e he => m2 e (by simpa using he)⟩

theorem monoPkg (fs : FS) : ∀ fuel, WeaveMono fs fuel ∧ CandsMono fs fuel := by
  intro fuel
  induction fuel with
  | zero =>
    have hc : CandsMono fs 0 := candsMono_of_weave fs 0 (by intro f hf; cases hf)
    exact ⟨weaveMono_of_cands fs 0 hc, hc⟩
  | succ f ihf =>
    have hc : CandsMono fs (f + 1) :=
      candsMono_of_weave fs (f + 1) (by
        intro g hg
        cases hg
        exact ihf.1)
    exact ⟨weaveMono_of_cands fs (f + 1) hc, hc⟩

/-- Preservation of `Good` through `weave`, together with growth facts,
the per-file projection equation, and the frame property for other
visited files. -/
def WeavePres (fs : FS) (fuel : Nat) : Prop :=
  ∀ (L : List ConfigLine) (base : FsPath) (st : SshConfig),
    Good fs st →
    fs.canon base ∈ st.visited_files →
    (∀ d : IncludedFileData, (base, d) ∉ st.included_files) →
    (∀ l ∈ L, WfLine l ∧ l.source = base) →
    Good fs (weave fs fuel L base st) ∧
    (∀ q ∈ st.visited_files, q ∈ (weave fs fuel L base st).visited_files) ∧
    (∀ e ∈ st.included_files, e ∈ (weave fs fuel L base st).included_files) ∧
    (∀ q : FsPath, fs.canon q ∈ st.visited_files →
      (∀ d, (q, d) ∉ st.included_files) →
      ∀ d, (q, d) ∉ (weave fs fuel L base st).included_files) ∧
    filterSource base (weave fs fuel L base st).lines =
      filterSource base st.lines ++ L ∧
    (∀ q : FsPath, q ≠ base → fs.canon q ∈ st.visited_files →
      filterSource q (weave fs fuel L base st).lines = filterSource q st.lines)

/-- Preservation of `Good` through `parseCands`, with the frame property:
files already visited gain no lines. -/
def CandsPres (fs : FS) (fuel : Nat) : Prop :=
  ∀ (cands : List FsPath) (st : SshConfig),
    Good fs st →
    Good fs (parseCands fs fuel cands st) ∧
    (∀ q ∈ st.visited_files, q ∈ (parseCands fs fuel cands st).visited_files) ∧
    (∀ e ∈ st.included_files, e ∈ (parseCands fs fuel cands st).included_files) ∧
    (∀ q : FsPath, fs.canon q ∈ st.visited_files →
      (∀ d, (q, d) ∉ st.included_files) →
      ∀ d, (q, d) ∉ (parseCands fs fuel cands st).included_files) ∧
    (∀ q : FsPath, fs.canon q ∈ st.visited_files →
      filterSource q (parseCands fs fuel cands st).lines = filterSource q st.lines)

theorem weavePres_of_cands (fs : FS) (fuel : Nat) (hc : CandsPres fs fuel) :
    WeavePres fs fuel := by
  intro L
  induction L with
  | nil =>
    intro base st hg hvis hninc hwf
    refine ⟨hg, fun q hq => hq, fun e he => he, fun q h1 h2 => h2, by rw [weave]; simp,
      fun q h1 h2 => rfl⟩
  | cons l L ih =>
    intro base st hg hvis hninc hwf
    obtain ⟨hlwf, hlsrc⟩ := hwf l (by simp)
    have hwfL : ∀ x ∈ L, WfLine x ∧ x.source = base := fun x hx => hwf x (by simp [hx])
    rw [weave_cons]
    have cont : ∀ st' : SshConfig,
        Good fs st' →
        (∀ q ∈ st.visited_files, q ∈ st'.visited_files) →
        (∀ e ∈ st.included_files, e ∈ st'.included_files) →
        (∀ q : FsPath, fs.canon q ∈ st.visited_files →
          (∀ d, (q, d) ∉ st.included_files) → ∀ d, (q, d) ∉ st'.included_files) →
        filterSource base st'.lines = filterSource base st.lines ++ [l] →
        (∀ q : FsPath, q ≠ base → fs.canon q ∈ st.visited_files →
          filterSource q st'.lines = filterSource q st.lines) →
        Good fs (weave fs fuel L base st') ∧
        (∀ q ∈ st.visited_files, q ∈ (weave fs fuel L base st').visited_files) ∧
        (∀ e ∈ st.included_files, e ∈ (weave fs fuel L base st').included_files) ∧
        (∀ q : FsPath, fs.canon q ∈ st.visited_files →
          (∀ d, (q, d) ∉ st.included_files) →
          ∀ d, (q, d) ∉ (weave fs fuel L base st').included_files) ∧
        filterSource base (weave fs fuel L base st').lines =
          filterSource base st.lines ++ (l :: L) ∧
        (∀ q : FsPath, q ≠ base → fs.canon q ∈ st.visited_files →
          filterSource q (weave fs fuel L base st').lines = filterSource q st.lines) := by
      intro st' hg' hv' hi' hp' hfb' hfq'
      have hvis' : fs.canon base ∈ st'.visited_files := hv' _ hvis
      have hninc' : ∀ d, (base, d) ∉ st'.included_files := fun d => hp' base hvis hninc d
      obtain ⟨g1, g2, g3, g4, g5, g6⟩ := ih base st' hg' hvis' hninc' hwfL
      refine ⟨g1, fun q hq => g2 q (hv' q hq), fun e he => g3 e (hi' e he), ?_, ?_, ?_⟩
      · intro q h1 h2 d
        exact g4 q (hv' _ h1) (hp' q h1 h2) d
      · rw [g5, hfb']
        simp
      · intro q hq1 hq2
        rw [g6 q hq1 (hv' _ hq2), hfq' q hq1 hq2]
    have hgpush : Good fs (pushLine st l) :=
      good_pushLine fs st l base hg hlwf hlsrc hvis hninc
    cases l with
    | incl v f =>
      have hf : f = base := hlsrc
      subst hf
      simp only [weaveStep, parseInclude]
      obtain ⟨c1, c2, c3, c4, c5⟩ :=
        hc (fs.resolve v f) (pushLine st (.incl v f)) hgpush
      apply cont
      · exact c1
      · intro q hq
        exact c2 q (by simpa using hq)
      · intro e he
        exact c3 e (by simpa using he)
      · intro q h1 h2 d
        exact c4 q (by simpa using h1) (by simpa using h2) d
      · rw [c5 f (by simpa using hvis)]
        simp only [pushLine_lines]
        exact filterSource_push_eq f st.lines _ rfl
      · intro q hq1 hq2
        rw [c5 q (by simpa using hq2)]
        simp only [pushLine_lines]
        exact filterSource_push_ne q st.lines _ (by
          intro hcon
          exact hq1 hcon.symm)
    | comment t f =>
      have hf : f = base := hlsrc
      subst hf
      apply cont (pushLine st (.comment t f)) hgpush (by simp) (by simp)
        (fun q h1 h2 d => by simpa using h2 d)
        (by
          simp only [pushLine_lines]
          exact filterSource_push_eq f st.lines _ rfl)
        (fun q hq1 hq2 => by
          simp only [pushLine_lines]
          exact filterSource_push_ne q st.lines _ (fun hcon => hq1 hcon.symm))
    | empty f =>
      have hf : f = base := hlsrc
      subst hf
      apply cont (pushLine st (.empty f)) hgpush (by simp) (by simp)
        (fun q h1 h2 d => by simpa using h2 d)
        (by
          simp only [pushLine_lines]
          exact filterSource_push_eq f st.lines _ rfl)
        (fun q hq1 hq2 => by
          simp only [pushLine_lines]
          exact filterSource_push_ne q st.lines _ (fun hcon => hq1 hcon.symm))
    | hostEntry p o f =>
      have hf : f = base := hlsrc
      subst hf
      apply cont (pushLine st (.hostEntry p o f)) hgpush (by simp) (by simp)
        (fun q h1 h2 d => by simpa using h2 d)
        (by
          simp only [pushLine_lines]
          exact filterSource_push_eq f st.lines _ rfl)
        (fun q hq1 hq2 => by
          simp only [pushLine_lines]
          exact filterSource_push_ne q st.lines _ (fun hcon => hq1 hcon.symm))
    | globalOption k v f =>
      have hf : f = base := hlsrc
      subst hf
      apply cont (pushLine st (.globalOption k v f)) hgpush (by simp) (by simp)
        (fun q h1 h2 d => by simpa using h2 d)
        (by
          simp only [pushLine_lines]
          exact filterSource_push_eq f st.lines _ rfl)
        (fun q hq1 hq2 => by
          simp only [pushLine_lines]
          exact filterSource_push_ne q st.lines _ (fun hcon => hq1 hcon.symm))

theorem candsPres_of_weave (fs : FS) (fuel : Nat)
    (hw : ∀ f, fuel = f + 1 → WeavePres fs f) : CandsPres fs fuel := by
  intro cands
  induction cands with
  | nil =>
    intro st hg
    rw [parseCands_nil]
    exact ⟨hg, fun q hq => hq, fun e he => he, fun q h1 h2 => h2, fun q h => rfl⟩
  | cons p ps ih =>
    intro st hg
    by_cases hf : fs.isFile p
    · by_cases hvp : fs.canon p ∈ st.visited_files
      · rw [parseCands_cons_visited fs fuel p ps st hf hvp]
        exact ih st hg
      · have hskip : ∀ st1 : SshConfig,
            st1.lines = st.lines → st1.included_files = st.included_files →
            st1.visited_files = fs.canon p :: st.visited_files →
            Good fs st1 →
            Good fs (parseCands fs fuel ps st1) ∧
            (∀ q ∈ st.visited_files, q ∈ (parseCands fs fuel ps st1).visited_files) ∧
            (∀ e ∈ st.included_files, e ∈ (parseCands fs fuel ps st1).included_files) ∧
            (∀ q : FsPath, fs.canon q ∈ st.visited_files →
              (∀ d, (q, d) ∉ st.included_files) →
              ∀ d, (q, d) ∉ (parseCands fs fuel ps st1).included_files) ∧
            (∀ q : FsPath, fs.canon q ∈ st.visited_files →
              filterSource q (parseCands fs fuel ps st1).lines =
                filterSource q st.lines) := by
          intro st1 hl1 hi1 hv1 hg1
          obtain ⟨i1, i2, i3, i4, i5⟩ := ih st1 hg1
          refine ⟨i1, ?_, ?_, ?_, ?_⟩
          · intro q hq
            exact i2 q (by rw [hv1]; simp [hq])
          · intro e he
            exact i3 e (by rw [hi1]; exact he)
          · intro q h1 h2 d
            exact i4 q (by rw [hv1]; simp [h1]) (by rw [hi1]; exact h2) d
          · intro q hq
            rw [i5 q (by rw [hv1]; simp [hq]), hl1]
        cases hread : fs.read p with
        | none =>
          rw [parseCands_cons_unread fs fuel p ps st hf hvp hread]
          exact hskip _ rfl rfl rfl (good_pushVisited fs st _ hg)
        | some c =>
          rw [parseCands_cons_read fs fuel p ps st c hf hvp hread]
          cases fuel with
          | zero =>
            rw [parseOne_zero]
            exact hskip _ rfl rfl rfl (good_pushVisited fs st _ hg)
          | succ f =>
            have hwf := hw f rfl
            rw [parseOne_succ, parseContent_eq_weave]
            set st1 := pushVisited st (fs.canon p) with hst1
            have hg1 : Good fs st1 := good_pushVisited fs st _ hg
            have hvis1 : fs.canon p ∈ st1.visited_files := by simp [hst1]
            have hninc1 : ∀ d : IncludedFileData, (p, d) ∉ st1.included_files := by
              intro d hd
              simp only [hst1, pushVisited_included] at hd
              exact hvp (hg.2 p d hd).1
            have hwfL : ∀ l ∈ buildFile p (rustLines c) none, WfLine l ∧ l.source = p := by
              intro l hl
              exact ⟨buildFile_wf p (rustLines c) none (rustLines_no_nl c) trivial l hl,
                buildFile_src p (rustLines c) none l hl⟩
            obtain ⟨w1, w2, w3, w4, w5, w6⟩ :=
              hwf (buildFile p (rustLines c) none) p st1 hg1 hvis1 hninc1 hwfL
            set out1 := weave fs f (buildFile p (rustLines c) none) p st1 with hout1
            have hfp1 : filterSource p st1.lines = [] := by
              have : filterSource p st.lines = [] :=
                filterSource_nil_of_not_visited fs st p hg hvp
              simpa [hst1] using this
            have hmidgood : Good fs (pushIncluded out1 p c) := by
              obtain ⟨a1, b1⟩ := w1
              constructor
              · intro l hl
                simp only [pushIncluded_lines, pushIncluded_visited] at *
                exact a1 l hl
              · intro q d hqd
                simp only [pushIncluded_included] at hqd
                rcases List.mem_append.1 hqd with hold | hnew
                · obtain ⟨x1, x2, x3, x4⟩ := b1 q d hold
                  exact ⟨x1, x2, x3, by simpa using x4⟩
                · simp at hnew
                  obtain ⟨rfl, rfl⟩ := hnew
                  refine ⟨w2 _ hvis1, hread, rfl, ?_⟩
                  simp only [pushIncluded_lines]
                  rw [w5, hfp1]
                  rfl
            obtain ⟨i1, i2, i3, i4, i5⟩ := ih (pushIncluded out1 p c) hmidgood
            have hqnep : ∀ q : FsPath, fs.canon q ∈ st.visited_files → q ≠ p := by
              intro q hq heq
              subst heq
              exact hvp hq
            refine ⟨i1, ?_, ?_, ?_, ?_⟩
            · intro q hq
              exact i2 q (by
                simp only [pushIncluded_visited]
                exact w2 q (by rw [hst1, pushVisited_visited]; exact List.mem_cons_of_mem _ hq))
            · intro e he
              exact i3 e (by
                simp only [pushIncluded_included]
                exact List.mem_append_left _ (w3 e (by rw [hst1, pushVisited_included]; exact he)))
            · intro q h1 h2 d
              apply i4 q (by
                simp only [pushIncluded_visited]
                exact w2 (fs.canon q) (by rw [hst1, pushVisited_visited]; exact List.mem_cons_of_mem _ h1))
              intro d2 hd2
              simp only [pushIncluded_included] at hd2
              rcases List.mem_append.1 hd2 with hold | hnew
              · exact w4 q (by rw [hst1, pushVisited_visited]; exact List.mem_cons_of_mem _ h1) (by
                  intro d3 hd3
                  exact h2 d3 (by simpa [hst1] using hd3)) d2 hold
              · simp at hnew
                exact (hqnep q h1) hnew.1
            · intro q hq
              rw [i5 q (by
                simp only [pushIncluded_visited]
                exact w2 (fs.canon q) (by rw [hst1, pushVisited_visited]; exact List.mem_cons_of_mem _ hq))]
              simp only [pushIncluded_lines]
              rw [w6 q (hqnep q hq) (by rw [hst1, pushVisited_visited]; exact List.mem_cons_of_mem _ hq)]
              simp [hst1]
    · rw [parseCands_cons_notfile fs fuel p ps st (by simpa using hf)]
      exact ih st hg

theorem gpres (fs : FS) : ∀ fuel : Nat, WeavePres fs fuel ∧ CandsPres fs fuel := by
  intro fuel
  induction fuel with
  | zero =>
    have hc : CandsPres fs 0 := candsPres_of_weave fs 0 (by intro f hf; cases hf)
    exact ⟨weavePres_of_cands fs 0 hc, hc⟩
  | succ f ihf =>
    have hc : CandsPres fs (f + 1) :=
      candsPres_of_weave fs (f + 1) (by
        intro g hg
        cases hg
        exact ihf.1)
    exact ⟨weavePres_of_cands fs (f + 1) hc, hc⟩

/-! ## Re-reading rendered output -/

theorem rustLines_chunk2 (t b : Str) (h : '\n' ∉ t) :
    rustLines (t ++ ['\n'] ++ b) = stripCr t :: rustLines b := by
  rw [List.append_assoc, List.singleton_append]
  exact rustLines_chunk t b h

theorem getLast?_append_ne_nil (a v : Str) (hv : v ≠ []) :
    (a ++ v).getLast? = v.getLast? := List.getLast?_append_of_ne_nil a hv

theorem stripCr_of_wfVal_last (a v : Str) (hv : WfVal v) :
    stripCr (a ++ v) = a ++ v := by
  apply stripCr_eq_self_of_last
  intro c hc
  rw [getLast?_append_ne_nil a v hv.1] at hc
  exact trimmed_last_not_ws v hv.2.1 c hc

theorem no_nl_append (a b : Str) (ha : '\n' ∉ a) (hb : '\n' ∉ b) : '\n' ∉ a ++ b := by
  intro h
  rcases List.mem_append.1 h with h1 | h2
  · exact ha h1
  · exact hb h2

theorem no_nl_of_wfKey (k : Str) (hk : (∀ c ∈ k, rustWs c = false)) : '\n' ∉ k := by
  intro h
  have := hk '\n' h
  simp [rustWs] at this

/-- The physical lines of one rendered host-option block. -/
theorem rustLines_opts (opts : List (Str × Str)) (rest : Str)
    (hwf : ∀ kv ∈ opts, WfKey kv.1 ∧ WfVal kv.2) :
    rustLines
      ((opts.map (fun kv => ("    ").toList ++ kv.1 ++ ' ' :: kv.2 ++ ['\n'])).flatten ++ rest) =
      opts.map (fun kv => ("    ").toList ++ kv.1 ++ ' ' :: kv.2) ++ rustLines rest := by
  induction opts with
  | nil => simp
  | cons kv opts ih =>
    rcases kv with ⟨k, v⟩
    obtain ⟨hk, hv⟩ := hwf (k, v) (by simp)
    have hrest := ih (fun kv2 h2 => hwf kv2 (by simp [h2]))
    have hnl : '\n' ∉ ("    ").toList ++ k ++ ' ' :: v := by
      apply no_nl_append
      · apply no_nl_append
        · decide
        · exact no_nl_of_wfKey k hk.2.1
      · intro hmem
        rcases List.mem_cons.1 hmem with h1 | h2
        · simp at h1
        · exact hv.2.2 h2
    have hshape :
        ((("    ").toList ++ k ++ ' ' :: v ++ ['\n']) ::
            opts.map (fun kv => ("    ").toList ++ kv.1 ++ ' ' :: kv.2 ++ ['\n'])).flatten ++ rest =
          (("    ").toList ++ k ++ ' ' :: v) ++ ['\n'] ++
            ((opts.map (fun kv => ("    ").toList ++ kv.1 ++ ' ' :: kv.2 ++ ['\n'])).flatten ++ rest) := by
      simp
    rw [List.map_cons, hshape, rustLines_chunk2 _ _ hnl, hrest]
    have hstrip : stripCr (("    ").toList ++ k ++ ' ' :: v) =
        ("    ").toList ++ k ++ ' ' :: v := by
      have hsh : ("    ").toList ++ k ++ ' ' :: v = (("    ").toList ++ k ++ [' ']) ++ v := by
        simp
      rw [hsh, stripCr_of_wfVal_last _ v hv]
    rw [hstrip]
    simp

theorem rustLines_nil : rustLines [] = [] := by rw [rustLines]

theorem renderLines_cons (l : ConfigLine) (L : List ConfigLine) :
    renderLines (l :: L) = renderLine l ++ renderLines L := by
  simp [renderLines]

/-- Splitting rendered output back into physical lines yields exactly the
per-line chunks. -/
theorem rustLines_renderLines :
    ∀ (L : List ConfigLine), (∀ l ∈ L, WfLine l) →
      rustLines (renderLines L) = (L.map chunkLines).flatten := by
  intro L
  induction L with
  | nil => intro _; simp [renderLines, rustLines_nil]
  | cons l L ih =>
    intro hwf
    have hwfl := hwf l (by simp)
    have hrest := ih (fun x hx => hwf x (by simp [hx]))
    rw [renderLines_cons]
    cases l with
    | comment t f =>
      obtain ⟨hcm, hnl⟩ := hwfl
      have hsh : renderLine (.comment t f) ++ renderLines L =
          t ++ ['\n'] ++ renderLines L := by
        simp [renderLine]
      rw [hsh, rustLines_chunk2 t _ hnl, hrest]
      simp [chunkLines]
    | empty f =>
      have hsh : renderLine (.empty f) ++ renderLines L =
          [] ++ ['\n'] ++ renderLines L := by
        simp [renderLine]
      rw [hsh, rustLines_chunk2 [] _ (by simp), hrest]
      simp [chunkLines, stripCr]
    | incl p f =>
      have hv : WfVal p := hwfl
      have hsh : renderLine (.incl p f) ++ renderLines L =
          (("Include ").toList ++ p) ++ ['\n'] ++ renderLines L := by
        simp [renderLine]
      have hnl : '\n' ∉ ("Include ").toList ++ p :=
        no_nl_append _ _ (by decide) hv.2.2
      rw [hsh, rustLines_chunk2 _ _ hnl, hrest,
        stripCr_of_wfVal_last (("Include ").toList) p hv]
      simp [chunkLines]
    | globalOption k v f =>
      obtain ⟨hk, hv⟩ := hwfl
      have hsh : renderLine (.globalOption k v f) ++ renderLines L =
          (k ++ ' ' :: v) ++ ['\n'] ++ renderLines L := by
        simp [renderLine]
      have hnl : '\n' ∉ k ++ ' ' :: v := by
        apply no_nl_append _ _ (no_nl_of_wfKey k hk.2.1)
        intro hmem
        rcases List.mem_cons.1 hmem with h1 | h2
        · simp at h1
        · exact hv.2.2 h2
      have hstrip : stripCr (k ++ ' ' :: v) = k ++ ' ' :: v := by
        have hsh2 : k ++ ' ' :: v = (k ++ [' ']) ++ v := by simp
        rw [hsh2, stripCr_of_wfVal_last _ v hv]
      rw [hsh, rustLines_chunk2 _ _ hnl, hrest, hstrip]
      simp [chunkLines]
    | hostEntry pat opts f =>
      obtain ⟨hp, hopts⟩ := hwfl
      have hsh : renderLine (.hostEntry pat opts f) ++ renderLines L =
          (("Host ").toList ++ pat) ++ ['\n'] ++
            ((opts.map (fun kv => ("    ").toList ++ kv.1 ++ ' ' :: kv.2 ++ ['\n'])).flatten ++
              renderLines L) := by
        simp [renderLine]
      have hnl : '\n' ∉ ("Host ").toList ++ pat :=
        no_nl_append _ _ (by decide) hp.2.2
      rw [hsh, rustLines_chunk2 _ _ hnl, rustLines_opts opts _ hopts, hrest,
        stripCr_of_wfVal_last (("Host ").toList) pat hp]
      simp [chunkLines]

/-- A line list whose head (if any) closes an open host block. -/
def FlushHead : List Str → Prop
  | [] => True
  | r :: _ =>
    isCommentLine r = true ∨ isBlankLine r = true ∨
      ∃ k v, keyValOf r = some (k, v) ∧
        (toLowercase k = hostKw ∨ toLowercase k = includeKw)

/-- Against a flushing head, an open host is emitted first and parsing of
the rest proceeds with no open host. -/
theorem buildFile_flushHead (b : FsPath) (pat : Str) (acc : List (Str × Str)) :
    ∀ rest : List Str, FlushHead rest →
      buildFile b rest (some (pat, acc)) = .hostEntry pat acc b :: buildFile b rest none := by
  intro rest hfh
  cases rest with
  | nil => rw [buildFile_nil, buildFile_nil]; rfl
  | cons r rs =>
    by_cases hc : isCommentLine r
    · rw [buildFile_comment b r rs _ hc, buildFile_comment b r rs none hc]
      rfl
    · by_cases hb : isBlankLine r
      · rw [buildFile_blank b r rs _ (by simpa using hc) hb,
          buildFile_blank b r rs none (by simpa using hc) hb]
        rfl
      · rcases hfh with h1 | h2 | ⟨k, v, hkv, hdir⟩
        · exact absurd h1 (by simpa using hc)
        · exact absurd h2 (by simpa using hb)
        · rcases hdir with hh | hi
          · rw [buildFile_host b r rs _ k v (by simpa using hc) (by simpa using hb) hkv hh,
              buildFile_host b r rs none k v (by simpa using hc) (by simpa using hb) hkv hh]
            rfl
          · by_cases hh2 : toLowercase k = hostKw
            · rw [buildFile_host b r rs _ k v (by simpa using hc) (by simpa using hb) hkv hh2,
                buildFile_host b r rs none k v (by simpa using hc) (by simpa using hb) hkv hh2]
              rfl
            · rw [buildFile_include b r rs _ k v (by simpa using hc) (by simpa using hb)
                hkv hh2 hi,
                buildFile_include b r rs none k v (by simpa using hc) (by simpa using hb)
                hkv hh2 hi]
              rfl

theorem toLowercase_host : toLowercase (("Host").toList) = hostKw := by decide
theorem toLowercase_include : toLowercase (("Include").toList) = includeKw := by decide

/-- Classification facts for a rendered option line `    k v`. -/
theorem classify_optLine (k v : Str) (hk : WfKey k) (hv : WfVal v) :
    isCommentLine (("    ").toList ++ k ++ ' ' :: v) = false ∧
    isBlankLine (("    ").toList ++ k ++ ' ' :: v) = false ∧
    keyValOf (("    ").toList ++ k ++ ' ' :: v) = some (k, v) := by
  have hpre : ∀ c ∈ (("    ").toList : Str), rustWs c = true := by decide
  have hsh : ("    ").toList ++ k ++ ' ' :: v = ("    ").toList ++ (k ++ ' ' :: v) := by
    simp
  refine ⟨?_, ?_, ?_⟩
  · rw [hsh]
    exact isCommentLine_canonical _ k v hpre hk.1 hk.2.1 hv.1 hv.2.1 hk.2.2.1
  · rw [hsh]
    exact isBlankLine_canonical _ k v hpre hk.1 hk.2.1 hv.1 hv.2.1
  · rw [hsh]
    exact keyValOf_canonical _ k v hpre hk.1 hk.2.1 hv.1 hv.2.1

/-- Parsing the rendered option lines of a host block accumulates exactly
the original options, then flushes at the following boundary. -/
theorem buildFile_optLines (b : FsPath) (pat : Str) :
    ∀ (opts : List (Str × Str)) (acc : List (Str × Str)) (rest : List Str),
      (∀ kv ∈ opts, WfKey kv.1 ∧ WfVal kv.2) → FlushHead rest →
      buildFile b ((opts.map (fun kv => ("    ").toList ++ kv.1 ++ ' ' :: kv.2)) ++ rest)
          (some (pat, acc)) =
        .hostEntry pat (acc ++ opts) b :: buildFile b rest none := by
  intro opts
  induction opts with
  | nil =>
    intro acc rest hwf hfh
    simp only [List.map_nil, List.nil_append, List.append_nil]
    exact buildFile_flushHead b pat acc rest hfh
  | cons kv opts ih =>
    rcases kv with ⟨k, v⟩
    intro acc rest hwf hfh
    obtain ⟨hk, hv⟩ := hwf (k, v) (by simp)
    obtain ⟨hc, hb, hkv⟩ := classify_optLine k v hk hv
    simp only [List.map_cons, List.cons_append]
    rw [buildFile_opt b _ _ k v pat acc hc hb hkv hk.2.2.2.1 hk.2.2.2.2]
    rw [ih (acc ++ [(k, v)]) rest (fun kv2 h2 => hwf kv2 (by simp [h2])) hfh]
    simp

/-- The head of the physical lines of a rendered non-`GlobalOption` line
closes an open host block. -/
theorem flushHead_chunk (l : ConfigLine) (hwf : WfLine l) (hng : l.isGlobal = false) :
    ∀ rest, FlushHead (chunkLines l ++ rest) := by
  intro rest
  cases l with
  | comment t f =>
    exact Or.inl (by
      rw [isCommentLine, trim_stripCr]
      exact decide_eq_true hwf.1)
  | empty f =>
    exact Or.inr (Or.inl rfl)
  | incl p f =>
    have hv : WfVal p := hwf
    have hkv : keyValOf (("Include ").toList ++ p) = some (("Include").toList, p) := by
      rw [show (("Include ").toList ++ p : Str) =
        [] ++ (("Include").toList ++ ' ' :: p) by simp]
      exact keyValOf_canonical [] _ p (by simp) (by decide) (by decide) hv.1 hv.2.1
    exact Or.inr (Or.inr ⟨_, _, hkv, Or.inr toLowercase_include⟩)
  | hostEntry pat opts f =>
    have hp : WfVal pat := hwf.1
    have hkv : keyValOf (("Host ").toList ++ pat) = some (("Host").toList, pat) := by
      rw [show (("Host ").toList ++ pat : Str) =
        [] ++ (("Host").toList ++ ' ' :: pat) by simp]
      exact keyValOf_canonical [] _ pat (by simp) (by decide) (by decide) hp.1 hp.2.1
    exact Or.inr (Or.inr ⟨_, _, hkv, Or.inl toLowercase_host⟩)
  | globalOption k v f => simp [ConfigLine.isGlobal] at hng

theorem classify_kv_line (k v : Str) (hk1 : k ≠ []) (hk2 : ∀ c ∈ k, rustWs c = false)
    (hk3 : k.head? ≠ some '#') (hv1 : v ≠ []) (hv2 : trim v = v) :
    isCommentLine (k ++ ' ' :: v) = false ∧ isBlankLine (k ++ ' ' :: v) = false ∧
      keyValOf (k ++ ' ' :: v) = some (k, v) :=
  ⟨isCommentLine_canonical [] k v (by simp) hk1 hk2 hv1 hv2 hk3,
   isBlankLine_canonical [] k v (by simp) hk1 hk2 hv1 hv2,
   keyValOf_canonical [] k v (by simp) hk1 hk2 hv1 hv2⟩

/-- Re-parsing the rendered text of a well-formed line sequence recovers
the sequence itself, except that a comment ending in `'\r'` loses that
final `'\r'`. -/
theorem buildFile_roundtrip (b : FsPath) :
    ∀ L : List ConfigLine, (∀ l ∈ L, WfLine l ∧ l.source = b) → NoHG L →
      buildFile b ((L.map chunkLines).flatten) none = L.map normLine := by
  intro L
  induction L with
  | nil => intro _ _; simp [buildFile_nil, flushList]
  | cons l L ih =>
    intro hwf hng
    have hwfl := (hwf l (by simp)).1
    have hsrc := (hwf l (by simp)).2
    have hwfL : ∀ x ∈ L, WfLine x ∧ x.source = b := fun x hx => hwf x (by simp [hx])
    have hngL : NoHG L := by
      rw [NoHG] at hng ⊢
      exact hng.tail
    have hrest := ih hwfL hngL
    simp only [List.map_cons, List.flatten_cons]
    cases l with
    | comment t f =>
      have hf : b = f := hsrc.symm
      subst hf
      have hc : isCommentLine (stripCr t) = true := by
        rw [isCommentLine, trim_stripCr]
        exact decide_eq_true hwfl.1
      simp only [chunkLines, List.singleton_append]
      rw [show (stripCr t :: (L.map chunkLines).flatten : List Str) =
        stripCr t :: (L.map chunkLines).flatten from rfl]
      rw [buildFile_comment b _ _ none hc, hrest]
      simp [flushList, normLine]
    | empty f =>
      have hf : b = f := hsrc.symm
      subst hf
      simp only [chunkLines, List.singleton_append]
      rw [buildFile_blank b [] _ none rfl rfl, hrest]
      simp [flushList, normLine]
    | incl p f =>
      have hf : b = f := hsrc.symm
      subst hf
      have hv : WfVal p := hwfl
      have hcl : isCommentLine (("Include").toList ++ ' ' :: p) = false ∧
          isBlankLine (("Include").toList ++ ' ' :: p) = false ∧
          keyValOf (("Include").toList ++ ' ' :: p) = some (("Include").toList, p) :=
        classify_kv_line _ p (by decide) (by decide) (by decide) hv.1 hv.2.1
      simp only [chunkLines, List.singleton_append]
      rw [show (("Include ").toList ++ p : Str) = ("Include").toList ++ ' ' :: p by simp]
      rw [buildFile_include b _ _ none _ p hcl.1 hcl.2.1 hcl.2.2
        (by rw [toLowercase_include]; exact includeKw_ne_hostKw) toLowercase_include, hrest]
      simp [flushList, normLine]
    | globalOption k v f =>
      have hf : b = f := hsrc.symm
      subst hf
      obtain ⟨hk, hv⟩ := hwfl
      have hcl := classify_kv_line k v hk.1 hk.2.1 hk.2.2.1 hv.1 hv.2.1
      simp only [chunkLines, List.singleton_append]
      rw [buildFile_global b _ _ k v hcl.1 hcl.2.1 hcl.2.2 hk.2.2.2.1 hk.2.2.2.2, hrest]
      simp [normLine]
    | hostEntry pat opts f =>
      have hf : b = f := hsrc.symm
      subst hf
      obtain ⟨hp, hopts⟩ := hwfl
      have hcl : isCommentLine (("Host").toList ++ ' ' :: pat) = false ∧
          isBlankLine (("Host").toList ++ ' ' :: pat) = false ∧
          keyValOf (("Host").toList ++ ' ' :: pat) = some (("Host").toList, pat) :=
        classify_kv_line _ pat (by decide) (by decide) (by decide) hp.1 hp.2.1
      have hfh : FlushHead ((L.map chunkLines).flatten) := by
        cases L with
        | nil => exact trivial
        | cons l2 L2 =>
          have hng2 : l2.isGlobal = false := by
            rw [NoHG, List.chain'_cons] at hng
            exact hng.1 rfl
          simp only [List.map_cons, List.flatten_cons]
          exact flushHead_chunk l2 (hwf l2 (by simp)).1 hng2 _
      simp only [chunkLines, List.cons_append]
      rw [show (("Host ").toList ++ pat : Str) = ("Host").toList ++ ' ' :: pat by simp]
      rw [buildFile_host b _ _ none _ pat hcl.1 hcl.2.1 hcl.2.2 toLowercase_host]
      rw [buildFile_optLines b pat opts [] _ hopts hfh, hrest]
      simp [flushList, normLine]

/-! ## Top-level corollaries about `parse_file` -/

/-- The document `parse_file` produces on a successful root read. -/
def parsedDoc (fs : FS) (fuel : Nat) (F : FsPath) (c : Str) : SshConfig :=
  parseContent fs fuel (rustLines c) F none
    { lines := [], included_files := [], visited_files := [fs.canon F] }

theorem parse_file_eq_ok (fs : FS) (fuel : Nat) (F : FsPath) (c : Str)
    (hread : fs.read F = some c) :
    parse_file fs fuel F = .ok (parsedDoc fs fuel F c) := by
  rw [parse_file, hread]
  rfl

theorem parse_file_eq_err (fs : FS) (fuel : Nat) (F : FsPath)
    (hread : fs.read F = none) :
    parse_file fs fuel F = .error (fs.readErr F) := by
  rw [parse_file, hread]

theorem parsedDoc_spec (fs : FS) (fuel : Nat) (F : FsPath) (c : Str) :
    Good fs (parsedDoc fs fuel F c) ∧
    filterSource F (parsedDoc fs fuel F c).lines = buildFile F (rustLines c) none ∧
    (∀ d : IncludedFileData, (F, d) ∉ (parsedDoc fs fuel F c).included_files) ∧
    fs.canon F ∈ (parsedDoc fs fuel F c).visited_files := by
  have hg0 : Good fs ⟨[], [], [fs.canon F]⟩ := by
    constructor
    · intro l hl
      simp at hl
    · intro p d hpd
      simp at hpd
  have hwfL : ∀ l ∈ buildFile F (rustLines c) none, WfLine l ∧ l.source = F := by
    intro l hl
    exact ⟨buildFile_wf F (rustLines c) none (rustLines_no_nl c) trivial l hl,
      buildFile_src F (rustLines c) none l hl⟩
  rw [parsedDoc, parseContent_eq_weave]
  obtain ⟨w1, w2, w3, w4, w5, w6⟩ :=
    (gpres fs fuel).1 (buildFile F (rustLines c) none) F
      ⟨[], [], [fs.canon F]⟩ hg0 (by simp) (by simp) hwfL
  refine ⟨w1, ?_, ?_, w2 _ (by simp)⟩
  · rw [w5]
    simp [filterSource]
  · intro d
    exact w4 F (by simp) (by simp) d

theorem to_string_root (fs : FS) (fuel : Nat) (F : FsPath) (c : Str) :
    (parsedDoc fs fuel F c).to_string F =
      renderLines (buildFile F (rustLines c) none) := by
  rw [SshConfig.to_string, (parsedDoc_spec fs fuel F c).2.1]

/-! ## The comment/blank/include projection (claim C1) -/

/-- The round-tripping payload of one stored line: comments, blanks and
includes, in the canonical form the renderer emits them. -/
def cbiOf : ConfigLine → Option Str
  | .comment t _ => some (stripCr t)
  | .empty _ => some []
  | .incl p _ => some (("Include ").toList ++ p)
  | _ => none

/-- The same projection over a whole document. -/
def docCbi (L : List ConfigLine) : List Str := L.filterMap cbiOf

theorem docCbi_append (A B : List ConfigLine) : docCbi (A ++ B) = docCbi A ++ docCbi B :=
  List.filterMap_append _ _ _

theorem docCbi_flushList (cur) (b : FsPath) : docCbi (flushList cur b) = [] := by
  cases cur with
  | none => rfl
  | some po =>
    rcases po with ⟨p, o⟩
    rfl

theorem isCbi_kv_false (pre k v : Str) (hpre : ∀ c ∈ pre, rustWs c = true)
    (hk1 : k ≠ []) (hk2 : ∀ c ∈ k, rustWs c = false) (hk3 : k.head? ≠ some '#')
    (hki : toLowercase k ≠ includeKw) (hv1 : v ≠ []) (hv2 : trim v = v) :
    isCbiLine (pre ++ (k ++ ' ' :: v)) = false := by
  rw [isCbiLine, isCommentLine_canonical pre k v hpre hk1 hk2 hv1 hv2 hk3,
    isBlankLine_canonical pre k v hpre hk1 hk2 hv1 hv2,
    keyValOf_canonical pre k v hpre hk1 hk2 hv1 hv2]
  simp [hki]

theorem isCbi_kv_include (pre k v : Str) (hpre : ∀ c ∈ pre, rustWs c = true)
    (hk1 : k ≠ []) (hk2 : ∀ c ∈ k, rustWs c = false)
    (hki : toLowercase k = includeKw) (hv1 : v ≠ []) (hv2 : trim v = v) :
    isCbiLine (pre ++ (k ++ ' ' :: v)) = true := by
  rw [isCbiLine, keyValOf_canonical pre k v hpre hk1 hk2 hv1 hv2]
  simp [hki]

theorem filter_cbi_chunks :
    ∀ L : List ConfigLine, (∀ l ∈ L, WfLine l) →
      ((L.map chunkLines).flatten).filter isCbiLine = docCbi L := by
  intro L
  induction L with
  | nil => intro _; rfl
  | cons l L ih =>
    intro hwf
    have hwfl := hwf l (by simp)
    have hrest := ih (fun x hx => hwf x (by simp [hx]))
    simp only [List.map_cons, List.flatten_cons, List.filter_append, hrest]
    cases l with
    | comment t f =>
      have hc : isCbiLine (stripCr t) = true := by
        rw [isCbiLine]
        have : isCommentLine (stripCr t) = true := by
          rw [isCommentLine, trim_stripCr]
          exact decide_eq_true hwfl.1
        simp [this]
      simp only [chunkLines, List.filter_cons_of_pos hc, List.filter_nil, docCbi,
        List.filterMap_cons, cbiOf, List.singleton_append]
    | empty f =>
      have hc : isCbiLine ([] : Str) = true := by
        rw [isCbiLine]
        have : isBlankLine ([] : Str) = true := rfl
        simp [this]
      simp only [chunkLines, List.filter_cons_of_pos hc, List.filter_nil, docCbi,
        List.filterMap_cons, cbiOf, List.singleton_append]
    | incl p f =>
      have hv : WfVal p := hwfl
      have hc : isCbiLine (("Include ").toList ++ p) = true := by
        rw [show (("Include ").toList ++ p : Str) =
          [] ++ (("Include").toList ++ ' ' :: p) by simp]
        exact isCbi_kv_include [] _ p (by simp) (by decide) (by decide)
          toLowercase_include hv.1 hv.2.1
      simp only [chunkLines, List.filter_cons_of_pos hc, List.filter_nil, docCbi,
        List.filterMap_cons, cbiOf, List.singleton_append]
    | globalOption k v f =>
      obtain ⟨hk, hv⟩ := hwfl
      have hc : isCbiLine (k ++ ' ' :: v) = false := by
        rw [show (k ++ ' ' :: v : Str) = [] ++ (k ++ ' ' :: v) by simp]
        exact isCbi_kv_false [] k v (by simp) hk.1 hk.2.1 hk.2.2.1 hk.2.2.2.2 hv.1 hv.2.1
      simp only [chunkLines]
      rw [List.filter_cons_of_neg (by rw [hc]; simp), List.filter_nil]
      simp only [docCbi, List.filterMap_cons, cbiOf, List.nil_append]
    | hostEntry pat opts f =>
      obtain ⟨hp, hopts⟩ := hwfl
      have hc1 : isCbiLine (("Host ").toList ++ pat) = false := by
        rw [show (("Host ").toList ++ pat : Str) =
          [] ++ (("Host").toList ++ ' ' :: pat) by simp]
        exact isCbi_kv_false [] _ pat (by simp) (by decide) (by decide) (by decide)
          (by rw [toLowercase_host]; exact fun h => includeKw_ne_hostKw h.symm)
          hp.1 hp.2.1
      have hc2 : ∀ kv ∈ opts,
          isCbiLine (("    ").toList ++ kv.1 ++ ' ' :: kv.2) = false := by
        intro kv hkv
        obtain ⟨hk, hv⟩ := hopts kv hkv
        rw [show (("    ").toList ++ kv.1 ++ ' ' :: kv.2 : Str) =
          ("    ").toList ++ (kv.1 ++ ' ' :: kv.2) by simp]
        exact isCbi_kv_false _ kv.1 kv.2 (by decide) hk.1 hk.2.1 hk.2.2.1
          hk.2.2.2.2 hv.1 hv.2.1
      have hfilter :
          ((("Host ").toList ++ pat) ::
              opts.map (fun kv => ("    ").toList ++ kv.1 ++ ' ' :: kv.2)).filter
            isCbiLine = [] := by
        rw [List.filter_eq_nil_iff]
        intro x hx
        rcases List.mem_cons.1 hx with rfl | hmem
        · rw [hc1]
          simp
        · obtain ⟨kv, hkv, rfl⟩ := List.mem_map.1 hmem
          rw [hc2 kv hkv]
          simp
      simp only [chunkLines]
      rw [hfilter]
      simp only [docCbi, List.filterMap_cons, cbiOf, List.nil_append]

theorem docCbi_buildFile (b : FsPath) :
    ∀ (ls : List Str) (cur),
      docCbi (buildFile b ls cur) = (ls.filter isCbiLine).map canonCbi := by
  intro ls
  induction ls with
  | nil =>
    intro cur
    rw [buildFile_nil, docCbi_flushList]
    rfl
  | cons a as ih =>
    intro cur
    cases hcl : classifyLine a with
    | comment =>
      have hc := classifyLine_comment a hcl
      have hcbi : isCbiLine a = true := by rw [isCbiLine, hc]; simp
      have hcanon : canonCbi a = stripCr a := by rw [canonCbi, if_pos hc]
      rw [buildFile_comment b a as cur hc, docCbi_append, docCbi_flushList,
        List.filter_cons_of_pos hcbi, List.map_cons, hcanon]
      simp only [docCbi, List.filterMap_cons, cbiOf, List.nil_append]
      rw [← docCbi, ih none]
    | blank =>
      obtain ⟨h1, h2⟩ := classifyLine_blank a hcl
      have hcbi : isCbiLine a = true := by rw [isCbiLine, h2]; simp
      have hcanon : canonCbi a = [] := by rw [canonCbi, if_neg (by simp [h1]), if_pos h2]
      rw [buildFile_blank b a as cur h1 h2, docCbi_append, docCbi_flushList,
        List.filter_cons_of_pos hcbi, List.map_cons, hcanon]
      simp only [docCbi, List.filterMap_cons, cbiOf, List.nil_append]
      rw [← docCbi, ih none]
    | malformed =>
      obtain ⟨h1, h2, h3⟩ := classifyLine_malformed a hcl
      have hcbi : isCbiLine a = false := by rw [isCbiLine, h1, h2, h3]; simp
      rw [buildFile_malformed b a as cur h1 h2 h3,
        List.filter_cons_of_neg (by rw [hcbi]; simp), ih cur]
    | hostDir k v =>
      obtain ⟨h1, h2, h3, h4⟩ := classifyLine_hostDir a k v hcl
      have hcbi : isCbiLine a = false := by
        rw [isCbiLine, h1, h2, h3]
        simp [h4, includeKw_ne_hostKw.symm]
      rw [buildFile_host b a as cur k v h1 h2 h3 h4, docCbi_append, docCbi_flushList,
        List.filter_cons_of_neg (by rw [hcbi]; simp), ih (some (v, []))]
      rfl
    | includeDir k v =>
      obtain ⟨h1, h2, h3, h4, h5⟩ := classifyLine_includeDir a k v hcl
      have hcbi : isCbiLine a = true := by rw [isCbiLine, h3]; simp [h5]
      have hcanon : canonCbi a = ("Include ").toList ++ v := by
        rw [canonCbi, if_neg (by simp [h1]), if_neg (by simp [h2]), h3]
      rw [buildFile_include b a as cur k v h1 h2 h3 h4 h5, docCbi_append,
        docCbi_flushList, List.filter_cons_of_pos hcbi, List.map_cons, hcanon]
      simp only [docCbi, List.filterMap_cons, cbiOf, List.nil_append]
      rw [← docCbi, ih none]
    | option k v =>
      obtain ⟨h1, h2, h3, h4, h5⟩ := classifyLine_option a k v hcl
      have hcbi : isCbiLine a = false := by
        rw [isCbiLine, h1, h2, h3]
        simp [h5]
      cases cur with
      | none =>
        rw [buildFile_global b a as k v h1 h2 h3 h4 h5,
          List.filter_cons_of_neg (by rw [hcbi]; simp)]
        simp only [docCbi, List.filterMap_cons, cbiOf]
        rw [← docCbi, ih none]
      | some po =>
        rcases po with ⟨p, o⟩
        rw [buildFile_opt b a as k v p o h1 h2 h3 h4 h5,
          List.filter_cons_of_neg (by rw [hcbi]; simp), ih (some (p, o ++ [(k, v)]))]

/-! ## Claim C1 -/

/-- A filesystem holding exactly one readable file `F` with content `c`. -/
def fsOne (F : FsPath) (c : Str) : FS :=
  ⟨fun _ => false, fun p => if p = F then some c else none, fun _ => "io error",
    fun p => p, fun _ _ => [], fun _ => none⟩

/-- C1 (amended): rendering a parsed file reproduces its comment, blank and
`Include` lines in order, but in canonical form rather than byte-for-byte:
a comment loses a trailing carriage return, a whitespace-only blank line
renders as an empty line, and an `Include` directive is re-emitted as
`Include` + one space + the trimmed argument. Filtering the re-split
rendered output down to comment/blank/include lines yields exactly the
canonicalisation of the corresponding source lines. -/
theorem render_preserves_cbi (fs : FS) (fuel : Nat) (F : FsPath) (c : Str)
    (D : SshConfig) (hread : fs.read F = some c)
    (hparse : parse_file fs fuel F = Except.ok D) :
    (rustLines (D.to_string F)).filter isCbiLine
      = ((rustLines c).filter isCbiLine).map canonCbi := by
  have hD : parsedDoc fs fuel F c = D := by
    have h0 := parse_file_eq_ok fs fuel F c hread
    rw [h0] at hparse
    exact Except.ok.inj hparse
  subst hD
  rw [to_string_root]
  have hwf : ∀ l ∈ buildFile F (rustLines c) none, WfLine l :=
    fun l hl => buildFile_wf F (rustLines c) none (rustLines_no_nl c) trivial l hl
  rw [rustLines_renderLines _ hwf, filter_cbi_chunks _ hwf, docCbi_buildFile]

/-- The amended C1 statement at a concrete one-file filesystem. -/
theorem render_preserves_cbi_witness :
    (fsOne "/f" (("# hi\n").toList)).read "/f" = some (("# hi\n").toList) ∧
    (rustLines ((parsedDoc (fsOne "/f" (("# hi\n").toList)) 1 "/f"
        (("# hi\n").toList)).to_string "/f")).filter isCbiLine
      = ((rustLines (("# hi\n").toList)).filter isCbiLine).map canonCbi :=
  ⟨rfl, render_preserves_cbi (fsOne "/f" (("# hi\n").toList)) 1 "/f"
    (("# hi\n").toList) _ rfl rfl⟩

/-- C1 counterexample to the byte-for-byte reading: the whitespace-only
blank line `"   "` is a physical line of its file, yet the rendered output
of the parsed document contains no such line (it re-renders as an empty
line). -/
theorem blank_line_not_verbatim :
    ("   ").toList ∈ rustLines (("   ").toList) ∧
    isBlankLine (("   ").toList) = true ∧
    ("   ").toList ∉
      rustLines ((parsedDoc (fsOne "/g" (("   ").toList)) 1 "/g"
        (("   ").toList)).to_string "/g") := by
  have hc : rustLines (("   ").toList) = [("   ").toList] :=
    rustLines_cons_none ' ' ("  ").toList ("   ").toList rfl
  refine ⟨by rw [hc]; exact List.mem_singleton.2 rfl, by decide, ?_⟩
  have h2 : (parsedDoc (fsOne "/g" (("   ").toList)) 1 "/g"
      (("   ").toList)).to_string "/g" = ['\n'] := by
    rw [parsedDoc, hc,
      parseContent_blank (fsOne "/g" (("   ").toList)) 1 (("   ").toList) [] "/g" none
        ⟨[], [], [(fsOne "/g" (("   ").toList)).canon "/g"]⟩ (by decide) (by decide),
      parseContent_nil]
    rfl
  rw [h2, rustLines_cons_some '\n' [] [] [] rfl, rustLines_nil]
  decide

/-! ## Host blocks: the parser's accumulation vs the spec description (C4) -/

theorem hostsOf_append (A B : List ConfigLine) : hostsOf (A ++ B) = hostsOf A ++ hostsOf B :=
  List.filterMap_append _ _ _

theorem hostsOf_flushList_none (b : FsPath) : hostsOf (flushList none b) = [] := rfl

theorem hostsOf_flushList_some (b : FsPath) (p : Str) (o : List (Str × Str)) :
    hostsOf (flushList (some (p, o)) b) = [(p, o)] := rfl

theorem hostsOf_cons_comment (t : Str) (f : FsPath) (L : List ConfigLine) :
    hostsOf (.comment t f :: L) = hostsOf L := by
  simp [hostsOf, List.filterMap_cons]

theorem hostsOf_cons_empty (f : FsPath) (L : List ConfigLine) :
    hostsOf (.empty f :: L) = hostsOf L := by
  simp [hostsOf, List.filterMap_cons]

theorem hostsOf_cons_incl (p : Str) (f : FsPath) (L : List ConfigLine) :
    hostsOf (.incl p f :: L) = hostsOf L := by
  simp [hostsOf, List.filterMap_cons]

theorem hostsOf_cons_global (k v : Str) (f : FsPath) (L : List ConfigLine) :
    hostsOf (.globalOption k v f :: L) = hostsOf L := by
  simp [hostsOf, List.filterMap_cons]

theorem hostsOf_cons_host (p : Str) (o : List (Str × Str)) (f : FsPath)
    (L : List ConfigLine) :
    hostsOf (.hostEntry p o f :: L) = (p, o) :: hostsOf L := by
  simp [hostsOf, List.filterMap_cons]

theorem boundary_of_comment (l : Str) (h : isCommentLine l = true) :
    isBoundaryLine l = true := by
  rw [isBoundaryLine, h]
  simp

theorem boundary_of_blank (l : Str) (h : isBlankLine l = true) :
    isBoundaryLine l = true := by
  rw [isBoundaryLine, h]
  simp

theorem boundary_of_malformed (l : Str) (h1 : isCommentLine l = false)
    (h2 : isBlankLine l = false) (h3 : keyValOf l = none) :
    isBoundaryLine l = false := by
  rw [isBoundaryLine, h1, h2, h3]
  simp

theorem boundary_of_dir (l k v : Str) (h1 : isCommentLine l = false)
    (h2 : isBlankLine l = false) (h3 : keyValOf l = some (k, v))
    (h4 : toLowercase k = hostKw ∨ toLowercase k = includeKw) :
    isBoundaryLine l = true := by
  rw [isBoundaryLine, h1, h2, h3]
  rcases h4 with h | h <;> simp [h]

theorem boundary_of_opt (l k v : Str) (h1 : isCommentLine l = false)
    (h2 : isBlankLine l = false) (h3 : keyValOf l = some (k, v))
    (h4 : toLowercase k ≠ hostKw) (h5 : toLowercase k ≠ includeKw) :
    isBoundaryLine l = false := by
  rw [isBoundaryLine, h1, h2, h3]
  simp [h4, h5]

theorem hostLineOf_host (l k v : Str) (h1 : isCommentLine l = false)
    (h2 : isBlankLine l = false) (h3 : keyValOf l = some (k, v))
    (h4 : toLowercase k = hostKw) :
    hostLineOf l = some v := by
  rw [hostLineOf, h1, h2]
  simp [h3, h4]

theorem hostLineOf_none_of_not_host (l : Str)
    (h : ∀ k v, keyValOf l = some (k, v) → toLowercase k ≠ hostKw) :
    hostLineOf l = none := by
  rw [hostLineOf]
  by_cases hc : isCommentLine l || isBlankLine l
  · simp [hc]
  · simp only [hc, if_false]
    cases hkv : keyValOf l with
    | none => rfl
    | some kv => rcases kv with ⟨k, v⟩; simp [h k v hkv]

theorem optPairOf_opt (l k v : Str) (h1 : isCommentLine l = false)
    (h2 : isBlankLine l = false) (h3 : keyValOf l = some (k, v))
    (h4 : toLowercase k ≠ hostKw) (h5 : toLowercase k ≠ includeKw) :
    optPairOf l = some (k, v) := by
  rw [optPairOf, h1, h2]
  simp [h3, h4, h5]

theorem optPairOf_malformed (l : Str) (h1 : isCommentLine l = false)
    (h2 : isBlankLine l = false) (h3 : keyValOf l = none) :
    optPairOf l = none := by
  rw [optPairOf, h1, h2]
  simp [h3]

theorem takeOpts_cons_boundary (l : Str) (ls : List Str) (h : isBoundaryLine l = true) :
    takeOpts (l :: ls) = [] := by
  rw [takeOpts, h]
  simp

theorem takeOpts_cons_skip (l : Str) (ls : List Str) (h : isBoundaryLine l = false)
    (ho : optPairOf l = none) :
    takeOpts (l :: ls) = takeOpts ls := by
  rw [takeOpts, h]
  simp [ho]

theorem takeOpts_cons_opt (l : Str) (ls : List Str) (kv : Str × Str)
    (h : isBoundaryLine l = false) (ho : optPairOf l = some kv) :
    takeOpts (l :: ls) = kv :: takeOpts ls := by
  rw [takeOpts, h]
  simp [ho]

theorem dropOpts_cons_boundary (l : Str) (ls : List Str) (h : isBoundaryLine l = true) :
    dropOpts (l :: ls) = l :: ls := by
  rw [dropOpts, h]
  simp

theorem dropOpts_cons_skip (l : Str) (ls : List Str) (h : isBoundaryLine l = false) :
    dropOpts (l :: ls) = dropOpts ls := by
  rw [dropOpts, h]
  simp

theorem specHostBlocks_nil : specHostBlocks [] = [] := by
  rw [specHostBlocks]

theorem specHostBlocks_cons_some (l : Str) (ls : List Str) (pat : Str)
    (h : hostLineOf l = some pat) :
    specHostBlocks (l :: ls) = (pat, takeOpts ls) :: specHostBlocks (dropOpts ls) := by
  rw [specHostBlocks.eq_def]
  simp [h]

theorem specHostBlocks_cons_none (l : Str) (ls : List Str) (h : hostLineOf l = none) :
    specHostBlocks (l :: ls) = specHostBlocks ls := by
  rw [specHostBlocks.eq_def]
  simp [h]

theorem hostsOf_buildFile (b : FsPath) : ∀ ls : List Str,
    hostsOf (buildFile b ls none) = specHostBlocks ls ∧
    ∀ (p : Str) (o : List (Str × Str)),
      hostsOf (buildFile b ls (some (p, o))) =
        (p, o ++ takeOpts ls) :: specHostBlocks (dropOpts ls) := by
  intro ls
  induction ls with
  | nil =>
    refine ⟨by rw [buildFile_nil, hostsOf_flushList_none, specHostBlocks_nil], ?_⟩
    intro p o
    rw [buildFile_nil, hostsOf_flushList_some]
    simp [takeOpts, dropOpts, specHostBlocks_nil]
  | cons a as ih =>
    cases hcl : classifyLine a with
    | comment =>
      have hc := classifyLine_comment a hcl
      have hbd := boundary_of_comment a hc
      have hhl : hostLineOf a = none := by
        rw [hostLineOf]
        simp [hc]
      constructor
      · rw [buildFile_comment b a as none hc, specHostBlocks_cons_none a as hhl]
        simp only [flushList, List.nil_append, hostsOf_cons_comment]
        exact ih.1
      · intro p o
        rw [buildFile_comment b a as (some (p, o)) hc, takeOpts_cons_boundary a as hbd,
          dropOpts_cons_boundary a as hbd, specHostBlocks_cons_none a as hhl]
        simp only [flushList, List.singleton_append, hostsOf_cons_host,
          hostsOf_cons_comment, List.append_nil]
        rw [ih.1]
    | blank =>
      obtain ⟨h1, h2⟩ := classifyLine_blank a hcl
      have hbd := boundary_of_blank a h2
      have hhl : hostLineOf a = none := by
        rw [hostLineOf]
        simp [h2]
      constructor
      · rw [buildFile_blank b a as none h1 h2, specHostBlocks_cons_none a as hhl]
        simp only [flushList, List.nil_append, hostsOf_cons_empty]
        exact ih.1
      · intro p o
        rw [buildFile_blank b a as (some (p, o)) h1 h2, takeOpts_cons_boundary a as hbd,
          dropOpts_cons_boundary a as hbd, specHostBlocks_cons_none a as hhl]
        simp only [flushList, List.singleton_append, hostsOf_cons_host,
          hostsOf_cons_empty, List.append_nil]
        rw [ih.1]
    | malformed =>
      obtain ⟨h1, h2, h3⟩ := classifyLine_malformed a hcl
      have hbd := boundary_of_malformed a h1 h2 h3
      have hhl : hostLineOf a = none :=
        hostLineOf_none_of_not_host a (fun k v hk => by rw [hk] at h3; cases h3)
      constructor
      · rw [buildFile_malformed b a as none h1 h2 h3, specHostBlocks_cons_none a as hhl]
        exact ih.1
      · intro p o
        rw [buildFile_malformed b a as (some (p, o)) h1 h2 h3,
          takeOpts_cons_skip a as hbd (optPairOf_malformed a h1 h2 h3),
          dropOpts_cons_skip a as hbd]
        exact ih.2 p o
    | hostDir k v =>
      obtain ⟨h1, h2, h3, h4⟩ := classifyLine_hostDir a k v hcl
      have hbd := boundary_of_dir a k v h1 h2 h3 (Or.inl h4)
      have hhl := hostLineOf_host a k v h1 h2 h3 h4
      constructor
      · rw [buildFile_host b a as none k v h1 h2 h3 h4,
          specHostBlocks_cons_some a as v hhl]
        simp only [flushList, List.nil_append]
        have := ih.2 v []
        simpa using this
      · intro p o
        rw [buildFile_host b a as (some (p, o)) k v h1 h2 h3 h4,
          takeOpts_cons_boundary a as hbd, dropOpts_cons_boundary a as hbd,
          specHostBlocks_cons_some a as v hhl]
        simp only [flushList, List.singleton_append, hostsOf_cons_host, List.append_nil]
        have := ih.2 v []
        simpa using this
    | includeDir k v =>
      obtain ⟨h1, h2, h3, h4, h5⟩ := classifyLine_includeDir a k v hcl
      have hbd := boundary_of_dir a k v h1 h2 h3 (Or.inr h5)
      have hhl : hostLineOf a = none :=
        hostLineOf_none_of_not_host a
          (fun k0 v0 hk => by rw [hk] at h3; cases h3; exact h4)
      constructor
      · rw [buildFile_include b a as none k v h1 h2 h3 h4 h5,
          specHostBlocks_cons_none a as hhl]
        simp only [flushList, List.nil_append, hostsOf_cons_incl]
        exact ih.1
      · intro p o
        rw [buildFile_include b a as (some (p, o)) k v h1 h2 h3 h4 h5,
          takeOpts_cons_boundary a as hbd, dropOpts_cons_boundary a as hbd,
          specHostBlocks_cons_none a as hhl]
        simp only [flushList, List.singleton_append, hostsOf_cons_host,
          hostsOf_cons_incl, List.append_nil]
        rw [ih.1]
    | option k v =>
      obtain ⟨h1, h2, h3, h4, h5⟩ := classifyLine_option a k v hcl
      have hbd := boundary_of_opt a k v h1 h2 h3 h4 h5
      have hhl : hostLineOf a = none :=
        hostLineOf_none_of_not_host a
          (fun k0 v0 hk => by rw [hk] at h3; cases h3; exact h4)
      constructor
      · rw [buildFile_global b a as k v h1 h2 h3 h4 h5,
          specHostBlocks_cons_none a as hhl, hostsOf_cons_global]
        exact ih.1
      · intro p o
        rw [buildFile_opt b a as k v p o h1 h2 h3 h4 h5,
          takeOpts_cons_opt a as (k, v) hbd (optPairOf_opt a k v h1 h2 h3 h4 h5),
          dropOpts_cons_skip a as hbd]
        rw [ih.2 p (o ++ [(k, v)])]
        simp

/-! ## Claim C4 -/

/-- C4: host-block accumulation. In any successfully parsed document, the
host entries attributed to each physical file (the root and every included
file) are exactly the spec-side blocks of that file's lines: each entry
pairs a `Host` line's pattern with the option pairs of the consecutive
option lines up to the next `Host`/`Include`/comment/blank/end of file, in
original order. Moreover a comment, blank, or `Include` line first flushes
any open host block and only then appends its own line, so the flushed
`HostEntry` immediately precedes it in document order. -/
theorem host_blocks_spec (fs : FS) (fuel : Nat) (F : FsPath) (c : Str)
    (D : SshConfig) (hread : fs.read F = some c)
    (hparse : parse_file fs fuel F = Except.ok D) :
    (hostsOf (filterSource F D.lines) = specHostBlocks (rustLines c)) ∧
    (∀ p d, (p, d) ∈ D.included_files →
      hostsOf (filterSource p D.lines) = specHostBlocks (rustLines d.content)) ∧
    (∀ (fuel2 : Nat) (l : Str) (ls : List Str) (base : FsPath) (p : Str)
        (o : List (Str × Str)) (st : SshConfig),
      (isCommentLine l = true →
        parseContent fs fuel2 (l :: ls) base (some (p, o)) st =
          parseContent fs fuel2 ls base none
            (pushLine (flushHost (some (p, o)) base st) (.comment l base)) ∧
        (pushLine (flushHost (some (p, o)) base st) (.comment l base)).lines =
          st.lines ++ [.hostEntry p o base, .comment l base]) ∧
      (isCommentLine l = false → isBlankLine l = true →
        parseContent fs fuel2 (l :: ls) base (some (p, o)) st =
          parseContent fs fuel2 ls base none
            (pushLine (flushHost (some (p, o)) base st) (.empty base)) ∧
        (pushLine (flushHost (some (p, o)) base st) (.empty base)).lines =
          st.lines ++ [.hostEntry p o base, .empty base]) ∧
      (∀ k v, isCommentLine l = false → isBlankLine l = false →
        keyValOf l = some (k, v) → toLowercase k = includeKw →
        parseContent fs fuel2 (l :: ls) base (some (p, o)) st =
          parseContent fs fuel2 ls base none
            (parseInclude fs fuel2 v base
              (pushLine (flushHost (some (p, o)) base st) (.incl v base))) ∧
        (pushLine (flushHost (some (p, o)) base st) (.incl v base)).lines =
          st.lines ++ [.hostEntry p o base, .incl v base])) := by
  have hD : parsedDoc fs fuel F c = D := by
    have h0 := parse_file_eq_ok fs fuel F c hread
    rw [h0] at hparse
    exact Except.ok.inj hparse
  subst hD
  obtain ⟨hgood, hfilt, _, _⟩ := parsedDoc_spec fs fuel F c
  refine ⟨?_, ?_, ?_⟩
  · rw [hfilt, (hostsOf_buildFile F (rustLines c)).1]
  · intro p d hpd
    obtain ⟨_, _, _, h4⟩ := hgood.2 p d hpd
    rw [h4, (hostsOf_buildFile p (rustLines d.content)).1]
  · intro fuel2 l ls base p o st
    refine ⟨fun hc => ⟨parseContent_comment fs fuel2 l ls base (some (p, o)) st hc, ?_⟩,
      fun h1 h2 => ⟨parseContent_blank fs fuel2 l ls base (some (p, o)) st h1 h2, ?_⟩,
      fun k v h1 h2 h3 h5 =>
        ⟨parseContent_include fs fuel2 l ls base (some (p, o)) st k v h1 h2 h3
          (by rw [h5]; exact includeKw_ne_hostKw) h5, ?_⟩⟩ <;>
      simp [flushHost, pushLine]

/-- The first conjunct of the C4 theorem at a concrete two-host file. -/
theorem host_blocks_spec_witness :
    hostsOf (filterSource "/h"
        (parsedDoc (fsOne "/h" (("Host a\n    User u\n    Port 22\nHost b\n").toList))
          1 "/h" (("Host a\n    User u\n    Port 22\nHost b\n").toList)).lines) =
      specHostBlocks (rustLines (("Host a\n    User u\n    Port 22\nHost b\n").toList)) :=
  (host_blocks_spec (fsOne "/h" (("Host a\n    User u\n    Port 22\nHost b\n").toList))
    1 "/h" (("Host a\n    User u\n    Port 22\nHost b\n").toList) _ rfl rfl).1

/-! ## Re-parsing after save: the simulation argument for claim C2 -/

@[simp] theorem saveFS_isFile (fs : FS) (cfg : SshConfig) (m : FsPath) :
    (saveFS fs cfg m).isFile = fs.isFile := rfl

@[simp] theorem saveFS_canon (fs : FS) (cfg : SshConfig) (m : FsPath) :
    (saveFS fs cfg m).canon = fs.canon := rfl

@[simp] theorem saveFS_resolve (fs : FS) (cfg : SshConfig) (m : FsPath) :
    (saveFS fs cfg m).resolve = fs.resolve := rfl

theorem saveFS_read (fs : FS) (cfg : SshConfig) (m q : FsPath) :
    (saveFS fs cfg m).read q =
      if q = m ∨ q ∈ cfg.included_files.map Prod.fst then some (cfg.to_string q)
      else fs.read q := rfl

/-- The simulation relation between a state of the original parse and the
corresponding state of the re-parse after saving: the re-parse has the
`normLine`-image of the lines, the same visited set, and the root's
canonical path is visited. -/
def SimR (fs : FS) (F : FsPath) (st1 st2 : SshConfig) : Prop :=
  st2.lines = st1.lines.map normLine ∧
  st2.visited_files = st1.visited_files ∧
  fs.canon F ∈ st1.visited_files

/-- The simulation through `weave`: replaying the `normLine`-image of a
line block over the saved filesystem tracks the original replay. -/
def SimWeave (fs : FS) (D : SshConfig) (F : FsPath) (fuel : Nat) : Prop :=
  ∀ (L : List ConfigLine) (base : FsPath) (st1 st2 : SshConfig),
    SimR fs F st1 st2 →
    (∀ e ∈ (weave fs fuel L base st1).included_files, e ∈ D.included_files) →
    SimR fs F (weave fs fuel L base st1)
      (weave (saveFS fs D F) fuel (L.map normLine) base st2)

/-- The simulation through `parseCands`. -/
def SimCands (fs : FS) (D : SshConfig) (F : FsPath) (fuel : Nat) : Prop :=
  ∀ (cands : List FsPath) (st1 st2 : SshConfig),
    SimR fs F st1 st2 →
    (∀ e ∈ (parseCands fs fuel cands st1).included_files, e ∈ D.included_files) →
    SimR fs F (parseCands fs fuel cands st1)
      (parseCands (saveFS fs D F) fuel cands st2)

theorem simWeave_of_cands (fs : FS) (D : SshConfig) (F : FsPath) (fuel : Nat)
    (hc : SimCands fs D F fuel) : SimWeave fs D F fuel := by
  intro L
  induction L with
  | nil =>
    intro base st1 st2 hR _
    exact hR
  | cons l L ih =>
    intro base st1 st2 hR hsub
    rw [weave_cons] at hsub
    rw [List.map_cons, weave_cons, weave_cons]
    obtain ⟨hlines, hvis, hF⟩ := hR
    refine ih base _ _ ?_ hsub
    cases l with
    | comment t f =>
      exact ⟨by simp [weaveStep, normLine, hlines], by simp [weaveStep, normLine, hvis],
        by simp [weaveStep, hF]⟩
    | empty f =>
      exact ⟨by simp [weaveStep, normLine, hlines], by simp [weaveStep, normLine, hvis],
        by simp [weaveStep, hF]⟩
    | hostEntry p o f =>
      exact ⟨by simp [weaveStep, normLine, hlines], by simp [weaveStep, normLine, hvis],
        by simp [weaveStep, hF]⟩
    | globalOption k v f =>
      exact ⟨by simp [weaveStep, normLine, hlines], by simp [weaveStep, normLine, hvis],
        by simp [weaveStep, hF]⟩
    | incl v f =>
      have hmono := ((monoPkg fs fuel).1 L base (weaveStep fs fuel base st1 (.incl v f))).2
      have hsub' : ∀ e ∈ (weaveStep fs fuel base st1 (.incl v f)).included_files,
          e ∈ D.included_files := fun e he => hsub e (hmono e he)
      have hstep1 : weaveStep fs fuel base st1 (.incl v f) =
          parseCands fs fuel (fs.resolve v base) (pushLine st1 (.incl v f)) := by
        simp only [weaveStep, parseInclude]
      have hstep2 : weaveStep (saveFS fs D F) fuel base st2 (normLine (.incl v f)) =
          parseCands (saveFS fs D F) fuel (fs.resolve v base)
            (pushLine st2 (.incl v f)) := by
        simp only [normLine, weaveStep, parseInclude, saveFS_resolve]
      rw [hstep1, hstep2]
      exact hc (fs.resolve v base) _ _
        ⟨by simp [hlines, normLine], by simp [hvis], by simp [hF]⟩
        (hstep1 ▸ hsub')

theorem simCands_of_weave (fs : FS) (D : SshConfig) (F : FsPath) (c : Str)
    (hread : fs.read F = some c) (hgood : Good fs D) (fuel : Nat)
    (hw : ∀ f, fuel = f + 1 → SimWeave fs D F f) : SimCands fs D F fuel := by
  intro cands
  induction cands with
  | nil =>
    intro st1 st2 hR _
    rw [parseCands_nil, parseCands_nil]
    exact hR
  | cons p ps ih =>
    intro st1 st2 hR hsub
    obtain ⟨hlines, hvis, hF⟩ := hR
    by_cases hif : fs.isFile p = true
    · by_cases hv : fs.canon p ∈ st1.visited_files
      · rw [parseCands_cons_visited fs fuel p ps st1 hif hv] at hsub ⊢
        rw [parseCands_cons_visited (saveFS fs D F) fuel p ps st2 hif (hvis.symm ▸ hv)]
        exact ih st1 st2 ⟨hlines, hvis, hF⟩ hsub
      · cases hr : fs.read p with
        | none =>
          have hpF : p ≠ F := by
            intro h
            rw [h, hread] at hr
            cases hr
          have hpK : p ∉ D.included_files.map Prod.fst := by
            intro hmem
            obtain ⟨e, hme, hfst⟩ := List.mem_map.1 hmem
            have he := (hgood.2 e.1 e.2 hme).2.1
            rw [hfst, hr] at he
            cases he
          have hr2 : (saveFS fs D F).read p = none := by
            rw [saveFS_read, if_neg (by simp [hpF, hpK])]
            exact hr
          rw [parseCands_cons_unread fs fuel p ps st1 hif hv hr] at hsub ⊢
          rw [parseCands_cons_unread (saveFS fs D F) fuel p ps st2 hif
            (fun h => hv (hvis ▸ h)) hr2]
          exact ih _ _ ⟨by simp [hlines], by simp [hvis], by simp [hF]⟩ hsub
        | some cp =>
          cases fuel with
          | zero =>
            have hr2 : ∃ c2, (saveFS fs D F).read p = some c2 := by
              by_cases hc2 : p = F ∨ p ∈ D.included_files.map Prod.fst
              · exact ⟨D.to_string p, by rw [saveFS_read, if_pos hc2]⟩
              · exact ⟨cp, by rw [saveFS_read, if_neg hc2]; exact hr⟩
            obtain ⟨c2, hr2⟩ := hr2
            rw [parseCands_cons_read fs 0 p ps st1 cp hif hv hr] at hsub ⊢
            rw [parseCands_cons_read (saveFS fs D F) 0 p ps st2 c2 hif
              (fun h => hv (hvis ▸ h)) hr2]
            rw [parseOne_zero] at hsub ⊢
            rw [parseOne_zero]
            exact ih _ _ ⟨by simp [hlines], by simp [hvis], by simp [hF]⟩ hsub
          | succ f =>
            have hmemX : (p, (⟨cp, []⟩ : IncludedFileData)) ∈
                (parseOne fs (f + 1) p cp (pushVisited st1 (fs.canon p))).included_files := by
              rw [parseOne_succ]
              simp
            have hpD : (p, (⟨cp, []⟩ : IncludedFileData)) ∈ D.included_files := by
              rw [parseCands_cons_read fs (f + 1) p ps st1 cp hif hv hr] at hsub
              exact hsub _ (((monoPkg fs (f + 1)).2 ps
                (parseOne fs (f + 1) p cp (pushVisited st1 (fs.canon p)))).2 _ hmemX)
            have hpK : p ∈ D.included_files.map Prod.fst :=
              List.mem_map.2 ⟨(p, ⟨cp, []⟩), hpD, rfl⟩
            have hr2 : (saveFS fs D F).read p = some (D.to_string p) := by
              rw [saveFS_read]
              simp [hpK]
            have hg4 := (hgood.2 p ⟨cp, []⟩ hpD).2.2.2
            have hBwf : ∀ l ∈ buildFile p (rustLines cp) none, WfLine l :=
              buildFile_wf p (rustLines cp) none (rustLines_no_nl cp) trivial
            have hbf2 : buildFile p (rustLines (D.to_string p)) none =
                (buildFile p (rustLines cp) none).map normLine := by
              rw [SshConfig.to_string, hg4, rustLines_renderLines _ hBwf]
              exact buildFile_roundtrip p _
                (fun l hl => ⟨hBwf l hl, buildFile_src p _ none l hl⟩)
                (buildFile_noHG p _ none)
            rw [parseCands_cons_read fs (f + 1) p ps st1 cp hif hv hr] at hsub ⊢
            rw [parseCands_cons_read (saveFS fs D F) (f + 1) p ps st2 (D.to_string p) hif
              (fun h => hv (hvis ▸ h)) hr2]
            have hsubW : ∀ e ∈ (weave fs f (buildFile p (rustLines cp) none) p
                (pushVisited st1 (fs.canon p))).included_files, e ∈ D.included_files := by
              intro e he
              refine hsub e (((monoPkg fs (f + 1)).2 ps _).2 e ?_)
              rw [parseOne_succ, pushIncluded_included, parseContent_eq_weave]
              exact List.mem_append.2 (Or.inl he)
            have hsim := hw f rfl (buildFile p (rustLines cp) none) p
              (pushVisited st1 (fs.canon p)) (pushVisited st2 (fs.canon p))
              ⟨by simp [hlines], by simp [hvis], by simp [hF]⟩ hsubW
            obtain ⟨hs1, hs2, hs3⟩ := hsim
            refine ih _ _ ⟨?_, ?_, ?_⟩ hsub
            · rw [parseOne_succ, parseOne_succ, pushIncluded_lines, pushIncluded_lines,
                parseContent_eq_weave, parseContent_eq_weave, hbf2]
              exact hs1
            · rw [parseOne_succ, parseOne_succ, pushIncluded_visited, pushIncluded_visited,
                parseContent_eq_weave, parseContent_eq_weave, hbf2]
              exact hs2
            · rw [parseOne_succ, pushIncluded_visited, parseContent_eq_weave]
              exact hs3
    · have hif' : fs.isFile p = false := by
        cases h : fs.isFile p
        · rfl
        · exact absurd h hif
      rw [parseCands_cons_notfile fs fuel p ps st1 hif'] at hsub ⊢
      rw [parseCands_cons_notfile (saveFS fs D F) fuel p ps st2 hif']
      exact ih st1 st2 ⟨hlines, hvis, hF⟩ hsub

theorem simPkg (fs : FS) (D : SshConfig) (F : FsPath) (c : Str)
    (hread : fs.read F = some c) (hgood : Good fs D) :
    ∀ fuel, SimWeave fs D F fuel ∧ SimCands fs D F fuel := by
  intro fuel
  induction fuel with
  | zero =>
    have hc : SimCands fs D F 0 :=
      simCands_of_weave fs D F c hread hgood 0 (by intro f hf; cases hf)
    exact ⟨simWeave_of_cands fs D F 0 hc, hc⟩
  | succ f ihf =>
    have hc : SimCands fs D F (f + 1) :=
      simCands_of_weave fs D F c hread hgood (f + 1) (by
        intro g hg
        cases hg
        exact ihf.1)
    exact ⟨simWeave_of_cands fs D F (f + 1) hc, hc⟩

theorem hostsOf_map_normLine (L : List ConfigLine) :
    hostsOf (L.map normLine) = hostsOf L := by
  induction L with
  | nil => rfl
  | cons l L ih =>
    cases l <;> simp [normLine, hostsOf, List.filterMap_cons] <;>
      simpa [hostsOf] using ih

/-! ## Claim C2 -/

/-- C2: round-trip idempotence. Parsing a file, saving with no edits
(modelled by `saveFS`, which overwrites the main file and every included
file with its rendered text), and re-parsing yields a document whose lines
are the `normLine`-image of the original's — in particular the sequence of
`HostEntry` patterns with their ordered option lists is unchanged. -/
theorem roundtrip_idempotence (fs : FS) (fuel : Nat) (F : FsPath) (c : Str)
    (D D2 : SshConfig) (hread : fs.read F = some c)
    (hparse : parse_file fs fuel F = Except.ok D)
    (hparse2 : parse_file (saveFS fs D F) fuel F = Except.ok D2) :
    D2.lines = D.lines.map normLine ∧ hostsOf D2.lines = hostsOf D.lines := by
  have hD : parsedDoc fs fuel F c = D := by
    have h0 := parse_file_eq_ok fs fuel F c hread
    rw [h0] at hparse
    exact Except.ok.inj hparse
  subst hD
  have hgood : Good fs (parsedDoc fs fuel F c) := (parsedDoc_spec fs fuel F c).1
  have hread2 : (saveFS fs (parsedDoc fs fuel F c) F).read F =
      some ((parsedDoc fs fuel F c).to_string F) := by
    rw [saveFS_read, if_pos (Or.inl rfl)]
  have hD2 : parsedDoc (saveFS fs (parsedDoc fs fuel F c) F) fuel F
      ((parsedDoc fs fuel F c).to_string F) = D2 := by
    have h0 := parse_file_eq_ok (saveFS fs (parsedDoc fs fuel F c) F) fuel F
      ((parsedDoc fs fuel F c).to_string F) hread2
    rw [h0] at hparse2
    exact Except.ok.inj hparse2
  subst hD2
  have hBwf : ∀ l ∈ buildFile F (rustLines c) none, WfLine l :=
    buildFile_wf F (rustLines c) none (rustLines_no_nl c) trivial
  have hbf2 : buildFile F (rustLines ((parsedDoc fs fuel F c).to_string F)) none =
      (buildFile F (rustLines c) none).map normLine := by
    rw [to_string_root, rustLines_renderLines _ hBwf]
    exact buildFile_roundtrip F _
      (fun l hl => ⟨hBwf l hl, buildFile_src F _ none l hl⟩)
      (buildFile_noHG F _ none)
  have hR0 : SimR fs F ⟨[], [], [fs.canon F]⟩
      ⟨[], [], [(saveFS fs (parsedDoc fs fuel F c) F).canon F]⟩ := by
    refine ⟨by simp, ?_, by simp⟩
    rw [saveFS_canon]
  have hsub : ∀ e ∈ (weave fs fuel (buildFile F (rustLines c) none) F
      ⟨[], [], [fs.canon F]⟩).included_files,
      e ∈ (parsedDoc fs fuel F c).included_files := by
    rw [← parseContent_eq_weave]
    exact fun e he => he
  have hsim := (simPkg fs (parsedDoc fs fuel F c) F c hread hgood fuel).1
    (buildFile F (rustLines c) none) F ⟨[], [], [fs.canon F]⟩
    ⟨[], [], [(saveFS fs (parsedDoc fs fuel F c) F).canon F]⟩ hR0 hsub
  have hrun1 : weave fs fuel (buildFile F (rustLines c) none) F
      ⟨[], [], [fs.canon F]⟩ = parsedDoc fs fuel F c := by
    rw [parsedDoc, parseContent_eq_weave]
  have hrun2 : parsedDoc (saveFS fs (parsedDoc fs fuel F c) F) fuel F
        ((parsedDoc fs fuel F c).to_string F) =
      weave (saveFS fs (parsedDoc fs fuel F c) F) fuel
        ((buildFile F (rustLines c) none).map normLine) F
        ⟨[], [], [(saveFS fs (parsedDoc fs fuel F c) F).canon F]⟩ := by
    rw [← hbf2]
    exact parseContent_eq_weave (saveFS fs (parsedDoc fs fuel F c) F) fuel
      (rustLines ((parsedDoc fs fuel F c).to_string F)) F none
      ⟨[], [], [(saveFS fs (parsedDoc fs fuel F c) F).canon F]⟩
  rw [hrun1, ← hrun2] at hsim
  refine ⟨hsim.1, ?_⟩
  rw [hsim.1, hostsOf_map_normLine]

/-- The C2 theorem at a concrete one-file filesystem with one host block. -/
theorem roundtrip_idempotence_witness :
    hostsOf (parsedDoc
        (saveFS (fsOne "/r" (("Host a\n    Port 1\n").toList))
          (parsedDoc (fsOne "/r" (("Host a\n    Port 1\n").toList)) 1 "/r"
            (("Host a\n    Port 1\n").toList)) "/r") 1 "/r"
        ((parsedDoc (fsOne "/r" (("Host a\n    Port 1\n").toList)) 1 "/r"
            (("Host a\n    Port 1\n").toList)).to_string "/r")).lines =
      hostsOf (parsedDoc (fsOne "/r" (("Host a\n    Port 1\n").toList)) 1 "/r"
        (("Host a\n    Port 1\n").toList)).lines :=
  (roundtrip_idempotence (fsOne "/r" (("Host a\n    Port 1\n").toList)) 1 "/r"
    (("Host a\n    Port 1\n").toList) _ _ rfl rfl rfl).2

/-! ## Claim C3: a concrete include cycle -/

/-- Content of file `/a`: it includes `/b`. -/
def cA : Str := ("# a\nHost ha\n    User u\nInclude b\nKeyA va\n").toList

/-- Content of file `/b`: it includes `/a` back. -/
def cB : Str := ("# b\nInclude a\nHost hb\n    Port 1\n").toList

/-- A filesystem with exactly the two files `/a` and `/b`, cyclically
including one another. -/
def fsAB : FS :=
  ⟨fun p => p == "/a" || p == "/b",
   fun p => if p = "/a" then some cA else if p = "/b" then some cB else none,
   fun _ => "io error", fun p => p,
   fun v _ => if v = ("b").toList then ["/b"] else
     if v = ("a").toList then ["/a"] else [],
   fun _ => none⟩

/-- The document parsing `/a` produces: every non-`Include` line of `/a`
and of `/b` appears exactly once, `/b` is recorded once, and the cyclic
include back to `/a` contributes only its `Include` line. -/
def docAB : SshConfig :=
  ⟨[.comment (("# a").toList) "/a",
    .hostEntry (("ha").toList) [(("User").toList, ("u").toList)] "/a",
    .incl (("b").toList) "/a",
    .comment (("# b").toList) "/b",
    .incl (("a").toList) "/b",
    .hostEntry (("hb").toList) [(("Port").toList, ("1").toList)] "/b",
    .globalOption (("KeyA").toList) (("va").toList) "/a"],
   [("/b", ⟨cB, []⟩)],
   ["/b", "/a"]⟩

theorem rustLines_cA : rustLines cA =
    [("# a").toList, ("Host ha").toList, ("    User u").toList,
      ("Include b").toList, ("KeyA va").toList] := by
  rw [show cA = ("# a").toList ++ '\n' ::
    (("Host ha\n    User u\nInclude b\nKeyA va\n").toList) by decide]
  rw [rustLines_chunk (("# a").toList)
    (("Host ha\n    User u\nInclude b\nKeyA va\n").toList) (by decide)]
  rw [show ("Host ha\n    User u\nInclude b\nKeyA va\n").toList =
    ("Host ha").toList ++ '\n' :: (("    User u\nInclude b\nKeyA va\n").toList) by decide]
  rw [rustLines_chunk (("Host ha").toList)
    (("    User u\nInclude b\nKeyA va\n").toList) (by decide)]
  rw [show ("    User u\nInclude b\nKeyA va\n").toList =
    ("    User u").toList ++ '\n' :: (("Include b\nKeyA va\n").toList) by decide]
  rw [rustLines_chunk (("    User u").toList) (("Include b\nKeyA va\n").toList) (by decide)]
  rw [show ("Include b\nKeyA va\n").toList =
    ("Include b").toList ++ '\n' :: (("KeyA va\n").toList) by decide]
  rw [rustLines_chunk (("Include b").toList) (("KeyA va\n").toList) (by decide)]
  rw [show ("KeyA va\n").toList = ("KeyA va").toList ++ '\n' :: ([] : Str) by decide]
  rw [rustLines_chunk (("KeyA va").toList) ([] : Str) (by decide), rustLines_nil]
  decide

theorem rustLines_cB : rustLines cB =
    [("# b").toList, ("Include a").toList, ("Host hb").toList,
      ("    Port 1").toList] := by
  rw [show cB = ("# b").toList ++ '\n' ::
    (("Include a\nHost hb\n    Port 1\n").toList) by decide]
  rw [rustLines_chunk (("# b").toList) (("Include a\nHost hb\n    Port 1\n").toList)
    (by decide)]
  rw [show ("Include a\nHost hb\n    Port 1\n").toList =
    ("Include a").toList ++ '\n' :: (("Host hb\n    Port 1\n").toList) by decide]
  rw [rustLines_chunk (("Include a").toList) (("Host hb\n    Port 1\n").toList) (by decide)]
  rw [show ("Host hb\n    Port 1\n").toList =
    ("Host hb").toList ++ '\n' :: (("    Port 1\n").toList) by decide]
  rw [rustLines_chunk (("Host hb").toList) (("    Port 1\n").toList) (by decide)]
  rw [show ("    Port 1\n").toList = ("    Port 1").toList ++ '\n' :: ([] : Str) by decide]
  rw [rustLines_chunk (("    Port 1").toList) ([] : Str) (by decide), rustLines_nil]
  decide

theorem flushHost_visited (cur : Option (Str × List (Str × Str))) (base : FsPath)
    (st : SshConfig) : (flushHost cur base st).visited_files = st.visited_files := by
  cases cur with
  | none => rfl
  | some po =>
    rcases po with ⟨p, o⟩
    rfl

theorem flushHost_included (cur : Option (Str × List (Str × Str))) (base : FsPath)
    (st : SshConfig) : (flushHost cur base st).included_files = st.included_files := by
  cases cur with
  | none => rfl
  | some po =>
    rcases po with ⟨p, o⟩
    rfl

/-- Whether a classified physical line is an `Include` directive. -/
def LineKind.isInclude : LineKind → Bool
  | .includeDir _ _ => true
  | _ => false

theorem parseCands_append_notfile (fs : FS) (fl : Nat) :
    ∀ (qs rest : List FsPath) (st : SshConfig), (∀ q ∈ qs, fs.isFile q = false) →
      parseCands fs fl (qs ++ rest) st = parseCands fs fl rest st := by
  intro qs
  induction qs with
  | nil => intro rest st _; rfl
  | cons q qs ih =>
    intro rest st h
    rw [List.cons_append, parseCands_cons_notfile fs fl q (qs ++ rest) st (h q (by simp))]
    exact ih rest st (fun x hx => h x (by simp [hx]))

/-- Processing a prefix of lines that contains no `Include` directive
touches neither the visited set nor the included-files map. -/
theorem parseContent_no_incl_prefix (fs : FS) (fl : Nat) (base : FsPath) :
    ∀ (pre rest : List Str) (cur : Option (Str × List (Str × Str))) (st : SshConfig),
      (∀ x ∈ pre, (classifyLine x).isInclude = false) →
      ∃ cur2 st2, parseContent fs fl (pre ++ rest) base cur st =
          parseContent fs fl rest base cur2 st2 ∧
        st2.visited_files = st.visited_files ∧
        st2.included_files = st.included_files := by
  intro pre
  induction pre with
  | nil => intro rest cur st _; exact ⟨cur, st, rfl, rfl, rfl⟩
  | cons x pre ih =>
    intro rest cur st h
    have hx := h x (by simp)
    have hrest : ∀ y ∈ pre, (classifyLine y).isInclude = false :=
      fun y hy => h y (by simp [hy])
    cases hcl : classifyLine x with
    | comment =>
      have hc := classifyLine_comment x hcl
      rw [List.cons_append, parseContent_comment fs fl x (pre ++ rest) base cur st hc]
      obtain ⟨c2, s2, heq, h1, h2⟩ :=
        ih rest none (pushLine (flushHost cur base st) (.comment x base)) hrest
      exact ⟨c2, s2, heq, by rw [h1]; simp [flushHost_visited],
        by rw [h2]; simp [flushHost_included]⟩
    | blank =>
      obtain ⟨hc1, hc2⟩ := classifyLine_blank x hcl
      rw [List.cons_append, parseContent_blank fs fl x (pre ++ rest) base cur st hc1 hc2]
      obtain ⟨c2, s2, heq, h1, h2⟩ :=
        ih rest none (pushLine (flushHost cur base st) (.empty base)) hrest
      exact ⟨c2, s2, heq, by rw [h1]; simp [flushHost_visited],
        by rw [h2]; simp [flushHost_included]⟩
    | malformed =>
      obtain ⟨hc1, hc2, hc3⟩ := classifyLine_malformed x hcl
      rw [List.cons_append, parseContent_malformed fs fl x (pre ++ rest) base cur st
        hc1 hc2 hc3]
      exact ih rest cur st hrest
    | hostDir k0 v0 =>
      obtain ⟨hc1, hc2, hc3, hc4⟩ := classifyLine_hostDir x k0 v0 hcl
      rw [List.cons_append, parseContent_host fs fl x (pre ++ rest) base cur st k0 v0
        hc1 hc2 hc3 hc4]
      obtain ⟨c2, s2, heq, h1, h2⟩ := ih rest (some (v0, [])) (flushHost cur base st) hrest
      exact ⟨c2, s2, heq, by rw [h1]; simp [flushHost_visited],
        by rw [h2]; simp [flushHost_included]⟩
    | includeDir k0 v0 =>
      rw [hcl] at hx
      simp [LineKind.isInclude] at hx
    | option k0 v0 =>
      obtain ⟨hc1, hc2, hc3, hc4, hc5⟩ := classifyLine_option x k0 v0 hcl
      cases cur with
      | some po =>
        rcases po with ⟨pp, oo⟩
        rw [List.cons_append, parseContent_opt fs fl x (pre ++ rest) base st k0 v0 pp oo
          hc1 hc2 hc3 hc4 hc5]
        exact ih rest (some (pp, oo ++ [(k0, v0)])) st hrest
      | none =>
        rw [List.cons_append, parseContent_global fs fl x (pre ++ rest) base st k0 v0
          hc1 hc2 hc3 hc4 hc5]
        obtain ⟨c2, s2, heq, h1, h2⟩ :=
          ih rest none (pushLine st (.globalOption k0 v0 base)) hrest
        exact ⟨c2, s2, heq, by rw [h1]; simp, by rw [h2]; simp⟩

theorem parseContent_mono_included (fs : FS) (fl : Nat) (ls : List Str) (base : FsPath)
    (cur : Option (Str × List (Str × Str))) (st : SshConfig) :
    ∀ e ∈ st.included_files, e ∈ (parseContent fs fl ls base cur st).included_files := by
  rw [parseContent_eq_weave]
  exact ((monoPkg fs fl).1 (buildFile base ls cur) base st).2

/-- C3: cycle safety and at-most-once inclusion, for every pair of
mutually-including files. For any filesystem and any files `A`, `B` with
distinct canonical paths, where `A`'s physical lines contain an `Include`
directive (the first one in `A`) whose first regular-file candidate is
`B`, parsing `A` succeeds at every positive fuel, `A`'s non-`Include`
lines project to exactly their one `ConfigLine` each
(`buildFile A (rustLines cA2) none`), `B` is recorded once and its
non-`Include` lines likewise project exactly once — with no hypothesis at
all on `B`'s content, so in particular when `B` includes `A` back — and
`A` itself is never re-included. The fixed cyclic pair `fsAB` instantiates
this to the full document `docAB`, and in general a candidate whose
canonical path is already in the visited set is never re-parsed. -/
theorem cycle_safety (fs : FS) (fuel : Nat) (A B : FsPath) (cA2 cB2 : Str)
    (l k v : Str) (pre post : List Str) (qs rs : List FsPath)
    (hrA : fs.read A = some cA2) (hrB : fs.read B = some cB2)
    (hcanon : fs.canon B ≠ fs.canon A)
    (hsplit : rustLines cA2 = pre ++ l :: post)
    (hpre : ∀ x ∈ pre, (classifyLine x).isInclude = false)
    (hl : classifyLine l = LineKind.includeDir k v)
    (hres : fs.resolve v A = qs ++ B :: rs)
    (hqs : ∀ q ∈ qs, fs.isFile q = false)
    (hBfile : fs.isFile B = true) :
    (∃ D : SshConfig, parse_file fs (fuel + 1) A = Except.ok D ∧
      filterSource A D.lines = buildFile A (rustLines cA2) none ∧
      (B, (⟨cB2, []⟩ : IncludedFileData)) ∈ D.included_files ∧
      filterSource B D.lines = buildFile B (rustLines cB2) none ∧
      (∀ d : IncludedFileData, (A, d) ∉ D.included_files)) ∧
    (∀ f : Nat, parse_file fsAB (f + 1) "/a" = Except.ok docAB) ∧
    (∀ (fs2 : FS) (fl : Nat) (p : FsPath) (ps : List FsPath) (st : SshConfig),
      fs2.isFile p = true → fs2.canon p ∈ st.visited_files →
      parseCands fs2 fl (p :: ps) st = parseCands fs2 fl ps st) := by
  refine ⟨?_, ?_, fun fs2 fl p ps st h1 h2 =>
    parseCands_cons_visited fs2 fl p ps st h1 h2⟩
  · obtain ⟨hgood, hfiltA, hAninc, hAvis⟩ := parsedDoc_spec fs (fuel + 1) A cA2
    have hpd : parsedDoc fs (fuel + 1) A cA2 =
        parseContent fs (fuel + 1) (pre ++ l :: post) A none
          ⟨[], [], [fs.canon A]⟩ := by
      rw [parsedDoc, hsplit]
    obtain ⟨cur2, st2, heq, hvis2, hinc2⟩ :=
      parseContent_no_incl_prefix fs (fuel + 1) A pre (l :: post) none
        ⟨[], [], [fs.canon A]⟩ hpre
    obtain ⟨h1, h2, h3, h4, h5⟩ := classifyLine_includeDir l k v hl
    rw [parseContent_include fs (fuel + 1) l post A cur2 st2 k v h1 h2 h3 h4 h5] at heq
    have hSvis : (pushLine (flushHost cur2 A st2) (.incl v A)).visited_files =
        [fs.canon A] := by
      rw [pushLine_visited, flushHost_visited, hvis2]
    have hstep : parseInclude fs (fuel + 1) v A
        (pushLine (flushHost cur2 A st2) (.incl v A)) =
        parseCands fs (fuel + 1) (B :: rs)
          (pushLine (flushHost cur2 A st2) (.incl v A)) := by
      rw [parseInclude, hres,
        parseCands_append_notfile fs (fuel + 1) qs (B :: rs) _ hqs]
    have hnv : fs.canon B ∉
        (pushLine (flushHost cur2 A st2) (.incl v A)).visited_files := by
      rw [hSvis]
      simp [hcanon]
    rw [parseCands_cons_read fs (fuel + 1) B rs _ cB2 hBfile hnv hrB] at hstep
    have hmem0 : (B, (⟨cB2, []⟩ : IncludedFileData)) ∈
        (parseOne fs (fuel + 1) B cB2
          (pushVisited (pushLine (flushHost cur2 A st2) (.incl v A))
            (fs.canon B))).included_files := by
      rw [parseOne_succ]
      simp
    have hmem1 := ((monoPkg fs (fuel + 1)).2 rs _).2 _ hmem0
    rw [← hstep] at hmem1
    have hmem2 := parseContent_mono_included fs (fuel + 1) post A none _ _ hmem1
    rw [← heq, ← hpd] at hmem2
    refine ⟨parsedDoc fs (fuel + 1) A cA2, parse_file_eq_ok fs (fuel + 1) A cA2 hrA,
      hfiltA, hmem2, ?_, hAninc⟩
    exact (hgood.2 B ⟨cB2, []⟩ hmem2).2.2.2
  · intro fuel
    suffices h : parsedDoc fsAB (fuel + 1) "/a" cA = docAB by
      rw [parse_file_eq_ok fsAB (fuel + 1) "/a" cA rfl, h]
    rw [parsedDoc, rustLines_cA, parseContent_eq_weave]
    rw [show buildFile "/a"
        [("# a").toList, ("Host ha").toList, ("    User u").toList,
          ("Include b").toList, ("KeyA va").toList] none =
      [.comment (("# a").toList) "/a",
        .hostEntry (("ha").toList) [(("User").toList, ("u").toList)] "/a",
        .incl (("b").toList) "/a",
        .globalOption (("KeyA").toList) (("va").toList) "/a"] by decide]
    rw [weave_cons, weave_cons, weave_cons, weave_cons]
    show pushLine
        (parseInclude fsAB (fuel + 1) (("b").toList) "/a"
          ⟨[.comment (("# a").toList) "/a",
            .hostEntry (("ha").toList) [(("User").toList, ("u").toList)] "/a",
            .incl (("b").toList) "/a"], [], ["/a"]⟩)
        (.globalOption (("KeyA").toList) (("va").toList) "/a") = docAB
    rw [parseInclude]
    show pushLine
        (parseCands fsAB (fuel + 1) ["/b"]
          ⟨[.comment (("# a").toList) "/a",
            .hostEntry (("ha").toList) [(("User").toList, ("u").toList)] "/a",
            .incl (("b").toList) "/a"], [], ["/a"]⟩)
        (.globalOption (("KeyA").toList) (("va").toList) "/a") = docAB
    rw [parseCands_cons_read fsAB (fuel + 1) "/b" []
      ⟨[.comment (("# a").toList) "/a",
        .hostEntry (("ha").toList) [(("User").toList, ("u").toList)] "/a",
        .incl (("b").toList) "/a"], [], ["/a"]⟩ cB rfl (by decide) rfl,
      parseCands_nil, parseOne_succ, rustLines_cB, parseContent_eq_weave]
    rw [show buildFile "/b"
        [("# b").toList, ("Include a").toList, ("Host hb").toList,
          ("    Port 1").toList] none =
      [.comment (("# b").toList) "/b",
        .incl (("a").toList) "/b",
        .hostEntry (("hb").toList) [(("Port").toList, ("1").toList)] "/b"] by decide]
    rw [weave_cons, weave_cons, weave_cons]
    show pushLine
        (pushIncluded
          (pushLine
            (parseInclude fsAB fuel (("a").toList) "/b"
              ⟨[.comment (("# a").toList) "/a",
                .hostEntry (("ha").toList) [(("User").toList, ("u").toList)] "/a",
                .incl (("b").toList) "/a",
                .comment (("# b").toList) "/b",
                .incl (("a").toList) "/b"], [], ["/b", "/a"]⟩)
            (.hostEntry (("hb").toList) [(("Port").toList, ("1").toList)] "/b"))
          "/b" cB)
        (.globalOption (("KeyA").toList) (("va").toList) "/a") = docAB
    rw [parseInclude]
    show pushLine
        (pushIncluded
          (pushLine
            (parseCands fsAB fuel ["/a"]
              ⟨[.comment (("# a").toList) "/a",
                .hostEntry (("ha").toList) [(("User").toList, ("u").toList)] "/a",
                .incl (("b").toList) "/a",
                .comment (("# b").toList) "/b",
                .incl (("a").toList) "/b"], [], ["/b", "/a"]⟩)
            (.hostEntry (("hb").toList) [(("Port").toList, ("1").toList)] "/b"))
          "/b" cB)
        (.globalOption (("KeyA").toList) (("va").toList) "/a") = docAB
    rw [parseCands_cons_visited fsAB fuel "/a" []
      ⟨[.comment (("# a").toList) "/a",
        .hostEntry (("ha").toList) [(("User").toList, ("u").toList)] "/a",
        .incl (("b").toList) "/a",
        .comment (("# b").toList) "/b",
        .incl (("a").toList) "/b"], [], ["/b", "/a"]⟩ rfl (by decide),
      parseCands_nil]
    rfl

/-- The C3 theorem at the concrete cyclic pair: `/a` includes `/b` and
`/b` includes `/a` back, and the universal conclusions hold. -/
theorem cycle_safety_witness :
    ∃ D : SshConfig, parse_file fsAB 1 "/a" = Except.ok D ∧
      filterSource "/a" D.lines = buildFile "/a" (rustLines cA) none ∧
      ("/b", (⟨cB, []⟩ : IncludedFileData)) ∈ D.included_files ∧
      filterSource "/b" D.lines = buildFile "/b" (rustLines cB) none ∧
      (∀ d : IncludedFileData, ("/a", d) ∉ D.included_files) :=
  (cycle_safety fsAB 0 "/a" "/b" cA cB (("Include b").toList) (("Include").toList)
    (("b").toList)
    [("# a").toList, ("Host ha").toList, ("    User u").toList]
    [("KeyA va").toList] [] []
    rfl rfl (by decide) (by rw [rustLines_cA]; rfl) (by decide) (by decide) rfl
    (by simp) rfl).1

/-! ## Claim C5 -/

/-- C5: the only parse error is an unreadable root. An unreadable root
fails with the filesystem's error text; a readable root always parses to a
document; a non-file include candidate is skipped outright and an
unreadable include candidate is skipped after being marked visited — in
both cases parsing continues and no error is produced. -/
theorem parse_error_iff_root_unreadable (fs : FS) (fuel : Nat) (F : FsPath) :
    (fs.read F = none → parse_file fs fuel F = Except.error (fs.readErr F)) ∧
    (∀ c, fs.read F = some c →
      parse_file fs fuel F = Except.ok (parsedDoc fs fuel F c)) ∧
    (∀ (p : FsPath) (ps : List FsPath) (st : SshConfig),
      (fs.isFile p = false →
        parseCands fs fuel (p :: ps) st = parseCands fs fuel ps st) ∧
      (fs.isFile p = true → fs.canon p ∉ st.visited_files → fs.read p = none →
        parseCands fs fuel (p :: ps) st =
          parseCands fs fuel ps (pushVisited st (fs.canon p)))) := by
  refine ⟨parse_file_eq_err fs fuel F, fun c hc => parse_file_eq_ok fs fuel F c hc,
    fun p ps st => ⟨parseCands_cons_notfile fs fuel p ps st, ?_⟩⟩
  intro h1 h2 h3
  exact parseCands_cons_unread fs fuel p ps st h1 h2 h3

/-- The C5 theorem at a concrete filesystem: a readable root parses, an
unreadable root fails with the error text. -/
theorem parse_error_iff_root_unreadable_witness :
    parse_file (fsOne "/w" (("Host x\n").toList)) 1 "/w" =
      Except.ok (parsedDoc (fsOne "/w" (("Host x\n").toList)) 1 "/w"
        (("Host x\n").toList)) ∧
    parse_file (fsOne "/w" (("Host x\n").toList)) 1 "/nope" =
      Except.error ((fsOne "/w" (("Host x\n").toList)).readErr "/nope") :=
  ⟨(parse_error_iff_root_unreadable (fsOne "/w" (("Host x\n").toList)) 1 "/w").2.1
      (("Host x\n").toList) rfl,
    (parse_error_iff_root_unreadable (fsOne "/w" (("Host x\n").toList)) 1 "/nope").1 rfl⟩

/-! ## Claim C7 -/

/-- C7: malformed-line handling. A non-comment, non-blank line with no
key/value split is dropped silently: parsing continues on the remaining
lines with the same state, and nothing is appended. The split is `none`
exactly when the trimmed line contains no whitespace character; otherwise
the trimmed line splits at its first whitespace character into the key and
the trimmed remainder. -/
theorem malformed_line_handling :
    (∀ (fs : FS) (fuel : Nat) (l : Str) (ls : List Str) (base : FsPath)
        (cur : Option (Str × List (Str × Str))) (st : SshConfig),
      isCommentLine l = false → isBlankLine l = false → keyValOf l = none →
      parseContent fs fuel (l :: ls) base cur st =
        parseContent fs fuel ls base cur st) ∧
    (∀ l : Str, keyValOf l = none ↔ ∀ c ∈ trim l, rustWs c = false) ∧
    (∀ (l k r : Str) (c : Char), rustWs c = true → (∀ x ∈ k, rustWs x = false) →
      trim l = k ++ c :: r → keyValOf l = some (k, trim r)) := by
  refine ⟨parseContent_malformed, fun l => ?_, fun l k r c hc hk htr => ?_⟩
  · rw [keyValOf]
    cases hs : splitFirstWs (trim l) with
    | none =>
      simp only []
      constructor
      · intro _
        exact (splitFirstWs_eq_none_iff (trim l)).1 hs
      · intro _
        trivial
    | some kr =>
      rcases kr with ⟨k, r⟩
      simp only []
      constructor
      · intro h
        cases h
      · intro h
        rw [(splitFirstWs_eq_none_iff (trim l)).2 h] at hs
        cases hs
  · rw [keyValOf, htr, splitFirstWs_append k r c hc hk]
    show some (trim k, trim r) = some (k, trim r)
    rw [trim_all_not_ws k hk]

/-- The C7 theorem evaluated: a lone token is dropped, and a concrete
split. -/
theorem malformed_line_handling_witness :
    parseContent (fsOne "/m" []) 1 [("lonely").toList] "/m" none ⟨[], [], ["/m"]⟩ =
      parseContent (fsOne "/m" []) 1 [] "/m" none ⟨[], [], ["/m"]⟩ ∧
    keyValOf (("  Port   22 ").toList) = some (("Port").toList, ("22").toList) :=
  ⟨malformed_line_handling.1 (fsOne "/m" []) 1 (("lonely").toList) [] "/m" none
      ⟨[], [], ["/m"]⟩ (by decide) (by decide) (by decide),
    malformed_line_handling.2.2 (("  Port   22 ").toList) (("Port").toList)
      (("  22").toList) ' ' (by decide) (by decide) (by decide)⟩

/-! ## Claim C9 -/

theorem parseCands_all_notfile (fs : FS) (fuel : Nat) :
    ∀ (cands : List FsPath) (st : SshConfig),
      (∀ p ∈ cands, fs.isFile p = false) → parseCands fs fuel cands st = st := by
  intro cands
  induction cands with
  | nil => intro st _; rw [parseCands_nil]
  | cons p ps ih =>
    intro st h
    rw [parseCands_cons_notfile fs fuel p ps st (h p (by simp))]
    exact ih st (fun q hq => h q (by simp [hq]))

/-- C9: a dangling include. When no candidate of an `Include` argument is
an existing regular file, `parse_include` returns the state unchanged (no
lines, no included-files entry, no visited mark, no failure), so the
include step appends exactly the one `Include` line recording the raw
trimmed argument and parsing continues. -/
theorem dangling_include (fs : FS) (fuel : Nat) (v : Str) (base : FsPath)
    (hnof : ∀ p ∈ fs.resolve v base, fs.isFile p = false) :
    (∀ st : SshConfig, parseInclude fs fuel v base st = st) ∧
    (∀ (l : Str) (ls : List Str) (cur : Option (Str × List (Str × Str)))
        (st : SshConfig) (k : Str),
      isCommentLine l = false → isBlankLine l = false → keyValOf l = some (k, v) →
      toLowercase k = includeKw →
      parseContent fs fuel (l :: ls) base cur st =
        parseContent fs fuel ls base none
          (pushLine (flushHost cur base st) (.incl v base))) := by
  have hskip : ∀ st : SshConfig, parseInclude fs fuel v base st = st := by
    intro st
    rw [parseInclude]
    exact parseCands_all_notfile fs fuel (fs.resolve v base) st hnof
  refine ⟨hskip, fun l ls cur st k h1 h2 h3 h5 => ?_⟩
  rw [parseContent_include fs fuel l ls base cur st k v h1 h2 h3
    (by rw [h5]; exact includeKw_ne_hostKw) h5, hskip]

/-- The C9 theorem at a concrete filesystem whose include pattern matches
nothing. -/
theorem dangling_include_witness :
    parseInclude (fsOne "/d" []) 1 (("zzz").toList) "/d" ⟨[], [], ["/d"]⟩ =
      ⟨[], [], ["/d"]⟩ :=
  (dangling_include (fsOne "/d" []) 1 (("zzz").toList) "/d"
    (fun p hp => by simp [fsOne] at hp)).1 ⟨[], [], ["/d"]⟩

/-! ## Claim C6 -/

theorem renderLines_append (A B : List ConfigLine) :
    renderLines (A ++ B) = renderLines A ++ renderLines B := by
  simp [renderLines]

/-- C6: the serializer's frame property. `to_string` for a target file
depends only on the document lines whose source is that file; and
appending an option `(k, v)` to a `HostEntry` sourced in `F` makes the
render of `F` contain the indented option line `    k v` while the render
of every other file is unchanged. -/
theorem render_frame (F : FsPath) :
    (∀ cfg cfg2 : SshConfig,
      filterSource F cfg.lines = filterSource F cfg2.lines →
      cfg.to_string F = cfg2.to_string F) ∧
    (∀ (A B : List ConfigLine) (p : Str) (o : List (Str × Str)) (k v : Str)
        (cfg cfg2 : SshConfig),
      cfg.lines = A ++ .hostEntry p o F :: B →
      cfg2.lines = A ++ .hostEntry p (o ++ [(k, v)]) F :: B →
      (∃ s t, cfg2.to_string F =
        s ++ ((("    ").toList ++ k ++ ' ' :: v ++ ['\n']) ++ t)) ∧
      (∀ G : FsPath, G ≠ F → cfg2.to_string G = cfg.to_string G)) := by
  constructor
  · intro cfg cfg2 h
    rw [SshConfig.to_string, SshConfig.to_string, h]
  · intro A B p o k v cfg cfg2 hl hl2
    constructor
    · refine ⟨renderLines (filterSource F A) ++ (("Host ").toList ++ p ++ '\n' ::
        (o.map (fun kv => ("    ").toList ++ kv.1 ++ ' ' :: kv.2 ++ ['\n'])).flatten),
        renderLines (filterSource F B), ?_⟩
      rw [SshConfig.to_string, hl2, filterSource_append]
      have hsp : filterSource F (ConfigLine.hostEntry p (o ++ [(k, v)]) F :: B) =
          ConfigLine.hostEntry p (o ++ [(k, v)]) F :: filterSource F B := by
        simp [filterSource, ConfigLine.source]
      rw [hsp, renderLines_append]
      have hrl : renderLines (ConfigLine.hostEntry p (o ++ [(k, v)]) F ::
          filterSource F B) = renderLine (ConfigLine.hostEntry p (o ++ [(k, v)]) F) ++
          renderLines (filterSource F B) := renderLines_cons _ _
      rw [hrl, renderLine]
      simp
    · intro G hG
      rw [SshConfig.to_string, SshConfig.to_string, hl, hl2, filterSource_append,
        filterSource_append]
      have h1 : filterSource G (ConfigLine.hostEntry p o F :: B) =
          filterSource G B := by
        simp [filterSource, ConfigLine.source, Ne.symm hG]
      have h2 : filterSource G (ConfigLine.hostEntry p (o ++ [(k, v)]) F :: B) =
          filterSource G B := by
        simp [filterSource, ConfigLine.source, Ne.symm hG]
      rw [h1, h2]

/-- The C6 theorem at a concrete one-host document gaining `Port 2222`. -/
theorem render_frame_witness :
    (∃ s t, (⟨[.hostEntry (("h").toList)
          [(("Port").toList, ("2222").toList)] "/f"], [], []⟩ : SshConfig).to_string "/f" =
      s ++ ((("    ").toList ++ ("Port").toList ++ ' ' :: ("2222").toList ++ ['\n']) ++ t)) ∧
    (∀ G : FsPath, G ≠ "/f" →
      (⟨[.hostEntry (("h").toList) [(("Port").toList, ("2222").toList)] "/f"], [], []⟩ :
          SshConfig).to_string G =
        (⟨[.hostEntry (("h").toList) [] "/f"], [], []⟩ : SshConfig).to_string G) :=
  (render_frame "/f").2 [] [] (("h").toList) [] (("Port").toList) (("2222").toList)
    ⟨[.hostEntry (("h").toList) [] "/f"], [], []⟩
    ⟨[.hostEntry (("h").toList) [(("Port").toList, ("2222").toList)] "/f"], [], []⟩
    rfl rfl

/-! ## Claim C8 -/

theorem writeSeq_spec (fs : FS) : ∀ w : List (FsPath × Str),
    writeSeq fs w = (w.takeWhile (fun e => (fs.writeErr e.1).isNone),
      (w.find? (fun e => (fs.writeErr e.1).isSome)).bind (fun e => fs.writeErr e.1)) := by
  intro w
  induction w with
  | nil => rfl
  | cons e rest ih =>
    rcases e with ⟨p, c⟩
    cases he : fs.writeErr p with
    | some err =>
      rw [writeSeq, he]
      rw [List.takeWhile_cons, List.find?_cons]
      simp [he]
    | none =>
      rw [writeSeq, he, ih]
      rw [List.takeWhile_cons, List.find?_cons]
      simp [he]

/-- C8: `save_all` writes the rendered main file first, then one rendered
file per entry of the included-files map, in order; the writes performed
are exactly the entries before the first failing path, the surfaced error
is that path's underlying I/O error, and the result is `ok` exactly when
no write fails.  Performed writes are not rolled back: they remain in the
trace even when a later write fails. -/
theorem save_all_spec (fs : FS) (cfg : SshConfig) (m : FsPath) :
    saveSeq cfg m = (m, cfg.to_string m) ::
      cfg.included_files.map (fun e => (e.1, cfg.to_string e.1)) ∧
    (save_allTrace fs cfg m).1 =
      (saveSeq cfg m).takeWhile (fun e => (fs.writeErr e.1).isNone) ∧
    (save_allTrace fs cfg m).2 =
      ((saveSeq cfg m).find? (fun e => (fs.writeErr e.1).isSome)).bind
        (fun e => fs.writeErr e.1) ∧
    (save_all fs cfg m = Except.ok () ↔ (save_allTrace fs cfg m).2 = none) ∧
    (∀ e, save_all fs cfg m = Except.error e ↔ (save_allTrace fs cfg m).2 = some e) := by
  refine ⟨rfl, ?_, ?_, ?_, ?_⟩
  · rw [save_allTrace, writeSeq_spec]
  · rw [save_allTrace, writeSeq_spec]
  · rw [save_all]
    cases h : (save_allTrace fs cfg m).2 with
    | none => simp
    | some e => simp
  · intro e
    rw [save_all]
    cases h : (save_allTrace fs cfg m).2 with
    | none => simp
    | some e2 => simp

/-- The C8 theorem at a concrete document and filesystem. -/
theorem save_all_spec_witness :
    save_all (fsOne "/s" []) docAB "/a" = Except.ok () ↔
      (save_allTrace (fsOne "/s" []) docAB "/a").2 = none :=
  (save_all_spec (fsOne "/s" []) docAB "/a").2.2.2.1

/-! ## Claim C10 -/

/-- The claim-level trimming invariant for one stored line: every stored
key, value, host pattern and include path is non-empty and trimmed, and
stored keys contain no whitespace at all. -/
def TrimmedLine : ConfigLine → Prop
  | .comment _ _ => True
  | .empty _ => True
  | .incl p _ => p ≠ [] ∧ trim p = p
  | .hostEntry pat opts _ =>
    (pat ≠ [] ∧ trim pat = pat) ∧
    ∀ kv ∈ opts, (kv.1 ≠ [] ∧ trim kv.1 = kv.1 ∧ ∀ c ∈ kv.1, rustWs c = false) ∧
      (kv.2 ≠ [] ∧ trim kv.2 = kv.2)
  | .globalOption k v _ =>
    (k ≠ [] ∧ trim k = k ∧ ∀ c ∈ k, rustWs c = false) ∧ (v ≠ [] ∧ trim v = v)

/-- C10: the trimming invariant of parsing. In every document `parse_file`
produces, every `GlobalOption` key/value, `HostEntry` pattern, host option
key/value and stored `Include` path is non-empty with no leading or
trailing whitespace, and every stored key contains no whitespace
character at all. -/
theorem parse_trimming_invariant (fs : FS) (fuel : Nat) (F : FsPath)
    (D : SshConfig) (hparse : parse_file fs fuel F = Except.ok D) :
    ∀ l ∈ D.lines, TrimmedLine l := by
  cases hre : fs.read F with
  | none =>
    rw [parse_file_eq_err fs fuel F hre] at hparse
    cases hparse
  | some c =>
    have hD : parsedDoc fs fuel F c = D := by
      have h0 := parse_file_eq_ok fs fuel F c hre
      rw [h0] at hparse
      exact Except.ok.inj hparse
    subst hD
    intro l hl
    have hwf := ((parsedDoc_spec fs fuel F c).1.1 l hl).1
    cases l with
    | comment t f => trivial
    | empty f => trivial
    | incl p f =>
      obtain ⟨h1, h2, _⟩ := hwf
      exact ⟨h1, h2⟩
    | hostEntry pat opts f =>
      obtain ⟨⟨hp1, hp2, _⟩, hopts⟩ := hwf
      refine ⟨⟨hp1, hp2⟩, fun kv hkv => ?_⟩
      obtain ⟨⟨hk1, hk2, _⟩, hv1, hv2, _⟩ := hopts kv hkv
      exact ⟨⟨hk1, trim_all_not_ws kv.1 hk2, hk2⟩, hv1, hv2⟩
    | globalOption k v f =>
      obtain ⟨⟨hk1, hk2, _⟩, hv1, hv2, _⟩ := hwf
      exact ⟨⟨hk1, trim_all_not_ws k hk2, hk2⟩, hv1, hv2⟩

/-- The C10 theorem at a concrete parse: the stored line produced by the
physical line `"Key  val "` satisfies the trimming invariant. -/
theorem parse_trimming_invariant_witness :
    TrimmedLine (ConfigLine.globalOption (("Key").toList) (("val").toList) "/t") := by
  have hdoc : parsedDoc (fsOne "/t" (("Key  val \n").toList)) 1 "/t"
      (("Key  val \n").toList) =
      ⟨[.globalOption (("Key").toList) (("val").toList) "/t"], [], ["/t"]⟩ := by
    rw [parsedDoc,
      show (("Key  val \n").toList : Str) = ("Key  val ").toList ++ '\n' :: ([] : Str)
        by decide,
      rustLines_chunk (("Key  val ").toList) ([] : Str) (by decide), rustLines_nil,
      parseContent_eq_weave]
    rfl
  refine parse_trimming_invariant (fsOne "/t" (("Key  val \n").toList)) 1 "/t"
    (parsedDoc (fsOne "/t" (("Key  val \n").toList)) 1 "/t" (("Key  val \n").toList)) rfl
    (ConfigLine.globalOption (("Key").toList) (("val").toList) "/t") ?_
  rw [hdoc]
  simp
